import Mathlib

/-!
# Note lifecycle manager (`src/services/notes.js`)

A shallow embedding of the four operations exported by `src/services/notes.js`
(`createNewNote`, `updateNote`, `deleteNote`, `protectNoteRecursively`) and of the helpers
they call (`encryptNote`, `decryptNote`, `protectNote`, `protectNoteHistory`), followed by
theorems about them.

Modelling conventions.

* The database is an explicit `Store`: the three tables `notes`, `notes_tree`,
  `notes_history` are lists of rows in table order, `sync` is the change log written by
  `sync_table.*`, and `writes` counts the rows the persistence gateway has written
  (one per inserted row, one per row matched by an `UPDATE`).
* `sql.execute("UPDATE ... WHERE c")` maps over the table and rewrites the rows matching
  `c`; `sql.insert` appends a row; `sql.getSingleResult` / `sql.getSingleValue` read the
  first matching row; `sql.getResults` / `sql.getFlattenedResults` read all matching rows.
* Identifiers are strings.  Dates are integers (milliseconds since the epoch);
  `utils.dateStr` / `utils.parseDate` are the order isomorphism between instants and date
  strings, so the SQL comparison of date strings is the comparison of the instants.
* Values produced by the environment (`utils.newNoteId()`, `utils.nowDate()`, the
  configured interval, ...) are parameters of the operation that reads them.
* `updateNote` reads the clock twice back to back (`new Date()` and `utils.nowDate()`, lines
  145-146); the model takes both readings to be the same instant `now`.
* The cipher of `data_encryption` is a pair of total functions; the laws a theorem needs
  (decrypting an encryption gives the plaintext back) are hypotheses of that theorem.
* Every invocation of `deleteNote` reads the clock once (line 195), before it appends to the
  change log; the model takes the readings from a function `clock` of the length of the
  change log at the time of the reading, which is strictly larger at each later reading, so
  any sequence of readings is some `clock`.
* JavaScript `null` / `undefined` values are `none`: a query that finds no row, a missing
  argument, and the comparison of a column with `NULL` (which holds for no row).
* Positions are integers.  Where the JavaScript code computes with a position (lines 18 and
  23) the value is a JavaScript number, an IEEE-754 double: `toDouble` gives the integer such
  a number holds, exact for safe integers and rounded above 2 ^ 53.  Arithmetic inside an SQL
  statement is on the stored integers.
* A JavaScript exception is an `Except.error`; `sql.doInTransaction` rolls the store back
  when its body raises.
* Recursive operations take a fuel argument; `none` means that the fuel ran out.
-/

namespace Notes

/-! ## Data model -/

/-- A row of the `notes` table. -/
structure NoteRow where
  note_id : String
  note_title : String
  note_text : String
  date_created : Int
  date_modified : Int
  is_protected : Bool
  is_deleted : Bool
deriving DecidableEq, Repr

/-- A row of the `notes_tree` table (one placement of a note under a parent). -/
structure TreeRow where
  note_tree_id : String
  note_id : String
  parent_note_id : String
  note_position : Int
  is_expanded : Bool
  date_modified : Int
  is_deleted : Bool
deriving DecidableEq, Repr

/-- A row of the `notes_history` table (one snapshot of a note). -/
structure HistoryRow where
  note_history_id : String
  note_id : String
  note_title : String
  note_text : String
  is_protected : Bool
  date_modified_from : Int
  date_modified_to : Int
deriving DecidableEq, Repr

/-- The entity kinds that `sync_table` records. -/
inductive SyncKind where
  | note
  | noteTree
  | noteHistory
  | noteReordering
deriving DecidableEq, Repr

/-- An entry of the change log.  `entity_id` is `none` when the code passed `null`, `source`
is `none` when the code passed `undefined`. -/
structure SyncEntry where
  kind : SyncKind
  entity_id : Option String
  source : Option String
deriving DecidableEq, Repr

/-- The database state. -/
structure Store where
  notes : List NoteRow
  tree : List TreeRow
  history : List HistoryRow
  sync : List SyncEntry
  writes : Nat
deriving DecidableEq, Repr

/-- JavaScript exceptions raised by the code. -/
inductive Err where
  | error (msg : String)
  | typeError (msg : String)
deriving DecidableEq, Repr

/-- The `data_encryption` module, which is not part of the source file: the cipher and the
derivation of the title / text initialisation vectors from an entity identifier. -/
structure Crypto where
  encrypt : String → String → String → String
  decryptString : String → String → String → String
  noteTitleIv : String → String
  noteTextIv : String → String

/-! ## `sync_table` -/

/-- The call `sync_table.addNoteSync(noteId, sourceId)`. -/
def addNoteSync (s : Store) (noteId : Option String) (sourceId : Option String) : Store :=
  { s with sync := s.sync ++ [⟨SyncKind.note, noteId, sourceId⟩] }

/-- The call `sync_table.addNoteTreeSync(noteTreeId, sourceId)`. -/
def addNoteTreeSync (s : Store) (noteTreeId : String) (sourceId : Option String) : Store :=
  { s with sync := s.sync ++ [⟨SyncKind.noteTree, some noteTreeId, sourceId⟩] }

/-- The call `sync_table.addNoteHistorySync(noteHistoryId, sourceId)`. -/
def addNoteHistorySync (s : Store) (noteHistoryId : String) (sourceId : Option String) :
    Store :=
  { s with sync := s.sync ++ [⟨SyncKind.noteHistory, some noteHistoryId, sourceId⟩] }

/-- The call `sync_table.addNoteReorderingSync(parentNoteId, sourceId)`. -/
def addNoteReorderingSync (s : Store) (parentNoteId : String) (sourceId : Option String) :
    Store :=
  { s with sync := s.sync ++ [⟨SyncKind.noteReordering, some parentNoteId, sourceId⟩] }

/-! ## `sql` -/

/-- The wrapper `sql.doInTransaction(body)`: commit the store the body produced, or roll
back to the store the transaction started from when the body raises. -/
def doInTransaction (body : Store → Except Err Store) (s : Store) : Store × Except Err Unit :=
  match body s with
  | .ok s' => (s', .ok ())
  | .error e => (s, .error e)

/-- SQL `MAX` over a column: `NULL` (here `none`) on no rows. -/
def sqlMax : List Int → Option Int
  | [] => none
  | x :: xs =>
    match sqlMax xs with
    | none => some x
    | some m => some (if m ≤ x then x else m)

/-- The rows of `SELECT ... FROM notes_tree WHERE parent_note_id = ? AND is_deleted = 0`. -/
def liveChildren (t : List TreeRow) (parentNoteId : String) : List TreeRow :=
  t.filter (fun r => r.parent_note_id == parentNoteId && !r.is_deleted)

/-- The query
`SELECT MAX(note_position) FROM notes_tree WHERE parent_note_id = ? AND is_deleted = 0`. -/
def selectMaxNotePos (t : List TreeRow) (parentNoteId : String) : Option Int :=
  sqlMax ((liveChildren t parentNoteId).map (fun r => r.note_position))

/-- The query `SELECT note_position FROM notes_tree WHERE note_tree_id = ?`
(first matching row, `none` for JavaScript `undefined`). -/
def selectNoteTree (t : List TreeRow) (noteTreeId : String) : Option TreeRow :=
  t.find? (fun r => r.note_tree_id == noteTreeId)

/-- The row predicate of the `UPDATE` at lines 26-27:
`parent_note_id = ? AND note_position > ? AND is_deleted = 0`. -/
def shiftCond (parentNoteId : String) (pos : Int) (r : TreeRow) : Bool :=
  r.parent_note_id == parentNoteId && decide (pos < r.note_position) && !r.is_deleted

/-- The statement `UPDATE notes_tree SET note_position = note_position + 1
WHERE parent_note_id = ? AND note_position > ? AND is_deleted = 0`. -/
def execShiftPositions (s : Store) (parentNoteId : String) (pos : Int) : Store :=
  { s with
    tree := s.tree.map (fun r =>
      if shiftCond parentNoteId pos r then { r with note_position := r.note_position + 1 }
      else r)
    writes := s.writes + (s.tree.filter (shiftCond parentNoteId pos)).length }

/-- The call `sql.insert("notes", row)`. -/
def insertNote (s : Store) (row : NoteRow) : Store :=
  { s with notes := s.notes ++ [row], writes := s.writes + 1 }

/-- The call `sql.insert("notes_tree", row)`. -/
def insertNoteTree (s : Store) (row : TreeRow) : Store :=
  { s with tree := s.tree ++ [row], writes := s.writes + 1 }

/-- The call `sql.insert("notes_history", row)`. -/
def insertNoteHistory (s : Store) (row : HistoryRow) : Store :=
  { s with history := s.history ++ [row], writes := s.writes + 1 }

/-! ## JavaScript numbers -/

/-- The least exponent `e' ≥ e` with `a < 2 ^ (53 + e')`, searched for `fuel` steps. -/
def doubleExponent : Nat → Nat → Nat → Nat
  | 0, e, _ => e
  | fuel + 1, e, a => if a < 2 ^ (53 + e) then e else doubleExponent fuel (e + 1) a

/-- The integer held by a JavaScript number that receives the integer `n`: the IEEE-754
double nearest to `n`, which keeps 53 significant bits (round to nearest, ties to even).
Overflow to `Infinity` is not modelled: it starts at 2 ^ 1024, far above the 64-bit integers
a column holds. -/
def toDouble (n : Int) : Int :=
  let a := n.natAbs
  let unit := 2 ^ doubleExponent 971 0 a
  let q := a / unit
  let r := a % unit
  let m := if 2 * r < unit then q else if unit < 2 * r then q + 1
    else if q % 2 = 0 then q else q + 1
  n.sign * ((m * unit : Nat) : Int)

/-- A JavaScript safe integer: magnitude below 2 ^ 53 (`Number.isSafeInteger`). -/
def SafeInteger (n : Int) : Prop := n.natAbs < 2 ^ 53

/-! ## `createNewNote` -/

/-- The `note` argument of `createNewNote`. -/
structure NewNote where
  target : String
  target_note_tree_id : String
  note_title : String
  is_protected : Bool
deriving DecidableEq, Repr

/-- Lines 15-33 of `createNewNote`: the position of the new placement, together with the
store after the sibling shift of the `after` branch.  A position fetched from the database
arrives as a JavaScript number (`toDouble`), and `+ 1` is the addition of JavaScript
numbers. -/
def createNewNotePos (s : Store) (parentNoteId : String) (note : NewNote)
    (sourceId : Option String) : Except Err (Int × Store) :=
  if note.target == "into" then
    match selectMaxNotePos s.tree parentNoteId with
    | none => .ok (0, s)
    | some maxNotePos => .ok (toDouble (toDouble maxNotePos + 1), s)
  else if note.target == "after" then
    match selectNoteTree s.tree note.target_note_tree_id with
    | none => .error (.typeError "Cannot read property 'note_position' of undefined")
    | some afterNote =>
      let afterNotePosition := toDouble afterNote.note_position
      let s1 := execShiftPositions s parentNoteId afterNotePosition
      .ok (toDouble (afterNotePosition + 1), addNoteReorderingSync s1 parentNoteId sourceId)
  else
    .error (.error ("Unknown target: " ++ note.target))

/-- The body of the transaction of `createNewNote` (lines 15-58).  `noteId`, `noteTreeId`
and `now` are the values of `utils.newNoteId()`, `utils.newNoteTreeId()` and
`utils.nowDate()`. -/
def createNewNoteBody (noteId noteTreeId : String) (now : Int) (parentNoteId : String)
    (note : NewNote) (sourceId : Option String) (s : Store) : Except Err Store :=
  match createNewNotePos s parentNoteId note sourceId with
  | .error e => .error e
  | .ok (newNotePos, s1) =>
    let s2 := insertNote s1
      { note_id := noteId, note_title := note.note_title, note_text := "",
        date_created := now, date_modified := now, is_protected := note.is_protected,
        is_deleted := false }
    let s3 := addNoteSync s2 (some noteId) sourceId
    let s4 := insertNoteTree s3
      { note_tree_id := noteTreeId, note_id := noteId, parent_note_id := parentNoteId,
        note_position := newNotePos, is_expanded := false, date_modified := now,
        is_deleted := false }
    .ok (addNoteTreeSync s4 noteTreeId sourceId)

/-- The function `createNewNote(parentNoteId, note, sourceId)`: the store after the call and
either the exception or the returned pair `{noteId, noteTreeId}`. -/
def createNewNote (noteId noteTreeId : String) (now : Int) (parentNoteId : String)
    (note : NewNote) (sourceId : Option String) (s : Store) :
    Store × Except Err (String × String) :=
  match doInTransaction (createNewNoteBody noteId noteTreeId now parentNoteId note sourceId) s with
  | (s', .ok _) => (s', .ok (noteId, noteTreeId))
  | (s', .error e) => (s', .error e)

/-! ## Protection toggle -/

/-- The query `SELECT * FROM notes WHERE note_id = ?` through `sql.getSingleResult`
(first matching row, `none` for JavaScript `undefined`). -/
def selectNote (notes : List NoteRow) (noteId : String) : Option NoteRow :=
  notes.find? (fun r => r.note_id == noteId)

/-- The query `SELECT note_id FROM notes_tree WHERE parent_note_id = ?` through
`sql.getFlattenedResults` (deleted placements are not filtered out). -/
def selectChildNoteIds (t : List TreeRow) (noteId : String) : List String :=
  (t.filter (fun r => r.parent_note_id == noteId)).map (fun r => r.note_id)

/-- The query `SELECT * FROM notes_history WHERE note_id = ? AND is_protected != ?`. -/
def selectHistoryToChange (h : List HistoryRow) (noteId : String) (protect : Bool) :
    List HistoryRow :=
  h.filter (fun r => r.note_id == noteId && (r.is_protected != protect))

/-- The statement
`UPDATE notes SET note_title = ?, note_text = ?, is_protected = ? WHERE note_id = ?`. -/
def execUpdateNoteContent (s : Store) (title text : String) (isProtected : Bool)
    (noteId : String) : Store :=
  { s with
    notes := s.notes.map (fun r =>
      if r.note_id == noteId then
        { r with note_title := title, note_text := text, is_protected := isProtected }
      else r)
    writes := s.writes + (s.notes.filter (fun r => r.note_id == noteId)).length }

/-- The statement `UPDATE notes_history SET note_title = ?, note_text = ?, is_protected = ?
WHERE note_history_id = ?`. -/
def execUpdateHistory (s : Store) (title text : String) (isProtected : Bool)
    (noteHistoryId : String) : Store :=
  { s with
    history := s.history.map (fun r =>
      if r.note_history_id == noteHistoryId then
        { r with note_title := title, note_text := text, is_protected := isProtected }
      else r)
    writes := s.writes + (s.history.filter (fun r => r.note_history_id == noteHistoryId)).length }

/-- The function `decryptNote(note, dataKey)` (lines 84-88), on the in-memory row. -/
def decryptNote (c : Crypto) (note : NoteRow) (dataKey : String) : NoteRow :=
  { note with
    note_title := c.decryptString dataKey (c.noteTitleIv note.note_id) note.note_title
    note_text := c.decryptString dataKey (c.noteTextIv note.note_id) note.note_text
    is_protected := false }

/-- Lines 94-96 of `protectNote`: the in-memory row after encryption. -/
def encryptNoteRow (c : Crypto) (note : NoteRow) (dataKey : String) : NoteRow :=
  { note with
    note_title := c.encrypt dataKey (c.noteTitleIv note.note_id) note.note_title
    note_text := c.encrypt dataKey (c.noteTextIv note.note_id) note.note_text
    is_protected := true }

/-- The body of the loop of `protectNoteHistory` (lines 122-131): the in-memory snapshot
after encryption or decryption with the IVs derived from its own identifier. -/
def protectHistoryRow (c : Crypto) (dataKey : String) (protect : Bool) (h : HistoryRow) :
    HistoryRow :=
  if protect then
    { h with
      note_title := c.encrypt dataKey (c.noteTitleIv h.note_history_id) h.note_title
      note_text := c.encrypt dataKey (c.noteTextIv h.note_history_id) h.note_text
      is_protected := true }
  else
    { h with
      note_title := c.decryptString dataKey (c.noteTitleIv h.note_history_id) h.note_title
      note_text := c.decryptString dataKey (c.noteTextIv h.note_history_id) h.note_text
      is_protected := false }

/-- One iteration of the loop of `protectNoteHistory` (lines 121-137). -/
def protectHistoryStep (c : Crypto) (dataKey : String) (protect : Bool)
    (sourceId : Option String) (s : Store) (h : HistoryRow) : Store :=
  let h' := protectHistoryRow c dataKey protect h
  addNoteHistorySync
    (execUpdateHistory s h'.note_title h'.note_text h'.is_protected h'.note_history_id)
    h'.note_history_id sourceId

/-- The function `protectNoteHistory(noteId, dataKey, protect, sourceId)`. -/
def protectNoteHistory (c : Crypto) (s : Store) (noteId dataKey : String) (protect : Bool)
    (sourceId : Option String) : Store :=
  (selectHistoryToChange s.history noteId protect).foldl
    (protectHistoryStep c dataKey protect sourceId) s

/-- Lines 91-104 of `protectNote`: the in-memory row and the `changed` flag. -/
def protectNoteRow (c : Crypto) (note : NoteRow) (dataKey : String) (protect : Bool) :
    NoteRow × Bool :=
  if protect && !note.is_protected then (encryptNoteRow c note dataKey, true)
  else if !protect && note.is_protected then (decryptNote c note dataKey, true)
  else (note, false)

/-- The function `protectNote(note, dataKey, protect, sourceId)`. -/
def protectNote (c : Crypto) (s : Store) (note : NoteRow) (dataKey : String) (protect : Bool)
    (sourceId : Option String) : Store :=
  let (note', changed) := protectNoteRow c note dataKey protect
  let s1 :=
    if changed then
      addNoteSync
        (execUpdateNoteContent s note'.note_title note'.note_text note'.is_protected
          note'.note_id)
        (some note'.note_id) sourceId
    else s
  protectNoteHistory c s1 note'.note_id dataKey protect sourceId

/-- A `for ... of` loop whose body may run out of fuel or raise. -/
def forEachNote (body : Store → String → Option (Except Err Store)) :
    List String → Store → Option (Except Err Store)
  | [], s => some (.ok s)
  | x :: xs, s =>
    match body s x with
    | none => none
    | some (.error e) => some (.error e)
    | some (.ok s') => forEachNote body xs s'

/-- The function `protectNoteRecursively(noteId, dataKey, protect, sourceId)`.  A missing
note row makes `protectNote` read a property of `undefined`. -/
def protectNoteRecursively (c : Crypto) (dataKey : String) (protect : Bool)
    (sourceId : Option String) : Nat → Store → String → Option (Except Err Store)
  | 0, _, _ => none
  | fuel + 1, s, noteId =>
    match selectNote s.notes noteId with
    | none => some (.error (.typeError "Cannot read property 'is_protected' of undefined"))
    | some note =>
      let s1 := protectNote c s note dataKey protect sourceId
      forEachNote (protectNoteRecursively c dataKey protect sourceId fuel)
        (selectChildNoteIds s1.tree noteId) s1

/-! ## `updateNote` -/

/-- The object `newNote.detail` passed to `updateNote`. -/
structure NoteDetail where
  note_id : String
  note_title : String
  note_text : String
  is_protected : Bool
  date_created : Int
deriving DecidableEq, Repr

/-- The function `encryptNote(note, dataKey)` (lines 67-70), on `note.detail`. -/
def encryptNote (c : Crypto) (detail : NoteDetail) (dataKey : String) : NoteDetail :=
  { detail with
    note_title := c.encrypt dataKey (c.noteTitleIv detail.note_id) detail.note_title
    note_text := c.encrypt dataKey (c.noteTextIv detail.note_id) detail.note_text }

/-- The query
`SELECT note_history_id FROM notes_history WHERE note_id = ? AND date_modified_to >= ?`
through `sql.getSingleValue` (first matching row). -/
def selectRecentHistoryId (h : List HistoryRow) (noteId : String) (historyCutoff : Int) :
    Option String :=
  (h.find? (fun r => r.note_id == noteId && decide (historyCutoff ≤ r.date_modified_to))).map
    (fun r => r.note_history_id)

/-- JavaScript truthiness of the value returned by `selectRecentHistoryId`:
`undefined` and the empty string are falsy. -/
def truthyId : Option String → Bool
  | none => false
  | some v => v != ""

/-- The statement `UPDATE notes SET note_title = ?, note_text = ?, is_protected = ?,
date_modified = ? WHERE note_id = ?`. -/
def execUpdateNote (s : Store) (title text : String) (isProtected : Bool) (dateModified : Int)
    (noteId : String) : Store :=
  { s with
    notes := s.notes.map (fun r =>
      if r.note_id == noteId then
        { r with note_title := title, note_text := text, is_protected := isProtected,
                 date_modified := dateModified }
      else r)
    writes := s.writes + (s.notes.filter (fun r => r.note_id == noteId)).length }

/-- Lines 159-176 of `updateNote`: the snapshot row built from the stored row `oldNote`,
decrypted first when it is protected. -/
def snapshotRow (c : Crypto) (newNoteHistoryId : String) (now : Int) (noteId : String)
    (dataKey : String) (oldNote0 : NoteRow) : HistoryRow :=
  let oldNote := if oldNote0.is_protected then decryptNote c oldNote0 dataKey else oldNote0
  { note_history_id := newNoteHistoryId, note_id := noteId,
    note_title := oldNote.note_title, note_text := oldNote.note_text,
    is_protected := false, date_modified_from := oldNote.date_modified,
    date_modified_to := now }

/-- The condition of line 158:
`!existingNoteHistoryId && msSinceDateCreated >= historySnapshotTimeInterval * 1000`. -/
def snapshotDue (now : Int) (historySnapshotTimeInterval : Int)
    (existingNoteHistoryId : Option String) (detail : NoteDetail) : Bool :=
  let msSinceDateCreated := now - detail.date_created
  !truthyId existingNoteHistoryId
    && decide (historySnapshotTimeInterval * 1000 ≤ msSinceDateCreated)

/-- Lines 158-179 of `updateNote`: the conditional snapshot of the stored note. -/
def updateNoteSnapshot (c : Crypto) (newNoteHistoryId : String) (now : Int)
    (historySnapshotTimeInterval : Int) (existingNoteHistoryId : Option String)
    (noteId : String) (detail : NoteDetail) (dataKey : String) (sourceId : Option String)
    (s : Store) : Except Err Store :=
  if snapshotDue now historySnapshotTimeInterval existingNoteHistoryId detail then
    match selectNote s.notes noteId with
    | none => .error (.typeError "Cannot read property 'is_protected' of undefined")
    | some oldNote =>
      let s1 := insertNoteHistory s (snapshotRow c newNoteHistoryId now noteId dataKey oldNote)
      .ok (addNoteHistorySync s1 newNoteHistoryId sourceId)
  else .ok s

/-- Lines 181-190 of `updateNote`: align the history, overwrite the note row, log the
change.  The call of `protectNoteHistory` at line 181 passes no `sourceId`. -/
def updateNoteWrite (c : Crypto) (now : Int) (noteId : String) (detail : NoteDetail)
    (dataKey : String) (sourceId : Option String) (s1 : Store) : Store :=
  let s2 := protectNoteHistory c s1 noteId dataKey detail.is_protected none
  let s3 := execUpdateNote s2 detail.note_title detail.note_text detail.is_protected now noteId
  addNoteSync s3 (some noteId) sourceId

/-- The body of the transaction of `updateNote` (lines 156-190); `detail` is
`newNote.detail` after the optional encryption of lines 141-143. -/
def updateNoteBody (c : Crypto) (newNoteHistoryId : String) (now : Int)
    (historySnapshotTimeInterval : Int) (existingNoteHistoryId : Option String)
    (noteId : String) (detail : NoteDetail) (dataKey : String) (sourceId : Option String)
    (s : Store) : Except Err Store :=
  match updateNoteSnapshot c newNoteHistoryId now historySnapshotTimeInterval
      existingNoteHistoryId noteId detail dataKey sourceId s with
  | .error e => .error e
  | .ok s1 => .ok (updateNoteWrite c now noteId detail dataKey sourceId s1)

/-- Lines 141-143 of `updateNote`: the incoming note, encrypted when it asks for
protection. -/
def incomingDetail (c : Crypto) (newNote : NoteDetail) (dataKey : String) : NoteDetail :=
  if newNote.is_protected then encryptNote c newNote dataKey else newNote

/-- The function `updateNote(noteId, newNote, dataKey, sourceId)`.  `now` is the clock
reading of lines 145-146, `historySnapshotTimeInterval` the parsed option (seconds) and
`newNoteHistoryId` the value of `utils.newNoteHistoryId()`. -/
def updateNote (c : Crypto) (newNoteHistoryId : String) (now : Int)
    (historySnapshotTimeInterval : Int) (noteId : String) (newNote : NoteDetail)
    (dataKey : String) (sourceId : Option String) (s : Store) : Store × Except Err Unit :=
  let detail := incomingDetail c newNote dataKey
  let historyCutoff := now - historySnapshotTimeInterval * 1000
  let existingNoteHistoryId := selectRecentHistoryId s.history noteId historyCutoff
  doInTransaction
    (updateNoteBody c newNoteHistoryId now historySnapshotTimeInterval existingNoteHistoryId
      noteId detail dataKey sourceId) s

/-! ## `deleteNote` -/

/-- The effect on one placement row of
`UPDATE notes_tree SET is_deleted = 1, date_modified = ? WHERE note_tree_id = ?`. -/
def treeRowDeleted (now : Int) (noteTreeId : String) (r : TreeRow) : TreeRow :=
  if r.note_tree_id == noteTreeId then { r with is_deleted := true, date_modified := now }
  else r

/-- The statement
`UPDATE notes_tree SET is_deleted = 1, date_modified = ? WHERE note_tree_id = ?`. -/
def execDeleteNoteTree (s : Store) (now : Int) (noteTreeId : String) : Store :=
  { s with
    tree := s.tree.map (treeRowDeleted now noteTreeId)
    writes := s.writes + (s.tree.filter (fun r => r.note_tree_id == noteTreeId)).length }

/-- The query `SELECT note_id FROM notes_tree WHERE note_tree_id = ?` through
`sql.getSingleValue` (first matching row, `none` for `null` when there is no row). -/
def selectNoteIdOfTree (t : List TreeRow) (noteTreeId : String) : Option String :=
  (selectNoteTree t noteTreeId).map (fun r => r.note_id)

/-- The query `SELECT COUNT(*) FROM notes_tree WHERE note_id = ? AND is_deleted = 0`; with a
`null` argument the comparison `note_id = NULL` holds for no row. -/
def countLivePlacements (t : List TreeRow) (noteId : Option String) : Nat :=
  match noteId with
  | none => 0
  | some n => (t.filter (fun r => r.note_id == n && !r.is_deleted)).length

/-- The effect on one note row of
`UPDATE notes SET is_deleted = 1, date_modified = ? WHERE note_id = ?`. -/
def noteRowDeleted (now : Int) (noteId : String) (r : NoteRow) : NoteRow :=
  if r.note_id == noteId then { r with is_deleted := true, date_modified := now } else r

/-- The statement `UPDATE notes SET is_deleted = 1, date_modified = ? WHERE note_id = ?`; with
a `null` argument it matches no row. -/
def execDeleteNoteRow (s : Store) (now : Int) (noteId : Option String) : Store :=
  match noteId with
  | none => s
  | some n =>
    { s with
      notes := s.notes.map (noteRowDeleted now n)
      writes := s.writes + (s.notes.filter (fun r => r.note_id == n)).length }

/-- The query
`SELECT note_tree_id FROM notes_tree WHERE parent_note_id = ? AND is_deleted = 0`; with a
`null` argument it returns no row. -/
def selectLiveChildTreeIds (t : List TreeRow) (noteId : Option String) : List String :=
  match noteId with
  | none => []
  | some n => (liveChildren t n).map (fun r => r.note_tree_id)

/-- Lines 197-198 of `deleteNote`: mark the placement deleted and log it. -/
def markPlacementDeleted (now : Int) (sourceId : Option String) (s : Store)
    (noteTreeId : String) : Store :=
  addNoteTreeSync (execDeleteNoteTree s now noteTreeId) noteTreeId sourceId

/-- Lines 205-206 of `deleteNote`: mark the note deleted and log it. -/
def markNoteDeleted (now : Int) (sourceId : Option String) (s : Store)
    (noteId : Option String) : Store :=
  addNoteSync (execDeleteNoteRow s now noteId) noteId sourceId

/-- The function `deleteNote(noteTreeId, sourceId)`.  Every invocation reads the clock once,
before it appends to the change log; `clock` gives the instant read as a function of the
length of the change log at that moment, which is larger at each later reading. -/
def deleteNote (clock : Nat → Int) (sourceId : Option String) :
    Nat → Store → String → Option (Except Err Store)
  | 0, _, _ => none
  | fuel + 1, s, noteTreeId =>
    let now := clock s.sync.length
    let s2 := markPlacementDeleted now sourceId s noteTreeId
    let noteId := selectNoteIdOfTree s2.tree noteTreeId
    let notDeletedNoteTreesCount := countLivePlacements s2.tree noteId
    if notDeletedNoteTreesCount == 0 then
      let s4 := markNoteDeleted now sourceId s2 noteId
      forEachNote (deleteNote clock sourceId fuel) (selectLiveChildTreeIds s4.tree noteId) s4
    else some (.ok s2)

/-- The store an invocation of `deleteNote` has reached when it queries the children
(line 208), or when it returns at line 204. -/
def deleteNoteHead (clock : Nat → Int) (sourceId : Option String) (s : Store)
    (noteTreeId : String) : Store :=
  let now := clock s.sync.length
  let s2 := markPlacementDeleted now sourceId s noteTreeId
  let noteId := selectNoteIdOfTree s2.tree noteTreeId
  if countLivePlacements s2.tree noteId == 0 then markNoteDeleted now sourceId s2 noteId
  else s2

/-- The placements an invocation of `deleteNote` goes on to delete (none when it returns at
line 204). -/
def deleteNoteNext (clock : Nat → Int) (sourceId : Option String) (s : Store)
    (noteTreeId : String) : List String :=
  let now := clock s.sync.length
  let s2 := markPlacementDeleted now sourceId s noteTreeId
  let noteId := selectNoteIdOfTree s2.tree noteTreeId
  if countLivePlacements s2.tree noteId == 0 then
    selectLiveChildTreeIds (markNoteDeleted now sourceId s2 noteId).tree noteId
  else []

/-- The number of non-deleted placements. -/
def liveCount (t : List TreeRow) : Nat :=
  (t.filter (fun r => !r.is_deleted)).length

/-- Some non-deleted placement row carries the identifier `noteTreeId`. -/
def hitsLive (t : List TreeRow) (noteTreeId : String) : Bool :=
  t.any (fun r => r.note_tree_id == noteTreeId && !r.is_deleted)

/-- A placement row `r` that descends from the row `r0` through deletions: same
identifier, note and parent, and still deleted if `r0` was. -/
def TreeRowMono (r0 r : TreeRow) : Prop :=
  r.note_tree_id = r0.note_tree_id ∧ r.note_id = r0.note_id ∧
    r.parent_note_id = r0.parent_note_id ∧ (r0.is_deleted = true → r.is_deleted = true)

/-- A note row `n` that descends from the row `n0` through deletions over the placements
`t`: same identifier, still deleted if `n0` was, and either untouched or deleted with no
non-deleted placement left in `t`. -/
def NoteRowMono (t : List TreeRow) (n0 n : NoteRow) : Prop :=
  n.note_id = n0.note_id ∧ (n0.is_deleted = true → n.is_deleted = true) ∧
    (n = n0 ∨ (n.is_deleted = true ∧ ∀ r ∈ t, r.note_id = n.note_id → r.is_deleted = true))

/-- The note is deleted exactly when no non-deleted placement references it, for every note
row of the store. -/
def DeletedIffOrphan (s : Store) : Prop :=
  ∀ n ∈ s.notes, n.is_deleted = true ↔ ∀ r ∈ s.tree, r.note_id = n.note_id → r.is_deleted = true

/-- Under every parent the non-deleted placements have pairwise distinct positions. -/
def DistinctPositions (t : List TreeRow) : Prop :=
  ∀ parent : String, ((liveChildren t parent).map (fun r => r.note_position)).Nodup

/-- The half-open intervals of two snapshots do not overlap. -/
def IntervalsDisjoint (a b : HistoryRow) : Prop :=
  a.date_modified_to ≤ b.date_modified_from ∨ b.date_modified_to ≤ a.date_modified_from

/-- The snapshots of note `noteId` have pairwise non-overlapping intervals, all ending at or
before the `date_modified` of the note. -/
def HistoryOrdered (s : Store) (noteId : String) : Prop :=
  (s.history.filter (fun h => h.note_id == noteId)).Pairwise IntervalsDisjoint ∧
  ∀ h ∈ s.history, h.note_id = noteId →
    ∀ n ∈ s.notes, n.note_id = noteId → h.date_modified_to ≤ n.date_modified


/-! ## Placement graph -/

/-- The edge `p → ch` of the placement graph: some placement (deleted or not) puts note `ch`
under parent `p`. -/
def Edge (t : List TreeRow) (p ch : String) : Prop :=
  ∃ r ∈ t, r.parent_note_id = p ∧ r.note_id = ch

/-- The note `b` is `a` or is reachable from `a` by following placements from parent to
child. -/
def Reach (t : List TreeRow) (a b : String) : Prop :=
  Relation.ReflTransGen (Edge t) a b

/-- The placement graph has no cycle: no note is reachable from itself along one or more
placements. -/
def Acyclic (t : List TreeRow) : Prop :=
  ∀ a, ¬ Relation.TransGen (Edge t) a a

/-- The store a call leaves behind: the transaction result's first component. -/
def storeAfter {α : Type} (r : Store × Except Err α) : Store := r.1

/-- A snapshot read according to its `is_protected` flag: decrypted with the IVs derived
from its own identifier when protected, as is when not. -/
def readHistory (c : Crypto) (dataKey : String) (h : HistoryRow) : String × String :=
  if h.is_protected then
    (c.decryptString dataKey (c.noteTitleIv h.note_history_id) h.note_title,
     c.decryptString dataKey (c.noteTextIv h.note_history_id) h.note_text)
  else (h.note_title, h.note_text)

/-- A note row read according to its `is_protected` flag (the plaintext title and body). -/
def readNote (c : Crypto) (dataKey : String) (n : NoteRow) : String × String :=
  if n.is_protected then
    (c.decryptString dataKey (c.noteTitleIv n.note_id) n.note_title,
     c.decryptString dataKey (c.noteTextIv n.note_id) n.note_text)
  else (n.note_title, n.note_text)


/-! ## Row-wise view of the history alignment loop -/

/-- The effect on one table row `r` of the `UPDATE` issued for the fetched snapshot `h` in the
loop of `protectNoteHistory`. -/
def histRowUpd (c : Crypto) (dataKey : String) (protect : Bool) (r h : HistoryRow) :
    HistoryRow :=
  if r.note_history_id == h.note_history_id then
    { r with
      note_title := (protectHistoryRow c dataKey protect h).note_title
      note_text := (protectHistoryRow c dataKey protect h).note_text
      is_protected := (protectHistoryRow c dataKey protect h).is_protected }
  else r

/-- The effect on one `notes` row of the `UPDATE` issued by `protectNote` for the fetched
row `note` when it changes. -/
def noteRowUpd (c : Crypto) (dataKey : String) (protect : Bool) (note r : NoteRow) : NoteRow :=
  if r.note_id == note.note_id then
    { r with
      note_title := (protectNoteRow c note dataKey protect).1.note_title
      note_text := (protectNoteRow c note dataKey protect).1.note_text
      is_protected := (protectNoteRow c note dataKey protect).1.is_protected }
  else r

/-! ## Example stores -/

/-- An example store: notes A and B placed under `root` at positions 0 and 1. -/
def exStoreAB : Store :=
  { notes := [⟨"A", "a", "", 0, 0, false, false⟩, ⟨"B", "b", "", 1, 1, false, false⟩]
    tree := [⟨"tA", "A", "root", 0, false, 0, false⟩, ⟨"tB", "B", "root", 1, false, 1, false⟩]
    history := []
    sync := []
    writes := 0 }

/-- A toy cipher for the examples: the ciphertext is the key and the IV followed by the
plaintext; the IVs are the identifier with a field tag. -/
def exCrypto : Crypto :=
  { encrypt := fun k iv x => String.mk (k.data ++ iv.data ++ x.data)
    decryptString := fun k iv y => String.mk (y.data.drop (k.data.length + iv.data.length))
    noteTitleIv := fun i => String.mk ('T' :: i.data)
    noteTextIv := fun i => String.mk ('X' :: i.data) }

/-- An example store: one unprotected note A, created and last modified at instant 0, with
no snapshot. -/
def exStoreA : Store :=
  { notes := [⟨"A", "title", "text", 0, 0, false, false⟩]
    tree := [⟨"tA", "A", "root", 0, false, 0, false⟩]
    history := []
    sync := []
    writes := 0 }

/-- An example store: one unprotected note A created at instant 0 and last modified at
instant 100, with one unprotected snapshot covering [0, 100). -/
def exStoreAH : Store :=
  { notes := [⟨"A", "title", "text", 0, 100, false, false⟩]
    tree := [⟨"tA", "A", "root", 0, false, 0, false⟩]
    history := [⟨"h0", "A", "old title", "old text", false, 0, 100⟩]
    sync := []
    writes := 0 }

/-- An example call: at instant 10000, with a 5 second interval, note A of `exStoreAH` is
replaced by a protected note. -/
def exUpdateProtected : Store × Except Err Unit :=
  updateNote exCrypto "h1" 10000 5 "A" ⟨"A", "t2", "x2", true, 0⟩ "k" (some "src") exStoreAH

/-- An example store: note A under `root` and note B under A, both unprotected; A has a
protected and B an unprotected snapshot. -/
def exStoreTree : Store :=
  { notes := [⟨"A", "title a", "text a", 0, 100, false, false⟩,
              ⟨"B", "title b", "text b", 0, 100, false, false⟩]
    tree := [⟨"tA", "A", "root", 0, false, 0, false⟩, ⟨"tB", "B", "A", 0, false, 0, false⟩]
    history := [⟨"hA", "A", "kThAold a", "kXhAold text", true, 0, 100⟩,
                ⟨"hB", "B", "old b", "old text b", false, 0, 100⟩]
    sync := []
    writes := 0 }

/-- A rank on the notes of `exStoreTree` that decreases from parent to child. -/
def exRank (n : String) : Nat :=
  if n = "root" then 2 else if n = "A" then 1 else 0

/-- The store a completed run returned (`dflt` when the run raised or ran out of fuel). -/
def resultStore (r : Option (Except Err Store)) (dflt : Store) : Store :=
  match r with
  | some (.ok s) => s
  | _ => dflt

/-- An example run: protect the subtree of note A in `exStoreTree`. -/
def exProtectRun : Option (Except Err Store) :=
  protectNoteRecursively exCrypto "k" true (some "src") 3 exStoreTree "A"

/-- An example store: `exStoreTree` with unprotected snapshots only. -/
def exStorePlain : Store :=
  { exStoreTree with
    history := [⟨"hA", "A", "old a", "old text a", false, 0, 100⟩,
                ⟨"hB", "B", "old b", "old text b", false, 0, 100⟩] }

/-- An example store: note N is placed under `root` and under A, and note C under N. -/
def exStoreShared : Store :=
  { notes := [⟨"N", "n", "", 0, 0, false, false⟩, ⟨"C", "c", "", 0, 0, false, false⟩]
    tree := [⟨"t1", "N", "root", 0, false, 0, false⟩, ⟨"t2", "N", "A", 0, false, 0, false⟩,
             ⟨"tc", "C", "N", 0, false, 0, false⟩]
    history := []
    sync := []
    writes := 0 }

/-- An example store: note A placed under `root` at position 2 ^ 53, the first integer that
is not a JavaScript safe integer. -/
def exStoreBig : Store :=
  { notes := [⟨"A", "a", "", 0, 0, false, false⟩]
    tree := [⟨"tA", "A", "root", 9007199254740992, false, 0, false⟩]
    history := []
    sync := []
    writes := 0 }

/-- An example store with a cycle: note A is placed under B and note B under A. -/
def exStoreCycle : Store :=
  { notes := [⟨"A", "a", "", 0, 0, false, false⟩, ⟨"B", "b", "", 0, 0, false, false⟩]
    tree := [⟨"tAB", "A", "B", 0, false, 0, false⟩, ⟨"tBA", "B", "A", 0, false, 0, false⟩]
    history := []
    sync := []
    writes := 0 }

/-- An example clock: the reading taken when the change log has `k` entries. -/
def exClock (k : Nat) : Int := 1000 + k

/-! # Theorems -/

/-! ## `createNewNote` -/


theorem sqlMax_eq_none {l : List Int} : sqlMax l = none ↔ l = [] := by
  cases l with
  | nil => simp [sqlMax]
  | cons x xs =>
    simp only [sqlMax]
    cases sqlMax xs <;> simp

theorem sqlMax_spec {l : List Int} {m : Int} (h : sqlMax l = some m) :
    m ∈ l ∧ ∀ q ∈ l, q ≤ m := by
  induction l generalizing m with
  | nil => simp [sqlMax] at h
  | cons x xs ih =>
    simp only [sqlMax] at h
    cases hx : sqlMax xs with
    | none =>
      rw [hx] at h
      simp only [Option.some.injEq] at h
      have : xs = [] := sqlMax_eq_none.mp hx
      subst this; subst h
      simp
    | some m' =>
      rw [hx] at h
      simp only [Option.some.injEq] at h
      obtain ⟨hm, hle⟩ := ih hx
      by_cases hc : m' ≤ x
      · rw [if_pos hc] at h
        subst h
        refine ⟨by simp, ?_⟩
        intro q hq
        rcases List.mem_cons.mp hq with rfl | hq
        · exact le_refl _
        · exact le_trans (hle q hq) hc
      · rw [if_neg hc] at h
        subst h
        refine ⟨List.mem_cons_of_mem _ hm, ?_⟩
        intro q hq
        rcases List.mem_cons.mp hq with rfl | hq
        · omega
        · exact hle q hq

theorem mem_liveChildren {t : List TreeRow} {p : String} {r : TreeRow} :
    r ∈ liveChildren t p ↔ r ∈ t ∧ r.parent_note_id = p ∧ r.is_deleted = false := by
  simp [liveChildren]

/-- A safe integer is held exactly by a JavaScript number. -/
theorem toDouble_of_safe (n : Int) (h : SafeInteger n) : toDouble n = n := by
  unfold SafeInteger at h
  have he : doubleExponent 971 0 n.natAbs = 0 := by
    have hu : doubleExponent (970 + 1) 0 n.natAbs
        = if n.natAbs < 2 ^ (53 + 0) then 0 else doubleExponent 970 (0 + 1) n.natAbs := rfl
    rw [show (971 : Nat) = 970 + 1 from rfl, hu, if_pos h]
  simp only [toDouble, he, pow_zero, Nat.div_one, Nat.mod_one, Nat.mul_zero, Nat.lt_one_iff,
    if_true, Nat.mul_one]
  exact Int.sign_mul_natAbs n

/-- Adding 1 to a safe integer is exact in JavaScript numbers (2 ^ 53 itself is a double). -/
theorem toDouble_succ_of_safe (n : Int) (h : SafeInteger n) : toDouble (n + 1) = n + 1 := by
  by_cases h1 : SafeInteger (n + 1)
  · exact toDouble_of_safe _ h1
  · unfold SafeInteger at h h1
    have : n + 1 = 9007199254740992 := by omega
    rw [this]
    decide

/-- The position computed by lines 18 and 23 from a safe integer. -/
theorem toDouble_next_of_safe (n : Int) (h : SafeInteger n) :
    toDouble (toDouble n + 1) = n + 1 := by
  rw [toDouble_of_safe n h, toDouble_succ_of_safe n h]

/-- C1 (amended): with target 'into' the call succeeds and appends one placement under the parent whose
position is 0 when the parent has no non-deleted placement, and P + 1 otherwise, where P is
the maximum position among the parent's non-deleted placements, provided P is a JavaScript
safe integer (magnitude below 2 ^ 53). -/
theorem createNewNote_into_position (noteId noteTreeId : String) (now : Int)
    (parentNoteId : String) (note : NewNote) (sourceId : Option String) (s : Store)
    (htarget : note.target = "into")
    (hsafe : ∀ m, selectMaxNotePos s.tree parentNoteId = some m → SafeInteger m) :
    ∃ pos : Int,
      (createNewNote noteId noteTreeId now parentNoteId note sourceId s).2
          = .ok (noteId, noteTreeId) ∧
      (createNewNote noteId noteTreeId now parentNoteId note sourceId s).1.tree
          = s.tree ++ [{ note_tree_id := noteTreeId, note_id := noteId,
                         parent_note_id := parentNoteId, note_position := pos,
                         is_expanded := false, date_modified := now, is_deleted := false }] ∧
      (((∀ r ∈ s.tree, r.parent_note_id = parentNoteId → r.is_deleted = true) ∧ pos = 0) ∨
       (∃ r ∈ s.tree, r.parent_note_id = parentNoteId ∧ r.is_deleted = false ∧
          (∀ q ∈ s.tree, q.parent_note_id = parentNoteId → q.is_deleted = false →
            q.note_position ≤ r.note_position) ∧
          pos = r.note_position + 1)) := by
  cases hmax : selectMaxNotePos s.tree parentNoteId with
  | none =>
    refine ⟨0, ?_, ?_, Or.inl ⟨?_, rfl⟩⟩
    · simp [createNewNote, doInTransaction, createNewNoteBody, createNewNotePos, htarget, hmax]
    · simp [createNewNote, doInTransaction, createNewNoteBody, createNewNotePos, htarget, hmax,
        addNoteTreeSync, insertNoteTree, addNoteSync, insertNote]
    · intro r hr hp
      have hnil := sqlMax_eq_none.mp hmax
      have hl : liveChildren s.tree parentNoteId = [] := by simpa using hnil
      by_contra hd
      have : r ∈ liveChildren s.tree parentNoteId :=
        mem_liveChildren.mpr ⟨hr, hp, by simpa using hd⟩
      rw [hl] at this
      simp at this
  | some m =>
    obtain ⟨hm, hle⟩ := sqlMax_spec hmax
    obtain ⟨r, hr, hrm⟩ := List.mem_map.mp hm
    obtain ⟨hrt, hrp, hrd⟩ := mem_liveChildren.mp hr
    refine ⟨m + 1, ?_, ?_, Or.inr ⟨r, hrt, hrp, hrd, ?_, by rw [hrm]⟩⟩
    · simp [createNewNote, doInTransaction, createNewNoteBody, createNewNotePos, htarget, hmax]
    · simp [createNewNote, doInTransaction, createNewNoteBody, createNewNotePos, htarget, hmax,
        addNoteTreeSync, insertNoteTree, addNoteSync, insertNote,
        toDouble_next_of_safe m (hsafe m hmax)]
    · intro q hq hqp hqd
      rw [hrm]
      exact hle _ (List.mem_map.mpr ⟨q, mem_liveChildren.mpr ⟨hq, hqp, hqd⟩, rfl⟩)

/-- Witness for C1: creating C into `root`, whose placements sit at positions 0 and 1. -/
theorem createNewNote_into_position_witness :
    ((⟨"into", "", "c", false⟩ : NewNote).target = "into" ∧
      ∀ m, selectMaxNotePos exStoreAB.tree "root" = some m → SafeInteger m) ∧
    ∃ pos : Int,
      (createNewNote "C" "tC" 2 "root" ⟨"into", "", "c", false⟩ (some "src") exStoreAB).2
          = .ok ("C", "tC") ∧
      (createNewNote "C" "tC" 2 "root" ⟨"into", "", "c", false⟩ (some "src") exStoreAB).1.tree
          = exStoreAB.tree ++ [⟨"tC", "C", "root", pos, false, 2, false⟩] ∧
      (((∀ r ∈ exStoreAB.tree, r.parent_note_id = "root" → r.is_deleted = true) ∧ pos = 0) ∨
       (∃ r ∈ exStoreAB.tree, r.parent_note_id = "root" ∧ r.is_deleted = false ∧
          (∀ q ∈ exStoreAB.tree, q.parent_note_id = "root" → q.is_deleted = false →
            q.note_position ≤ r.note_position) ∧
          pos = r.note_position + 1)) :=
  have hsafe : ∀ m, selectMaxNotePos exStoreAB.tree "root" = some m → SafeInteger m := by
    intro m hm
    have h1 : selectMaxNotePos exStoreAB.tree "root" = some 1 := by decide
    rw [h1] at hm
    cases hm
    show (1 : Int).natAbs < 2 ^ 53
    decide
  ⟨⟨rfl, hsafe⟩, createNewNote_into_position "C" "tC" 2 "root" ⟨"into", "", "c", false⟩
    (some "src") exStoreAB rfl hsafe⟩

/-- Counterexample for C1 as stated without a bound: the parent's only non-deleted placement
sits at P = 2 ^ 53; the call succeeds and appends the new placement at position 2 ^ 53 again,
not at P + 1, because `P + 1` is computed in JavaScript numbers. -/
theorem createNewNote_into_unsafe_counterexample :
    (⟨"into", "", "c", false⟩ : NewNote).target = "into" ∧
    selectMaxNotePos exStoreBig.tree "root" = some 9007199254740992 ∧
    (createNewNote "C" "tC" 2 "root" ⟨"into", "", "c", false⟩ (some "src") exStoreBig).2
        = .ok ("C", "tC") ∧
    (createNewNote "C" "tC" 2 "root" ⟨"into", "", "c", false⟩ (some "src") exStoreBig).1.tree
        = exStoreBig.tree ++ [⟨"tC", "C", "root", 9007199254740992, false, 2, false⟩] ∧
    ¬ ∃ pos : Int,
      (createNewNote "C" "tC" 2 "root" ⟨"into", "", "c", false⟩ (some "src") exStoreBig).2
          = .ok ("C", "tC") ∧
      (createNewNote "C" "tC" 2 "root" ⟨"into", "", "c", false⟩ (some "src") exStoreBig).1.tree
          = exStoreBig.tree ++ [⟨"tC", "C", "root", pos, false, 2, false⟩] ∧
      (((∀ r ∈ exStoreBig.tree, r.parent_note_id = "root" → r.is_deleted = true) ∧ pos = 0) ∨
       (∃ r ∈ exStoreBig.tree, r.parent_note_id = "root" ∧ r.is_deleted = false ∧
          (∀ q ∈ exStoreBig.tree, q.parent_note_id = "root" → q.is_deleted = false →
            q.note_position ≤ r.note_position) ∧
          pos = r.note_position + 1)) := by
  have htree : (createNewNote "C" "tC" 2 "root" ⟨"into", "", "c", false⟩ (some "src")
      exStoreBig).1.tree
      = exStoreBig.tree ++ [⟨"tC", "C", "root", 9007199254740992, false, 2, false⟩] := by
    decide
  refine ⟨rfl, by decide, by rfl, htree, ?_⟩
  rintro ⟨pos, -, hpos, hcase⟩
  rw [htree] at hpos
  have hp : (9007199254740992 : Int) = pos := by
    have := List.append_cancel_left hpos
    simpa using this
  rcases hcase with ⟨hall, -⟩ | ⟨r, hr, -, -, -, hr1⟩
  · have := hall ⟨"tA", "A", "root", 9007199254740992, false, 0, false⟩ (by decide) rfl
    simp at this
  · have hrA : r = ⟨"tA", "A", "root", 9007199254740992, false, 0, false⟩ := by
      simpa [exStoreBig] using hr
    rw [hrA] at hr1
    simp only at hr1
    omega

theorem liveChildren_append (t u : List TreeRow) (p : String) :
    liveChildren (t ++ u) p = liveChildren t p ++ liveChildren u p := by
  simp [liveChildren]

theorem liveChildren_shift_length (t : List TreeRow) (p q : String) (pos : Int) :
    (liveChildren (t.map (fun r =>
        if shiftCond q pos r then { r with note_position := r.note_position + 1 } else r)) p).length
      = (liveChildren t p).length := by
  induction t with
  | nil => rfl
  | cons r rs ih =>
    simp only [liveChildren, List.map_cons, List.filter_cons] at ih ⊢
    by_cases hc : shiftCond q pos r = true
    · simp only [hc, if_true]
      by_cases hl : (r.parent_note_id == p && !r.is_deleted) = true
      · simp only [hl, if_true, List.length_cons, ih]
      · simp only [hl, if_false, Bool.false_eq_true, ih]
    · simp only [hc, if_false, Bool.false_eq_true]
      by_cases hl : (r.parent_note_id == p && !r.is_deleted) = true
      · simp only [hl, if_true, List.length_cons, ih]
      · simp only [hl, if_false, Bool.false_eq_true, ih]

/-- C2 (amended): with target 'after' and an existing reference placement, the call succeeds; every
placement keeps its place in the table and all its columns, except that the non-deleted
placements of the parent positioned after the reference have their position increased by
exactly 1; the new placement is appended with position reference.position + 1; and the
parent has exactly one more non-deleted placement; provided the position of the reference
is a JavaScript safe integer (magnitude below 2 ^ 53). -/
theorem createNewNote_after_shift (noteId noteTreeId : String) (now : Int)
    (parentNoteId : String) (note : NewNote) (sourceId : Option String) (s : Store)
    (ref : TreeRow) (htarget : note.target = "after")
    (href : selectNoteTree s.tree note.target_note_tree_id = some ref)
    (hsafe : SafeInteger ref.note_position) :
    (createNewNote noteId noteTreeId now parentNoteId note sourceId s).2
        = .ok (noteId, noteTreeId) ∧
    (∀ (i : Nat) (r : TreeRow), s.tree[i]? = some r →
      (createNewNote noteId noteTreeId now parentNoteId note sourceId s).1.tree[i]?
        = some (if r.parent_note_id = parentNoteId ∧ ref.note_position < r.note_position ∧
                    r.is_deleted = false
                then { r with note_position := r.note_position + 1 } else r)) ∧
    (createNewNote noteId noteTreeId now parentNoteId note sourceId s).1.tree[s.tree.length]?
        = some { note_tree_id := noteTreeId, note_id := noteId,
                 parent_note_id := parentNoteId, note_position := ref.note_position + 1,
                 is_expanded := false, date_modified := now, is_deleted := false } ∧
    (createNewNote noteId noteTreeId now parentNoteId note sourceId s).1.tree.length
        = s.tree.length + 1 ∧
    (liveChildren (createNewNote noteId noteTreeId now parentNoteId note sourceId s).1.tree
        parentNoteId).length
        = (liveChildren s.tree parentNoteId).length + 1 := by
  have hne : (note.target == "into") = false := by rw [htarget]; decide
  have htree : (createNewNote noteId noteTreeId now parentNoteId note sourceId s).1.tree
      = s.tree.map (fun r =>
          if shiftCond parentNoteId ref.note_position r
          then { r with note_position := r.note_position + 1 } else r)
        ++ [{ note_tree_id := noteTreeId, note_id := noteId,
              parent_note_id := parentNoteId, note_position := ref.note_position + 1,
              is_expanded := false, date_modified := now, is_deleted := false }] := by
    simp [createNewNote, doInTransaction, createNewNoteBody, createNewNotePos, htarget, href,
      addNoteTreeSync, insertNoteTree, addNoteSync, insertNote, addNoteReorderingSync,
      execShiftPositions, toDouble_succ_of_safe _ hsafe, toDouble_of_safe _ hsafe]
  refine ⟨?_, ?_, ?_, ?_, ?_⟩
  · simp [createNewNote, doInTransaction, createNewNoteBody, createNewNotePos, htarget, href]
  · intro i r hi
    rw [htree]
    have hlt : i < s.tree.length := by
      rcases List.getElem?_eq_some.mp hi with ⟨h, _⟩
      exact h
    rw [List.getElem?_append_left (by simpa using hlt), List.getElem?_map, hi]
    simp only [Option.map_some', Option.some.injEq]
    by_cases hc : shiftCond parentNoteId ref.note_position r = true
    · have hc' : r.parent_note_id = parentNoteId ∧ ref.note_position < r.note_position ∧
          r.is_deleted = false := by
        simpa [shiftCond, and_assoc] using hc
      rw [if_pos hc, if_pos hc']
    · have hc' : ¬ (r.parent_note_id = parentNoteId ∧ ref.note_position < r.note_position ∧
          r.is_deleted = false) := by
        simpa [shiftCond, and_assoc] using hc
      rw [if_neg hc, if_neg hc']
  · rw [htree]
    rw [List.getElem?_append_right (by simp)]
    simp
  · rw [htree]; simp
  · rw [htree, liveChildren_append, List.length_append, liveChildren_shift_length]
    simp [liveChildren]

/-- Witness for C2: creating C after A's placement moves B from position 1 to 2. -/
theorem createNewNote_after_shift_witness :
    ((⟨"after", "tA", "c", false⟩ : NewNote).target = "after" ∧
      selectNoteTree exStoreAB.tree "tA" = some ⟨"tA", "A", "root", 0, false, 0, false⟩ ∧
      SafeInteger (0 : Int)) ∧
    (createNewNote "C" "tC" 2 "root" ⟨"after", "tA", "c", false⟩ (some "src") exStoreAB).2
        = .ok ("C", "tC") ∧
    (createNewNote "C" "tC" 2 "root" ⟨"after", "tA", "c", false⟩ (some "src")
        exStoreAB).1.tree[2]? = some ⟨"tC", "C", "root", 1, false, 2, false⟩ ∧
    (liveChildren (createNewNote "C" "tC" 2 "root" ⟨"after", "tA", "c", false⟩ (some "src")
        exStoreAB).1.tree "root").length = (liveChildren exStoreAB.tree "root").length + 1 :=
  have h := createNewNote_after_shift "C" "tC" 2 "root" ⟨"after", "tA", "c", false⟩
    (some "src") exStoreAB ⟨"tA", "A", "root", 0, false, 0, false⟩ rfl (by decide)
    (show (0 : Int).natAbs < 2 ^ 53 by decide)
  ⟨⟨rfl, by decide, show (0 : Int).natAbs < 2 ^ 53 by decide⟩, h.1, h.2.2.1, h.2.2.2.2⟩

/-- Counterexample for C2 as stated without a bound: the reference placement sits at
position 2 ^ 53; the call succeeds and appends the new placement at position 2 ^ 53, the
position of the reference itself, not at reference.position + 1. -/
theorem createNewNote_after_unsafe_counterexample :
    (⟨"after", "tA", "c", false⟩ : NewNote).target = "after" ∧
    selectNoteTree exStoreBig.tree "tA"
        = some ⟨"tA", "A", "root", 9007199254740992, false, 0, false⟩ ∧
    (createNewNote "C" "tC" 2 "root" ⟨"after", "tA", "c", false⟩ (some "src") exStoreBig).2
        = .ok ("C", "tC") ∧
    (createNewNote "C" "tC" 2 "root" ⟨"after", "tA", "c", false⟩ (some "src")
        exStoreBig).1.tree[exStoreBig.tree.length]?
        = some ⟨"tC", "C", "root", 9007199254740992, false, 2, false⟩ ∧
    (createNewNote "C" "tC" 2 "root" ⟨"after", "tA", "c", false⟩ (some "src")
        exStoreBig).1.tree[exStoreBig.tree.length]?
        ≠ some ⟨"tC", "C", "root", 9007199254740992 + 1, false, 2, false⟩ := by
  refine ⟨rfl, by decide, by rfl, by decide, by decide⟩

/-- C3: for every insertion directive other than 'into' and 'after' the call raises the
error `Unknown target: ...`, and the store after the call (notes, placements, history,
change log and the count of written rows) is the store before the call. -/
theorem createNewNote_unknown_target (noteId noteTreeId : String) (now : Int)
    (parentNoteId : String) (note : NewNote) (sourceId : Option String) (s : Store)
    (hinto : note.target ≠ "into") (hafter : note.target ≠ "after") :
    createNewNote noteId noteTreeId now parentNoteId note sourceId s
      = (s, .error (.error ("Unknown target: " ++ note.target))) := by
  simp [createNewNote, doInTransaction, createNewNoteBody, createNewNotePos, hinto, hafter]

/-- Witness for C3 -/
theorem createNewNote_unknown_target_witness :
    ("before" ≠ "into" ∧ "before" ≠ "after") ∧
    createNewNote "C" "tC" 2 "root" ⟨"before", "tA", "c", false⟩ (some "src") exStoreAB
      = (exStoreAB, .error (.error "Unknown target: before")) :=
  ⟨by decide, createNewNote_unknown_target "C" "tC" 2 "root" ⟨"before", "tA", "c", false⟩
    (some "src") exStoreAB (by decide) (by decide)⟩

/-! ## The history alignment loop -/

section History
variable (c : Crypto) (dataKey : String) (protect : Bool) (sourceId : Option String)

@[simp] theorem protectHistoryRow_id (h : HistoryRow) :
    (protectHistoryRow c dataKey protect h).note_history_id = h.note_history_id := by
  unfold protectHistoryRow; split <;> rfl

@[simp] theorem protectHistoryRow_note_id (h : HistoryRow) :
    (protectHistoryRow c dataKey protect h).note_id = h.note_id := by
  unfold protectHistoryRow; split <;> rfl

@[simp] theorem protectHistoryRow_from (h : HistoryRow) :
    (protectHistoryRow c dataKey protect h).date_modified_from = h.date_modified_from := by
  unfold protectHistoryRow; split <;> rfl

@[simp] theorem protectHistoryRow_to (h : HistoryRow) :
    (protectHistoryRow c dataKey protect h).date_modified_to = h.date_modified_to := by
  unfold protectHistoryRow; split <;> rfl

@[simp] theorem protectHistoryRow_is_protected (h : HistoryRow) :
    (protectHistoryRow c dataKey protect h).is_protected = protect := by
  unfold protectHistoryRow; split <;> simp_all

theorem protectHistoryStep_history (s : Store) (h : HistoryRow) :
    (protectHistoryStep c dataKey protect sourceId s h).history
      = s.history.map (fun r => histRowUpd c dataKey protect r h) := by
  simp [protectHistoryStep, addNoteHistorySync, execUpdateHistory, histRowUpd]

theorem protectHistoryStep_notes (s : Store) (h : HistoryRow) :
    (protectHistoryStep c dataKey protect sourceId s h).notes = s.notes := rfl

theorem protectHistoryStep_tree (s : Store) (h : HistoryRow) :
    (protectHistoryStep c dataKey protect sourceId s h).tree = s.tree := rfl

theorem protectHistoryStep_sync (s : Store) (h : HistoryRow) :
    (protectHistoryStep c dataKey protect sourceId s h).sync
      = s.sync ++ [⟨SyncKind.noteHistory, some h.note_history_id, sourceId⟩] := by
  simp [protectHistoryStep, addNoteHistorySync, execUpdateHistory]

theorem foldl_step_history (L : List HistoryRow) (s : Store) :
    (L.foldl (protectHistoryStep c dataKey protect sourceId) s).history
      = s.history.map (fun r => L.foldl (histRowUpd c dataKey protect) r) := by
  induction L generalizing s with
  | nil => simp
  | cons h hs ih =>
    rw [List.foldl_cons, ih, protectHistoryStep_history, List.map_map]
    rfl

theorem foldl_step_notes (L : List HistoryRow) (s : Store) :
    (L.foldl (protectHistoryStep c dataKey protect sourceId) s).notes = s.notes := by
  induction L generalizing s with
  | nil => rfl
  | cons h hs ih => rw [List.foldl_cons, ih, protectHistoryStep_notes]

theorem foldl_step_tree (L : List HistoryRow) (s : Store) :
    (L.foldl (protectHistoryStep c dataKey protect sourceId) s).tree = s.tree := by
  induction L generalizing s with
  | nil => rfl
  | cons h hs ih => rw [List.foldl_cons, ih, protectHistoryStep_tree]

theorem foldl_step_sync (L : List HistoryRow) (s : Store) :
    (L.foldl (protectHistoryStep c dataKey protect sourceId) s).sync
      = s.sync ++ L.map (fun h => ⟨SyncKind.noteHistory, some h.note_history_id, sourceId⟩) := by
  induction L generalizing s with
  | nil => simp
  | cons h hs ih =>
    rw [List.foldl_cons, ih, protectHistoryStep_sync]
    simp

theorem protectNoteHistory_history (s : Store) (noteId : String) :
    (protectNoteHistory c s noteId dataKey protect sourceId).history
      = s.history.map (fun r =>
          (selectHistoryToChange s.history noteId protect).foldl
            (histRowUpd c dataKey protect) r) :=
  foldl_step_history c dataKey protect sourceId _ s

@[simp] theorem protectNoteHistory_notes (s : Store) (noteId : String) :
    (protectNoteHistory c s noteId dataKey protect sourceId).notes = s.notes :=
  foldl_step_notes c dataKey protect sourceId _ s

@[simp] theorem protectNoteHistory_tree (s : Store) (noteId : String) :
    (protectNoteHistory c s noteId dataKey protect sourceId).tree = s.tree :=
  foldl_step_tree c dataKey protect sourceId _ s

theorem protectNoteHistory_sync (s : Store) (noteId : String) :
    (protectNoteHistory c s noteId dataKey protect sourceId).sync
      = s.sync ++ (selectHistoryToChange s.history noteId protect).map
          (fun h => ⟨SyncKind.noteHistory, some h.note_history_id, sourceId⟩) :=
  foldl_step_sync c dataKey protect sourceId _ s

/-! ### One row under the loop -/

theorem histRowUpd_id (r h : HistoryRow) :
    (histRowUpd c dataKey protect r h).note_history_id = r.note_history_id := by
  unfold histRowUpd; split <;> rfl

theorem histRowUpd_note_id (r h : HistoryRow) :
    (histRowUpd c dataKey protect r h).note_id = r.note_id := by
  unfold histRowUpd; split <;> rfl

theorem histRowUpd_from (r h : HistoryRow) :
    (histRowUpd c dataKey protect r h).date_modified_from = r.date_modified_from := by
  unfold histRowUpd; split <;> rfl

theorem histRowUpd_to (r h : HistoryRow) :
    (histRowUpd c dataKey protect r h).date_modified_to = r.date_modified_to := by
  unfold histRowUpd; split <;> rfl

theorem histRowUpd_of_ne {r h : HistoryRow} (hne : r.note_history_id ≠ h.note_history_id) :
    histRowUpd c dataKey protect r h = r := by
  simp [histRowUpd, hne]

theorem histRowUpd_protected_of_eq {r h : HistoryRow}
    (he : r.note_history_id = h.note_history_id) :
    (histRowUpd c dataKey protect r h).is_protected = protect := by
  simp [histRowUpd, he]

theorem histRowUpd_protected_stable {r h : HistoryRow} (hp : r.is_protected = protect) :
    (histRowUpd c dataKey protect r h).is_protected = protect := by
  unfold histRowUpd; split
  · simp
  · exact hp

theorem rowFold_id (L : List HistoryRow) (r : HistoryRow) :
    (L.foldl (histRowUpd c dataKey protect) r).note_history_id = r.note_history_id := by
  induction L generalizing r with
  | nil => rfl
  | cons h hs ih => rw [List.foldl_cons, ih, histRowUpd_id]

theorem rowFold_note_id (L : List HistoryRow) (r : HistoryRow) :
    (L.foldl (histRowUpd c dataKey protect) r).note_id = r.note_id := by
  induction L generalizing r with
  | nil => rfl
  | cons h hs ih => rw [List.foldl_cons, ih, histRowUpd_note_id]

theorem rowFold_from (L : List HistoryRow) (r : HistoryRow) :
    (L.foldl (histRowUpd c dataKey protect) r).date_modified_from = r.date_modified_from := by
  induction L generalizing r with
  | nil => rfl
  | cons h hs ih => rw [List.foldl_cons, ih, histRowUpd_from]

theorem rowFold_to (L : List HistoryRow) (r : HistoryRow) :
    (L.foldl (histRowUpd c dataKey protect) r).date_modified_to = r.date_modified_to := by
  induction L generalizing r with
  | nil => rfl
  | cons h hs ih => rw [List.foldl_cons, ih, histRowUpd_to]

theorem rowFold_of_no_match (L : List HistoryRow) (r : HistoryRow)
    (hno : ∀ h ∈ L, r.note_history_id ≠ h.note_history_id) :
    L.foldl (histRowUpd c dataKey protect) r = r := by
  induction L with
  | nil => rfl
  | cons h hs ih =>
    rw [List.foldl_cons, histRowUpd_of_ne c dataKey protect (hno h (List.mem_cons_self _ _))]
    exact ih (fun h' hh' => hno h' (List.mem_cons_of_mem _ hh'))

theorem rowFold_protected_stable (L : List HistoryRow) (r : HistoryRow)
    (hp : r.is_protected = protect) :
    (L.foldl (histRowUpd c dataKey protect) r).is_protected = protect := by
  induction L generalizing r with
  | nil => exact hp
  | cons h hs ih =>
    rw [List.foldl_cons]
    exact ih _ (histRowUpd_protected_stable c dataKey protect hp)

theorem rowFold_protected_of_match (L : List HistoryRow) (r : HistoryRow)
    (hm : ∃ h ∈ L, r.note_history_id = h.note_history_id) :
    (L.foldl (histRowUpd c dataKey protect) r).is_protected = protect := by
  induction L generalizing r with
  | nil => simp at hm
  | cons h hs ih =>
    rw [List.foldl_cons]
    obtain ⟨h', hh', he⟩ := hm
    by_cases heq : r.note_history_id = h.note_history_id
    · exact rowFold_protected_stable c dataKey protect hs _
        (histRowUpd_protected_of_eq c dataKey protect heq)
    · rcases List.mem_cons.mp hh' with rfl | hin
      · exact absurd he heq
      · exact ih _ ⟨h', hin, by rw [histRowUpd_id]; exact he⟩

/-- A row is either left alone by the loop or ends with the target flag. -/
theorem rowFold_eq_or_protected (L : List HistoryRow) (r : HistoryRow) :
    L.foldl (histRowUpd c dataKey protect) r = r ∨
      (L.foldl (histRowUpd c dataKey protect) r).is_protected = protect := by
  by_cases hm : ∃ h ∈ L, r.note_history_id = h.note_history_id
  · exact Or.inr (rowFold_protected_of_match c dataKey protect L r hm)
  · left
    apply rowFold_of_no_match
    intro h hh he
    exact hm ⟨h, hh, he⟩

theorem histRowUpd_self (r : HistoryRow) :
    histRowUpd c dataKey protect r r = protectHistoryRow c dataKey protect r := by
  unfold histRowUpd protectHistoryRow
  cases protect <;> simp

theorem histRowUpd_self' (r : HistoryRow) :
    histRowUpd c dataKey protect (protectHistoryRow c dataKey protect r) r
      = protectHistoryRow c dataKey protect r := by
  unfold histRowUpd protectHistoryRow
  cases protect <;> simp

/-- When the only fetched snapshot carrying the identifier of `r` is `r` itself, the loop
rewrites `r` into `protectHistoryRow r`. -/
theorem rowFold_of_unique (L : List HistoryRow) (r : HistoryRow)
    (huniq : ∀ h ∈ L, h.note_history_id = r.note_history_id → h = r) :
    (r ∈ L → L.foldl (histRowUpd c dataKey protect) r = protectHistoryRow c dataKey protect r) ∧
    L.foldl (histRowUpd c dataKey protect) (protectHistoryRow c dataKey protect r)
      = protectHistoryRow c dataKey protect r := by
  induction L with
  | nil => simp
  | cons h hs ih =>
    have ih' := ih (fun h' hh' => huniq h' (List.mem_cons_of_mem _ hh'))
    by_cases he : h.note_history_id = r.note_history_id
    · have hr : h = r := huniq h (List.mem_cons_self _ _) he
      subst hr
      refine ⟨fun _ => ?_, ?_⟩
      · rw [List.foldl_cons, histRowUpd_self]; exact ih'.2
      · rw [List.foldl_cons, histRowUpd_self']; exact ih'.2
    · refine ⟨fun hin => ?_, ?_⟩
      · rw [List.foldl_cons, histRowUpd_of_ne c dataKey protect (fun e => he e.symm)]
        rcases List.mem_cons.mp hin with rfl | hin
        · exact absurd rfl he
        · exact ih'.1 hin
      · rw [List.foldl_cons, histRowUpd_of_ne c dataKey protect
          (by rw [protectHistoryRow_id]; exact fun e => he e.symm)]
        exact ih'.2

theorem mem_selectHistoryToChange {hs : List HistoryRow} {noteId : String} {p : Bool}
    {r : HistoryRow} :
    r ∈ selectHistoryToChange hs noteId p ↔ r ∈ hs ∧ r.note_id = noteId ∧ r.is_protected ≠ p := by
  simp [selectHistoryToChange]

/-- After `protectNoteHistory`, every snapshot of the note carries the target flag. -/
theorem protectNoteHistory_aligned (s : Store) (noteId : String) :
    ∀ r ∈ (protectNoteHistory c s noteId dataKey protect sourceId).history,
      r.note_id = noteId → r.is_protected = protect := by
  intro r hr hn
  rw [protectNoteHistory_history] at hr
  obtain ⟨r0, hr0, rfl⟩ := List.mem_map.mp hr
  rw [rowFold_note_id] at hn
  by_cases hp : r0.is_protected = protect
  · exact rowFold_protected_stable c dataKey protect _ _ hp
  · exact rowFold_protected_of_match c dataKey protect _ _
      ⟨r0, mem_selectHistoryToChange.mpr ⟨hr0, hn, hp⟩, rfl⟩

/-- Snapshots that already carry the target flag keep it. -/
theorem protectNoteHistory_keeps_flag (s : Store) (noteId : String) (n : String)
    (hall : ∀ r ∈ s.history, r.note_id = n → r.is_protected = protect) :
    ∀ r ∈ (protectNoteHistory c s noteId dataKey protect sourceId).history,
      r.note_id = n → r.is_protected = protect := by
  intro r hr hn
  rw [protectNoteHistory_history] at hr
  obtain ⟨r0, hr0, rfl⟩ := List.mem_map.mp hr
  rw [rowFold_note_id] at hn
  exact rowFold_protected_stable c dataKey protect _ _ (hall r0 hr0 hn)

theorem protectNoteHistory_length (s : Store) (noteId : String) :
    (protectNoteHistory c s noteId dataKey protect sourceId).history.length
      = s.history.length := by
  rw [protectNoteHistory_history, List.length_map]

theorem protectNoteHistory_ids (s : Store) (noteId : String) :
    (protectNoteHistory c s noteId dataKey protect sourceId).history.map
        (fun r => r.note_history_id)
      = s.history.map (fun r => r.note_history_id) := by
  rw [protectNoteHistory_history, List.map_map]
  apply List.map_congr_left
  intro r _
  exact rowFold_id c dataKey protect _ r

/-- When nothing is fetched the loop leaves the store as it is. -/
theorem protectNoteHistory_noop (s : Store) (noteId : String)
    (hall : ∀ r ∈ s.history, r.note_id = noteId → r.is_protected = protect) :
    protectNoteHistory c s noteId dataKey protect sourceId = s := by
  have : selectHistoryToChange s.history noteId protect = [] := by
    rw [List.eq_nil_iff_forall_not_mem]
    intro r hr
    obtain ⟨h1, h2, h3⟩ := mem_selectHistoryToChange.mp hr
    exact h3 (hall r h1 h2)
  unfold protectNoteHistory
  rw [this]
  rfl

end History

/-! ## `updateNote` -/

section Update
variable (c : Crypto) (newNoteHistoryId : String) (now interval : Int) (noteId : String)
  (newNote : NoteDetail) (dataKey : String) (sourceId : Option String)

@[simp] theorem incomingDetail_is_protected :
    (incomingDetail c newNote dataKey).is_protected = newNote.is_protected := by
  unfold incomingDetail encryptNote; split <;> rfl

@[simp] theorem incomingDetail_date_created :
    (incomingDetail c newNote dataKey).date_created = newNote.date_created := by
  unfold incomingDetail encryptNote; split <;> rfl

/-- The three possible runs of `updateNote`. -/
theorem updateNote_cases (s : Store) :
    let existing := selectRecentHistoryId s.history noteId (now - interval * 1000)
    let detail := incomingDetail c newNote dataKey
    (snapshotDue now interval existing detail = false ∧
      updateNote c newNoteHistoryId now interval noteId newNote dataKey sourceId s
        = (updateNoteWrite c now noteId detail dataKey sourceId s, .ok ())) ∨
    (snapshotDue now interval existing detail = true ∧ selectNote s.notes noteId = none ∧
      updateNote c newNoteHistoryId now interval noteId newNote dataKey sourceId s
        = (s, .error (.typeError "Cannot read property 'is_protected' of undefined"))) ∨
    (snapshotDue now interval existing detail = true ∧
      ∃ old, selectNote s.notes noteId = some old ∧
      updateNote c newNoteHistoryId now interval noteId newNote dataKey sourceId s
        = (updateNoteWrite c now noteId detail dataKey sourceId
            (addNoteHistorySync
              (insertNoteHistory s (snapshotRow c newNoteHistoryId now noteId dataKey old))
              newNoteHistoryId sourceId), .ok ())) := by
  intro existing detail
  cases hd : snapshotDue now interval existing detail with
  | false =>
    left
    refine ⟨rfl, ?_⟩
    simp only [updateNote, doInTransaction, updateNoteBody, updateNoteSnapshot]
    simp [existing, detail] at hd
    simp [hd]
  | true =>
    right
    cases hn : selectNote s.notes noteId with
    | none =>
      left
      refine ⟨rfl, rfl, ?_⟩
      simp only [updateNote, doInTransaction, updateNoteBody, updateNoteSnapshot]
      simp [existing, detail] at hd
      simp [hd, hn]
    | some old =>
      right
      refine ⟨rfl, old, rfl, ?_⟩
      simp only [updateNote, doInTransaction, updateNoteBody, updateNoteSnapshot]
      simp [existing, detail] at hd
      simp [hd, hn]

theorem updateNoteWrite_history (detail : NoteDetail) (s1 : Store) :
    (updateNoteWrite c now noteId detail dataKey sourceId s1).history
      = (protectNoteHistory c s1 noteId dataKey detail.is_protected none).history := rfl

theorem updateNoteWrite_notes (detail : NoteDetail) (s1 : Store) :
    (updateNoteWrite c now noteId detail dataKey sourceId s1).notes
      = s1.notes.map (fun r =>
          if r.note_id == noteId then
            { r with note_title := detail.note_title, note_text := detail.note_text,
                     is_protected := detail.is_protected, date_modified := now }
          else r) := by
  simp [updateNoteWrite, addNoteSync, execUpdateNote]


theorem truthy_recent_iff (hs : List HistoryRow) (cut : Int)
    (hids : ∀ h ∈ hs, h.note_history_id ≠ "") :
    truthyId (selectRecentHistoryId hs noteId cut) = true ↔
      ∃ h ∈ hs, h.note_id = noteId ∧ cut ≤ h.date_modified_to := by
  unfold selectRecentHistoryId
  cases hf : hs.find? (fun r => r.note_id == noteId && decide (cut ≤ r.date_modified_to)) with
  | none =>
    simp only [Option.map_none', truthyId, Bool.false_eq_true, false_iff]
    rintro ⟨h, hh, hn, hc⟩
    have := List.find?_eq_none.mp hf h hh
    simp [hn, hc] at this
  | some r =>
    have hmem := List.mem_of_find?_eq_some hf
    have hp := List.find?_some hf
    simp only [Option.map_some', truthyId]
    constructor
    · intro _
      refine ⟨r, hmem, ?_⟩
      simpa using hp
    · intro _
      simpa using hids r hmem

theorem snapshotDue_iff (s : Store) (hids : ∀ h ∈ s.history, h.note_history_id ≠ "") :
    snapshotDue now interval (selectRecentHistoryId s.history noteId (now - interval * 1000))
        (incomingDetail c newNote dataKey) = true ↔
      (¬ ∃ h ∈ s.history, h.note_id = noteId ∧ now - interval * 1000 ≤ h.date_modified_to) ∧
        interval * 1000 ≤ now - newNote.date_created := by
  unfold snapshotDue
  rw [← truthy_recent_iff noteId s.history _ hids]
  simp

theorem updateNoteWrite_history_ids (detail : NoteDetail) (s1 : Store) :
    (updateNoteWrite c now noteId detail dataKey sourceId s1).history.map
        (fun r => r.note_history_id)
      = s1.history.map (fun r => r.note_history_id) := by
  rw [updateNoteWrite_history, protectNoteHistory_ids]

theorem updateNoteWrite_history_mem (detail : NoteDetail) (s1 : Store) (r' : HistoryRow)
    (h : r' ∈ (updateNoteWrite c now noteId detail dataKey sourceId s1).history) :
    ∃ r ∈ s1.history, r'.note_history_id = r.note_history_id ∧ r'.note_id = r.note_id ∧
      r'.date_modified_to = r.date_modified_to := by
  rw [updateNoteWrite_history, protectNoteHistory_history] at h
  obtain ⟨r, hr, rfl⟩ := List.mem_map.mp h
  exact ⟨r, hr, rowFold_id _ _ _ _ _, rowFold_note_id _ _ _ _ _, rowFold_to _ _ _ _ _⟩

theorem updateNoteWrite_history_mem' (detail : NoteDetail) (s1 : Store) (r : HistoryRow)
    (h : r ∈ s1.history) :
    ∃ r' ∈ (updateNoteWrite c now noteId detail dataKey sourceId s1).history,
      r'.note_history_id = r.note_history_id ∧ r'.note_id = r.note_id ∧
      r'.date_modified_to = r.date_modified_to := by
  rw [updateNoteWrite_history, protectNoteHistory_history]
  exact ⟨_, List.mem_map.mpr ⟨r, h, rfl⟩, rowFold_id _ _ _ _ _, rowFold_note_id _ _ _ _ _,
    rowFold_to _ _ _ _ _⟩

/-- C9 (amended): under the precondition that history identifiers are non-empty, when
`updateNote` completes it has appended exactly one snapshot if and only if the note has no
snapshot with `date_modified_to >= now - interval` and the time elapsed since the
`date_created` carried by the incoming note is at least `interval`; otherwise the list of
snapshot identifiers is unchanged. -/
theorem updateNote_snapshot_iff (s : Store)
    (hids : ∀ h ∈ s.history, h.note_history_id ≠ "") :
    ((updateNote c newNoteHistoryId now interval noteId newNote dataKey sourceId s).2 = .ok () →
      (((updateNote c newNoteHistoryId now interval noteId newNote dataKey sourceId
            s).1.history.map (fun r => r.note_history_id)
          = s.history.map (fun r => r.note_history_id) ++ [newNoteHistoryId]) ↔
        ((¬ ∃ h ∈ s.history, h.note_id = noteId ∧ now - interval * 1000 ≤ h.date_modified_to) ∧
          interval * 1000 ≤ now - newNote.date_created)) ∧
      (¬ ((¬ ∃ h ∈ s.history, h.note_id = noteId ∧ now - interval * 1000 ≤ h.date_modified_to) ∧
          interval * 1000 ≤ now - newNote.date_created) →
        (updateNote c newNoteHistoryId now interval noteId newNote dataKey sourceId
            s).1.history.map (fun r => r.note_history_id)
          = s.history.map (fun r => r.note_history_id))) := by
  have hdue := snapshotDue_iff c now interval noteId newNote dataKey s hids
  rcases updateNote_cases c newNoteHistoryId now interval noteId newNote dataKey sourceId s with
    ⟨hd, he⟩ | ⟨hd, hn, he⟩ | ⟨hd, old, hn, he⟩
  · have hnd : ¬ ((¬ ∃ h ∈ s.history, h.note_id = noteId ∧
        now - interval * 1000 ≤ h.date_modified_to) ∧
        interval * 1000 ≤ now - newNote.date_created) := by
      rw [← hdue, hd]; simp
    rw [he]
    refine fun _ => ⟨⟨fun h => ?_, fun h => absurd h hnd⟩,
      fun _ => updateNoteWrite_history_ids _ _ _ _ _ _ _⟩
    exfalso
    rw [updateNoteWrite_history_ids] at h
    have := congrArg List.length h
    simp at this
  · rw [he]
    exact fun h => by simp at h
  · have hyd := hdue.mp hd
    rw [he]
    refine fun _ => ⟨⟨fun _ => hyd, fun _ => ?_⟩, fun h => absurd hyd h⟩
    rw [updateNoteWrite_history_ids]
    simp [addNoteHistorySync, insertNoteHistory, snapshotRow]

end Update

section Update2
variable (c : Crypto)

theorem updateNote_history_length_le (newNoteHistoryId : String) (now interval : Int)
    (noteId : String) (newNote : NoteDetail) (dataKey : String) (sourceId : Option String)
    (s : Store) :
    (updateNote c newNoteHistoryId now interval noteId newNote dataKey sourceId s).1.history.length
      ≤ s.history.length + 1 := by
  rcases updateNote_cases c newNoteHistoryId now interval noteId newNote dataKey sourceId s with
    ⟨_, he⟩ | ⟨_, _, he⟩ | ⟨_, old, _, he⟩
  · rw [he]
    simp [updateNoteWrite_history, protectNoteHistory_length]
  · rw [he]; simp
  · rw [he]
    simp [updateNoteWrite_history, protectNoteHistory_length, addNoteHistorySync,
      insertNoteHistory]

/-- C8: two consecutive `updateNote` calls on the same note, the second at most `interval`
after the first, append at most one snapshot in total (history identifiers are non-empty
strings; each call starts from the store its predecessor left, rolled back if it raised). -/
theorem updateNote_twice_at_most_one_snapshot (id1 id2 : String) (t1 t2 interval : Int)
    (noteId : String) (n1 n2 : NoteDetail) (k1 k2 : String) (src1 src2 : Option String)
    (s : Store)
    (hids : ∀ h ∈ s.history, h.note_history_id ≠ "") (hid1 : id1 ≠ "")
    (horder : t1 ≤ t2) (hclose : t2 - t1 ≤ interval * 1000) :
    (updateNote c id2 t2 interval noteId n2 k2 src2
        (updateNote c id1 t1 interval noteId n1 k1 src1 s).1).1.history.length
      ≤ s.history.length + 1 := by
  have _ := horder
  rcases updateNote_cases c id1 t1 interval noteId n1 k1 src1 s with
    ⟨_, he⟩ | ⟨_, _, he⟩ | ⟨_, old, _, he⟩
  · have h1 : (updateNote c id1 t1 interval noteId n1 k1 src1 s).1.history.length
        = s.history.length := by
      rw [he]; simp [updateNoteWrite_history, protectNoteHistory_length]
    have h2 := updateNote_history_length_le c id2 t2 interval noteId n2 k2 src2
      (updateNote c id1 t1 interval noteId n1 k1 src1 s).1
    omega
  · rw [he]
    exact updateNote_history_length_le c id2 t2 interval noteId n2 k2 src2 s
  · -- the first call appended a snapshot ending at `t1`: the second call finds it
    rw [he]
    set s0 := addNoteHistorySync
      (insertNoteHistory s (snapshotRow c id1 t1 noteId k1 old)) id1 src1 with hs0
    set s1 := updateNoteWrite c t1 noteId (incomingDetail c n1 k1) k1 src1 s0 with hs1
    have hs0h : s0.history = s.history ++ [snapshotRow c id1 t1 noteId k1 old] := rfl
    have hlen1 : s1.history.length = s.history.length + 1 := by
      rw [hs1, updateNoteWrite_history, protectNoteHistory_length, hs0h]; simp
    have hids1 : ∀ h ∈ s1.history, h.note_history_id ≠ "" := by
      intro h hh
      obtain ⟨r, hr, hid, _, _⟩ := updateNoteWrite_history_mem c t1 noteId k1 src1 _ s0 h hh
      rw [hid]
      rw [hs0h] at hr
      rcases List.mem_append.mp hr with hr | hr
      · exact hids r hr
      · simp only [List.mem_singleton] at hr
        subst hr
        exact hid1
    have hrecent : ∃ h ∈ s1.history, h.note_id = noteId ∧
        t2 - interval * 1000 ≤ h.date_modified_to := by
      obtain ⟨r', hr', _, hn, ht⟩ := updateNoteWrite_history_mem' c t1 noteId k1 src1
        (incomingDetail c n1 k1) s0 (snapshotRow c id1 t1 noteId k1 old)
        (by rw [hs0h]; simp)
      refine ⟨r', hr', by rw [hn]; rfl, ?_⟩
      rw [ht]
      show t2 - interval * 1000 ≤ t1
      omega
    have hnd : snapshotDue t2 interval
        (selectRecentHistoryId s1.history noteId (t2 - interval * 1000))
        (incomingDetail c n2 k2) = false := by
      have := snapshotDue_iff c t2 interval noteId n2 k2 s1 hids1
      by_contra hne
      have ht : snapshotDue t2 interval
          (selectRecentHistoryId s1.history noteId (t2 - interval * 1000))
          (incomingDetail c n2 k2) = true := by simpa using hne
      exact (this.mp ht).1 hrecent
    rcases updateNote_cases c id2 t2 interval noteId n2 k2 src2 s1 with
      ⟨_, he2⟩ | ⟨hd, _, _⟩ | ⟨hd, _, _, _⟩
    · rw [he2]
      simp only [updateNoteWrite_history, protectNoteHistory_length]
      omega
    · rw [hnd] at hd; simp at hd
    · rw [hnd] at hd; simp at hd

end Update2

section Update3
variable (c : Crypto)

theorem readHistory_snapshotRow (newNoteHistoryId : String) (now : Int) (noteId dataKey : String)
    (old : NoteRow) :
    readHistory c dataKey (snapshotRow c newNoteHistoryId now noteId dataKey old)
      = readNote c dataKey old := by
  unfold readHistory readNote snapshotRow decryptNote
  cases old.is_protected <;> simp

theorem readHistory_protectHistoryRow_true (dataKey : String) (h : HistoryRow)
    (hround : ∀ k iv x, c.decryptString k iv (c.encrypt k iv x) = x)
    (hp : h.is_protected = false) :
    readHistory c dataKey (protectHistoryRow c dataKey true h) = readHistory c dataKey h := by
  unfold readHistory protectHistoryRow
  simp [hp, hround]

theorem updateNoteWrite_aligned (now : Int) (noteId : String) (detail : NoteDetail)
    (dataKey : String) (sourceId : Option String) (s1 : Store) :
    (∀ n ∈ (updateNoteWrite c now noteId detail dataKey sourceId s1).notes,
        n.note_id = noteId → n.is_protected = detail.is_protected) ∧
    (∀ h ∈ (updateNoteWrite c now noteId detail dataKey sourceId s1).history,
        h.note_id = noteId → h.is_protected = detail.is_protected) := by
  constructor
  · intro n hn hid
    rw [updateNoteWrite_notes] at hn
    obtain ⟨r, _, rfl⟩ := List.mem_map.mp hn
    by_cases hr : r.note_id = noteId
    · simp [hr]
    · simp [hr] at hid
  · intro h hh hid
    rw [updateNoteWrite_history] at hh
    exact protectNoteHistory_aligned c dataKey detail.is_protected none s1 noteId h hh hid

/-- After a completed `updateNote`, every snapshot of the note carries the flag of the note
row. -/
theorem updateNote_history_aligned (newNoteHistoryId : String) (now interval : Int)
    (noteId : String) (newNote : NoteDetail) (dataKey : String) (sourceId : Option String)
    (s : Store)
    (hok : (updateNote c newNoteHistoryId now interval noteId newNote dataKey sourceId s).2
      = .ok ()) :
    ∀ n ∈ (updateNote c newNoteHistoryId now interval noteId newNote dataKey sourceId s).1.notes,
      n.note_id = noteId →
      n.is_protected = newNote.is_protected ∧
      ∀ h ∈ (updateNote c newNoteHistoryId now interval noteId newNote dataKey sourceId
          s).1.history,
        h.note_id = noteId → h.is_protected = n.is_protected := by
  rcases updateNote_cases c newNoteHistoryId now interval noteId newNote dataKey sourceId s with
    ⟨_, he⟩ | ⟨_, _, he⟩ | ⟨_, old, _, he⟩
  · rw [he]
    intro n hn hid
    have ha := updateNoteWrite_aligned c now noteId (incomingDetail c newNote dataKey) dataKey
      sourceId s
    have h1 := ha.1 n hn hid
    rw [incomingDetail_is_protected] at h1
    refine ⟨h1, fun h hh hhid => ?_⟩
    rw [h1, ← incomingDetail_is_protected c newNote dataKey]
    exact ha.2 h hh hhid
  · rw [he] at hok; simp at hok
  · rw [he]
    intro n hn hid
    have ha := updateNoteWrite_aligned c now noteId (incomingDetail c newNote dataKey) dataKey
      sourceId (addNoteHistorySync
        (insertNoteHistory s (snapshotRow c newNoteHistoryId now noteId dataKey old))
        newNoteHistoryId sourceId)
    have h1 := ha.1 n hn hid
    rw [incomingDetail_is_protected] at h1
    refine ⟨h1, fun h hh hhid => ?_⟩
    rw [h1, ← incomingDetail_is_protected c newNote dataKey]
    exact ha.2 h hh hhid

/-- C10: when a completed `updateNote` has created a snapshot (the history grew), the new
snapshot is the last row of the history, the rows before it are the old snapshots; it covers
[the stored note's `date_modified`, now), carries the incoming `is_protected` flag, and read
according to that flag it yields the plaintext title and body the stored note had before the
update.  The cipher is assumed to satisfy decrypt (encrypt x) = x and the new history
identifier to be fresh. -/
theorem updateNote_snapshot_content (newNoteHistoryId : String) (now interval : Int)
    (noteId : String) (newNote : NoteDetail) (dataKey : String) (sourceId : Option String)
    (s s' : Store)
    (hround : ∀ k iv x, c.decryptString k iv (c.encrypt k iv x) = x)
    (hfresh : ∀ h ∈ s.history, h.note_history_id ≠ newNoteHistoryId)
    (hres : updateNote c newNoteHistoryId now interval noteId newNote dataKey sourceId s
      = (s', .ok ()))
    (hgrew : s'.history.length = s.history.length + 1) :
    ∃ (old : NoteRow) (pre : List HistoryRow) (snap : HistoryRow),
      selectNote s.notes noteId = some old ∧
      s'.history = pre ++ [snap] ∧
      pre.map (fun r => r.note_history_id) = s.history.map (fun r => r.note_history_id) ∧
      snap.note_history_id = newNoteHistoryId ∧
      snap.note_id = noteId ∧
      snap.date_modified_from = old.date_modified ∧
      snap.date_modified_to = now ∧
      snap.is_protected = newNote.is_protected ∧
      readHistory c dataKey snap = readNote c dataKey old := by
  rcases updateNote_cases c newNoteHistoryId now interval noteId newNote dataKey sourceId s with
    ⟨_, he⟩ | ⟨_, _, he⟩ | ⟨_, old, hold, he⟩
  · rw [he] at hres
    have hs : s' = _ := (Prod.mk.inj hres).1.symm
    rw [hs, updateNoteWrite_history, protectNoteHistory_length] at hgrew
    omega
  · rw [he] at hres
    have := (Prod.mk.inj hres).2
    simp at this
  · rw [he] at hres
    have hs : s' = _ := (Prod.mk.inj hres).1.symm
    set snap0 := snapshotRow c newNoteHistoryId now noteId dataKey old with hsnap0
    set s0 := addNoteHistorySync (insertNoteHistory s snap0) newNoteHistoryId sourceId with hs0
    have hs0h : s0.history = s.history ++ [snap0] := rfl
    set L := selectHistoryToChange s0.history noteId newNote.is_protected with hL
    have hhist : s'.history = s.history.map (fun r => L.foldl
          (histRowUpd c dataKey newNote.is_protected) r)
        ++ [L.foldl (histRowUpd c dataKey newNote.is_protected) snap0] := by
      rw [hs, updateNoteWrite_history, protectNoteHistory_history, incomingDetail_is_protected,
        hs0h, List.map_append]
      rfl
    have huniq : ∀ h ∈ L, h.note_history_id = snap0.note_history_id → h = snap0 := by
      intro h hh hid
      have hm := (mem_selectHistoryToChange.mp hh).1
      rw [hs0h] at hm
      rcases List.mem_append.mp hm with hm | hm
      · exact absurd hid (hfresh h hm)
      · simpa using hm
    have hro : old.date_modified = snap0.date_modified_from := by
      rw [hsnap0]; unfold snapshotRow decryptNote
      cases old.is_protected <;> rfl
    refine ⟨old, _, _, hold, hhist, ?_, ?_, ?_, ?_, ?_, ?_, ?_⟩
    · rw [List.map_map]
      apply List.map_congr_left
      intro r _
      exact rowFold_id c dataKey _ _ r
    · rw [rowFold_id]; rfl
    · rw [rowFold_note_id]; rfl
    · rw [rowFold_from, hro]
    · rw [rowFold_to]; rfl
    · cases hp : newNote.is_protected with
      | false =>
        rw [← hp]
        apply rowFold_protected_stable
        rw [hp]; rfl
      | true =>
        rw [← hp]
        apply rowFold_protected_of_match
        refine ⟨snap0, ?_, rfl⟩
        rw [hL, hs0h]
        apply mem_selectHistoryToChange.mpr
        refine ⟨by simp, rfl, ?_⟩
        rw [hp]; simp [hsnap0, snapshotRow]
    · cases hp : newNote.is_protected with
      | false =>
        have hno : ∀ h ∈ L, snap0.note_history_id ≠ h.note_history_id := by
          intro h hh hid
          have := huniq h hh hid.symm
          subst this
          have := (mem_selectHistoryToChange.mp hh).2.2
          rw [hp] at this
          exact this rfl
        rw [← hp, rowFold_of_no_match c dataKey _ L snap0 hno]
        exact readHistory_snapshotRow c _ _ _ _ _
      | true =>
        have hin : snap0 ∈ L := by
          rw [hL, hs0h]
          apply mem_selectHistoryToChange.mpr
          refine ⟨by simp, rfl, ?_⟩
          rw [hp]; simp [hsnap0, snapshotRow]
        rw [← hp, (rowFold_of_unique c dataKey _ L snap0 huniq).1 hin, hp,
          readHistory_protectHistoryRow_true c dataKey snap0 hround rfl]
        exact readHistory_snapshotRow c _ _ _ _ _

end Update3

theorem exCrypto_roundtrip (k iv x : String) :
    exCrypto.decryptString k iv (exCrypto.encrypt k iv x) = x := by
  show String.mk (List.drop (k.data.length + iv.data.length) (k.data ++ iv.data ++ x.data)) = x
  rw [List.append_assoc, List.drop_append, List.drop_left]

/-- Witness for C8: two updates of note A two seconds apart with a five second interval. -/
theorem updateNote_twice_at_most_one_snapshot_witness :
    ((∀ h ∈ exStoreAH.history, h.note_history_id ≠ "") ∧ "h1" ≠ "" ∧
      (10000 : Int) ≤ 12000 ∧ (12000 : Int) - 10000 ≤ 5 * 1000) ∧
    (updateNote exCrypto "h2" 12000 5 "A" ⟨"A", "t3", "x3", false, 0⟩ "k" (some "src")
        (updateNote exCrypto "h1" 10000 5 "A" ⟨"A", "t2", "x2", true, 0⟩ "k" (some "src")
          exStoreAH).1).1.history.length
      ≤ exStoreAH.history.length + 1 :=
  ⟨⟨by decide, by decide, by decide, by decide⟩,
    updateNote_twice_at_most_one_snapshot exCrypto "h1" "h2" 10000 12000 5 "A"
      ⟨"A", "t2", "x2", true, 0⟩ ⟨"A", "t3", "x3", false, 0⟩ "k" "k" (some "src") (some "src")
      exStoreAH (by decide) (by decide) (by decide) (by decide)⟩

/-- C9 (as stated) fails: note A of `exStoreA` was created at instant 0 and has no snapshot, so
at instant 10000 with a 5 second interval the stored created-at is old enough; the incoming
note carries `date_created = 9000`, and no snapshot is inserted. -/
theorem updateNote_snapshot_stored_created_counterexample :
    ¬ ((updateNote exCrypto "h1" 10000 5 "A" ⟨"A", "t2", "x2", false, 9000⟩ "k" (some "src")
          exStoreA).1.history.length = exStoreA.history.length + 1 ↔
        ((¬ ∃ h ∈ exStoreA.history, h.note_id = "A" ∧
            (10000 : Int) - 5 * 1000 ≤ h.date_modified_to) ∧
          ∃ old, selectNote exStoreA.notes "A" = some old ∧
            (5 : Int) * 1000 ≤ 10000 - old.date_created)) := by
  intro h
  have h1 := h.mpr ⟨by decide, ⟨⟨"A", "title", "text", 0, 0, false, false⟩, by decide, by decide⟩⟩
  revert h1
  decide

/-- Witness for C9 (amended): the update of note A of `exStoreAH` at instant 10000 completes
and appends the snapshot `h1`. -/
theorem updateNote_snapshot_iff_witness :
    ((∀ h ∈ exStoreAH.history, h.note_history_id ≠ "") ∧
      (updateNote exCrypto "h1" 10000 5 "A" ⟨"A", "t2", "x2", true, 0⟩ "k" (some "src")
          exStoreAH).2 = .ok ()) ∧
    ((updateNote exCrypto "h1" 10000 5 "A" ⟨"A", "t2", "x2", true, 0⟩ "k" (some "src")
          exStoreAH).1.history.map (fun r => r.note_history_id)
        = exStoreAH.history.map (fun r => r.note_history_id) ++ ["h1"] ↔
      ((¬ ∃ h ∈ exStoreAH.history, h.note_id = "A" ∧
            (10000 : Int) - 5 * 1000 ≤ h.date_modified_to) ∧
          (5 : Int) * 1000 ≤ 10000 - (⟨"A", "t2", "x2", true, 0⟩ : NoteDetail).date_created)) :=
  ⟨⟨by decide, rfl⟩,
    (updateNote_snapshot_iff exCrypto "h1" 10000 5 "A" ⟨"A", "t2", "x2", true, 0⟩ "k"
      (some "src") exStoreAH (by decide) rfl).1⟩

/-- Witness for C10: the protected update of `exUpdateProtected` snapshots note A. -/
theorem updateNote_snapshot_content_witness :
    ((∀ k iv x, exCrypto.decryptString k iv (exCrypto.encrypt k iv x) = x) ∧
      (∀ h ∈ exStoreAH.history, h.note_history_id ≠ "h1") ∧
      exUpdateProtected = (exUpdateProtected.1, .ok ()) ∧
      exUpdateProtected.1.history.length = exStoreAH.history.length + 1) ∧
    ∃ (old : NoteRow) (pre : List HistoryRow) (snap : HistoryRow),
      selectNote exStoreAH.notes "A" = some old ∧
      exUpdateProtected.1.history = pre ++ [snap] ∧
      pre.map (fun r => r.note_history_id)
        = exStoreAH.history.map (fun r => r.note_history_id) ∧
      snap.note_history_id = "h1" ∧
      snap.note_id = "A" ∧
      snap.date_modified_from = old.date_modified ∧
      snap.date_modified_to = 10000 ∧
      snap.is_protected = (⟨"A", "t2", "x2", true, 0⟩ : NoteDetail).is_protected ∧
      readHistory exCrypto "k" snap = readNote exCrypto "k" old :=
  ⟨⟨exCrypto_roundtrip, by decide, rfl, by decide⟩,
    updateNote_snapshot_content exCrypto "h1" 10000 5 "A" ⟨"A", "t2", "x2", true, 0⟩ "k"
      (some "src") exStoreAH exUpdateProtected.1 exCrypto_roundtrip (by decide) rfl (by decide)⟩

/-! ## The placement graph -/

theorem mem_selectChildNoteIds {t : List TreeRow} {n ch : String} :
    ch ∈ selectChildNoteIds t n ↔ Edge t n ch := by
  simp [selectChildNoteIds, Edge, and_assoc]

theorem reach_iff (t : List TreeRow) (n m : String) :
    Reach t n m ↔ m = n ∨ ∃ ch ∈ selectChildNoteIds t n, Reach t ch m := by
  constructor
  · intro h
    rcases Relation.ReflTransGen.cases_head h with rfl | ⟨ch, he, hr⟩
    · exact Or.inl rfl
    · exact Or.inr ⟨ch, mem_selectChildNoteIds.mpr he, hr⟩
  · rintro (rfl | ⟨ch, he, hr⟩)
    · exact Relation.ReflTransGen.refl
    · exact Relation.ReflTransGen.head (mem_selectChildNoteIds.mp he) hr

/-- A rank that decreases along every placement shows that the graph is acyclic. -/
theorem acyclic_of_rank (t : List TreeRow) (rank : String → Nat)
    (h : ∀ r ∈ t, rank r.note_id < rank r.parent_note_id) : Acyclic t := by
  have hstep : ∀ a b, Relation.TransGen (Edge t) a b → rank b < rank a := by
    intro a b hab
    induction hab with
    | single he =>
      obtain ⟨r, hr, rfl, rfl⟩ := he
      exact h r hr
    | tail _ he ih =>
      obtain ⟨r, hr, rfl, rfl⟩ := he
      exact lt_trans (h r hr) ih
  intro a ha
  exact lt_irrefl _ (hstep a a ha)

/-- In an acyclic placement graph the child-of relation is well founded. -/
theorem edge_wellFounded (t : List TreeRow) (hac : Acyclic t) :
    WellFounded (fun ch p => Edge t p ch) := by
  let r : String → String → Prop := Relation.TransGen (fun ch p => Edge t p ch)
  have hirr : ∀ a, ¬ r a a := fun a ha => hac a (Relation.transGen_swap.mp ha)
  haveI : IsStrictOrder String r :=
    { irrefl := hirr
      trans := fun _ _ _ h1 h2 => Relation.TransGen.trans h1 h2 }
  let V : Set String := { x | x ∈ t.map (fun row => row.note_id) }
  have hfin : V.Finite := List.finite_toSet _
  have hwf : WellFounded (fun a b => r a b ∧ a ∈ V ∧ b ∈ V) :=
    Set.wellFoundedOn_iff.mp (Set.Finite.wellFoundedOn hfin)
  have hV : ∀ p ch, Edge t p ch → ch ∈ V := by
    rintro p ch ⟨row, hrow, _, rfl⟩
    exact List.mem_map.mpr ⟨row, hrow, rfl⟩
  have hacc : ∀ x, x ∈ V → Acc (fun ch p => Edge t p ch) x := by
    intro x
    refine hwf.induction (C := fun x => x ∈ V → Acc (fun ch p => Edge t p ch) x) x ?_
    intro y ih hy
    exact Acc.intro y (fun z hz => ih z ⟨Relation.TransGen.single hz, hV _ _ hz, hy⟩ (hV _ _ hz))
  exact ⟨fun x => Acc.intro x (fun z hz => hacc z (hV _ _ hz))⟩

/-! ## `protectNote` -/

section Protect
variable (c : Crypto) (dataKey : String) (protect : Bool) (sourceId : Option String)

@[simp] theorem protectNoteRow_note_id (note : NoteRow) :
    (protectNoteRow c note dataKey protect).1.note_id = note.note_id := by
  unfold protectNoteRow encryptNoteRow decryptNote
  split
  · rfl
  · split <;> rfl

@[simp] theorem protectNoteRow_is_protected (note : NoteRow) :
    (protectNoteRow c note dataKey protect).1.is_protected = protect := by
  unfold protectNoteRow encryptNoteRow decryptNote
  cases protect <;> cases h : note.is_protected <;> simp [h]

theorem protectNoteRow_changed (note : NoteRow) :
    (protectNoteRow c note dataKey protect).2 = (note.is_protected != protect) := by
  unfold protectNoteRow
  cases protect <;> cases h : note.is_protected <;> simp [h]

theorem protectNoteRow_of_eq (note : NoteRow) (h : note.is_protected = protect) :
    (protectNoteRow c note dataKey protect).1 = note := by
  unfold protectNoteRow
  cases protect <;> simp [h]

theorem protectNote_of_eq (s : Store) (note : NoteRow) (h : note.is_protected = protect) :
    protectNote c s note dataKey protect sourceId
      = protectNoteHistory c s note.note_id dataKey protect sourceId := by
  unfold protectNote
  have h2 := protectNoteRow_changed c dataKey protect note
  have h1 := protectNoteRow_note_id c dataKey protect note
  rw [h] at h2
  simp only [bne_self_eq_false] at h2
  simp only [h2, h1]
  simp

theorem protectNote_of_ne (s : Store) (note : NoteRow) (h : note.is_protected ≠ protect) :
    protectNote c s note dataKey protect sourceId
      = protectNoteHistory c
          (addNoteSync
            (execUpdateNoteContent s (protectNoteRow c note dataKey protect).1.note_title
              (protectNoteRow c note dataKey protect).1.note_text protect note.note_id)
            (some note.note_id) sourceId)
          note.note_id dataKey protect sourceId := by
  unfold protectNote
  have h2 := protectNoteRow_changed c dataKey protect note
  have h1 := protectNoteRow_note_id c dataKey protect note
  have h3 := protectNoteRow_is_protected c dataKey protect note
  have : (note.is_protected != protect) = true := by simpa using h
  rw [this] at h2
  simp only [h2, h1, h3]
  simp

@[simp] theorem protectNote_tree (s : Store) (note : NoteRow) :
    (protectNote c s note dataKey protect sourceId).tree = s.tree := by
  by_cases h : note.is_protected = protect
  · rw [protectNote_of_eq c dataKey protect sourceId s note h]; simp
  · rw [protectNote_of_ne c dataKey protect sourceId s note h]; simp [addNoteSync,
      execUpdateNoteContent]

theorem protectNote_notes (s : Store) (note : NoteRow) :
    (protectNote c s note dataKey protect sourceId).notes
      = if note.is_protected = protect then s.notes
        else s.notes.map (noteRowUpd c dataKey protect note) := by
  by_cases h : note.is_protected = protect
  · rw [protectNote_of_eq c dataKey protect sourceId s note h, if_pos h]; simp
  · rw [protectNote_of_ne c dataKey protect sourceId s note h, if_neg h]
    simp only [protectNoteHistory_notes, addNoteSync, execUpdateNoteContent]
    apply List.map_congr_left
    intro r _
    simp [noteRowUpd]

theorem protectNote_history (s : Store) (note : NoteRow) :
    (protectNote c s note dataKey protect sourceId).history
      = s.history.map (fun r =>
          (selectHistoryToChange s.history note.note_id protect).foldl
            (histRowUpd c dataKey protect) r) := by
  by_cases h : note.is_protected = protect
  · rw [protectNote_of_eq c dataKey protect sourceId s note h, protectNoteHistory_history]
  · rw [protectNote_of_ne c dataKey protect sourceId s note h, protectNoteHistory_history]
    rfl

theorem noteRowUpd_note_id (note r : NoteRow) :
    (noteRowUpd c dataKey protect note r).note_id = r.note_id := by
  unfold noteRowUpd; split <;> rfl

theorem noteRowUpd_of_ne {note r : NoteRow} (h : r.note_id ≠ note.note_id) :
    noteRowUpd c dataKey protect note r = r := by
  simp [noteRowUpd, h]

theorem noteRowUpd_protected_of_eq {note r : NoteRow} (h : r.note_id = note.note_id) :
    (noteRowUpd c dataKey protect note r).is_protected = protect := by
  simp [noteRowUpd, h]

theorem noteRowUpd_protected_stable {note r : NoteRow} (h : r.is_protected = protect) :
    (noteRowUpd c dataKey protect note r).is_protected = protect := by
  unfold noteRowUpd; split
  · simp
  · exact h

theorem noteRowUpd_self (note : NoteRow) :
    noteRowUpd c dataKey protect note note = (protectNoteRow c note dataKey protect).1 := by
  obtain ⟨i, ti, tx, dc, dm, ip, dl⟩ := note
  cases protect <;> cases ip <;>
    simp [noteRowUpd, protectNoteRow, encryptNoteRow, decryptNote]

theorem protectNote_note_ids (s : Store) (note : NoteRow) :
    (protectNote c s note dataKey protect sourceId).notes.map (fun r => r.note_id)
      = s.notes.map (fun r => r.note_id) := by
  rw [protectNote_notes]
  split
  · rfl
  · rw [List.map_map]
    apply List.map_congr_left
    intro r _
    exact noteRowUpd_note_id c dataKey protect note r

theorem protectNote_history_ids (s : Store) (note : NoteRow) :
    (protectNote c s note dataKey protect sourceId).history.map (fun r => r.note_history_id)
      = s.history.map (fun r => r.note_history_id) := by
  rw [protectNote_history, List.map_map]
  apply List.map_congr_left
  intro r _
  exact rowFold_id c dataKey protect _ r

/-- A note and snapshots already in the target state: `protectNote` does nothing. -/
theorem protectNote_noop (s : Store) (note : NoteRow) (h : note.is_protected = protect)
    (hall : ∀ r ∈ s.history, r.note_id = note.note_id → r.is_protected = protect) :
    protectNote c s note dataKey protect sourceId = s := by
  rw [protectNote_of_eq c dataKey protect sourceId s note h]
  exact protectNoteHistory_noop c dataKey protect sourceId s _ hall

/-! ### `selectNote` -/

theorem selectNote_note_id {notes : List NoteRow} {n : String} {row : NoteRow}
    (h : selectNote notes n = some row) : row.note_id = n := by
  have := List.find?_some h
  simpa using this

theorem selectNote_mem {notes : List NoteRow} {n : String} {row : NoteRow}
    (h : selectNote notes n = some row) : row ∈ notes :=
  List.mem_of_find?_eq_some h

theorem selectNote_map (notes : List NoteRow) (n : String) (f : NoteRow → NoteRow)
    (hf : ∀ r, (f r).note_id = r.note_id) :
    selectNote (notes.map f) n = (selectNote notes n).map f := by
  induction notes with
  | nil => rfl
  | cons r rs ih =>
    simp only [selectNote, List.map_cons, List.find?_cons] at ih ⊢
    rw [hf r]
    cases r.note_id == n
    · simpa using ih
    · simp

theorem selectNote_isSome_iff (notes : List NoteRow) (n : String) :
    (∃ row, selectNote notes n = some row) ↔ n ∈ notes.map (fun r => r.note_id) := by
  constructor
  · rintro ⟨row, h⟩
    exact List.mem_map.mpr ⟨row, selectNote_mem h, selectNote_note_id h⟩
  · intro h
    obtain ⟨r, hr, hn⟩ := List.mem_map.mp h
    cases hs : selectNote notes n with
    | some row => exact ⟨row, rfl⟩
    | none =>
      have := List.find?_eq_none.mp hs r hr
      simp [hn] at this

theorem selectNote_of_nodup (notes : List NoteRow)
    (hnd : (notes.map (fun r => r.note_id)).Nodup) (row : NoteRow) (h : row ∈ notes) :
    selectNote notes row.note_id = some row := by
  induction notes with
  | nil => simp at h
  | cons r rs ih =>
    simp only [List.map_cons, List.nodup_cons] at hnd
    simp only [selectNote, List.find?_cons]
    rcases List.mem_cons.mp h with rfl | hin
    · simp
    · have hne : r.note_id ≠ row.note_id := by
        intro e
        exact hnd.1 (List.mem_map.mpr ⟨row, hin, e.symm⟩)
      have hb : (r.note_id == row.note_id) = false := by simpa using hne
      rw [hb]
      exact ih hnd.2 hin

end Protect

/-! ## `protectNoteRecursively` -/

section Rec
variable (c : Crypto) (dataKey : String) (protect : Bool) (sourceId : Option String)

theorem forEachNote_cons_ok {body : Store → String → Option (Except Err Store)} {x : String}
    {xs : List String} {s s' : Store} (h : forEachNote body (x :: xs) s = some (.ok s')) :
    ∃ s1, body s x = some (.ok s1) ∧ forEachNote body xs s1 = some (.ok s') := by
  simp only [forEachNote] at h
  cases hb : body s x with
  | none => rw [hb] at h; simp at h
  | some r =>
    rw [hb] at h
    cases r with
    | error e => simp at h
    | ok s1 => exact ⟨s1, rfl, h⟩

theorem protectNoteRecursively_succ_ok {fuel : Nat} {s s' : Store} {n : String}
    (h : protectNoteRecursively c dataKey protect sourceId (fuel + 1) s n = some (.ok s')) :
    ∃ note, selectNote s.notes n = some note ∧
      forEachNote (protectNoteRecursively c dataKey protect sourceId fuel)
        (selectChildNoteIds s.tree n) (protectNote c s note dataKey protect sourceId)
        = some (.ok s') := by
  simp only [protectNoteRecursively] at h
  cases hn : selectNote s.notes n with
  | none => rw [hn] at h; simp at h
  | some note =>
    rw [hn] at h
    simp only [protectNote_tree] at h
    exact ⟨note, rfl, h⟩

/-- Induction over a completed run of `protectNoteRecursively` started below `root`: an
invariant `Inv` kept by every `protectNote` of the run holds at the end, and a property
`G n` established by the `protectNote` of `n` and kept by the other ones holds at the end for
every note reachable from the start. -/
theorem protectNoteRecursively_induct (t : List TreeRow) (root : String)
    (Inv : Store → Prop) (G : String → Store → Prop)
    (htree : ∀ s, Inv s → s.tree = t)
    (hstep : ∀ s n note, Inv s → Reach t root n → selectNote s.notes n = some note →
      Inv (protectNote c s note dataKey protect sourceId) ∧
      G n (protectNote c s note dataKey protect sourceId) ∧
      ∀ m, G m s → G m (protectNote c s note dataKey protect sourceId)) :
    ∀ (fuel : Nat) (s : Store) (n : String) (s' : Store), Reach t root n → Inv s →
      protectNoteRecursively c dataKey protect sourceId fuel s n = some (.ok s') →
      Inv s' ∧ (∀ m, Reach t n m → G m s') ∧ (∀ m, G m s → G m s') := by
  intro fuel
  induction fuel with
  | zero =>
    intro s n s' _ _ h
    simp [protectNoteRecursively] at h
  | succ fuel ih =>
    intro s n s' hreach hinv h
    obtain ⟨note, hnote, hloop⟩ := protectNoteRecursively_succ_ok c dataKey protect sourceId h
    obtain ⟨hinv1, hg1, hst1⟩ := hstep s n note hinv hreach hnote
    rw [htree s hinv] at hloop
    have inner : ∀ (cs : List String) (s1 s' : Store), (∀ ch ∈ cs, Reach t root ch) → Inv s1 →
        forEachNote (protectNoteRecursively c dataKey protect sourceId fuel) cs s1
          = some (.ok s') →
        Inv s' ∧ (∀ ch ∈ cs, ∀ m, Reach t ch m → G m s') ∧ (∀ m, G m s1 → G m s') := by
      intro cs
      induction cs with
      | nil =>
        intro s1 s' _ hi hf
        simp only [forEachNote, Option.some.injEq, Except.ok.injEq] at hf
        subst hf
        exact ⟨hi, fun ch hch => by simp at hch, fun _ hm => hm⟩
      | cons ch cs ihcs =>
        intro s1 s' hr hi hf
        obtain ⟨s2, hb, hrest⟩ := forEachNote_cons_ok hf
        obtain ⟨hi2, hg2, hst2⟩ := ih s1 ch s2 (hr ch (List.mem_cons_self _ _)) hi hb
        obtain ⟨hi3, hg3, hst3⟩ := ihcs s2 s' (fun x hx => hr x (List.mem_cons_of_mem _ hx))
          hi2 hrest
        refine ⟨hi3, ?_, fun m hm => hst3 m (hst2 m hm)⟩
        intro x hx m hxm
        rcases List.mem_cons.mp hx with rfl | hx
        · exact hst3 m (hg2 m hxm)
        · exact hg3 x hx m hxm
    have hchildren : ∀ ch ∈ selectChildNoteIds t n, Reach t root ch := fun ch hch =>
      Relation.ReflTransGen.tail hreach (mem_selectChildNoteIds.mp hch)
    obtain ⟨hi', hg', hst'⟩ := inner _ _ s' hchildren hinv1 hloop
    refine ⟨hi', ?_, fun m hm => hst' m (hst1 m hm)⟩
    intro m hm
    rcases (reach_iff t n m).mp hm with rfl | ⟨ch, hch, hchm⟩
    · exact hst' _ hg1
    · exact hg' ch hch m hchm

/-- A completed run keeps the placements and the list of note identifiers. -/
theorem protectNoteRecursively_preserves (fuel : Nat) (s : Store) (n : String) (s' : Store)
    (h : protectNoteRecursively c dataKey protect sourceId fuel s n = some (.ok s')) :
    s'.tree = s.tree ∧
    s'.notes.map (fun r => r.note_id) = s.notes.map (fun r => r.note_id) ∧
    s'.history.map (fun r => r.note_history_id) = s.history.map (fun r => r.note_history_id) := by
  have := protectNoteRecursively_induct c dataKey protect sourceId s.tree n
    (fun x => x.tree = s.tree ∧
      x.notes.map (fun r => r.note_id) = s.notes.map (fun r => r.note_id) ∧
      x.history.map (fun r => r.note_history_id) = s.history.map (fun r => r.note_history_id))
    (fun _ _ => True) (fun _ hx => hx.1)
    (fun x m note hx _ _ => ⟨⟨by rw [protectNote_tree]; exact hx.1,
      by rw [protectNote_note_ids]; exact hx.2.1,
      by rw [protectNote_history_ids]; exact hx.2.2⟩, trivial, fun _ _ => trivial⟩)
    fuel s n s' Relation.ReflTransGen.refl ⟨rfl, rfl, rfl⟩ h
  exact this.1

theorem exists_fuel_bound {P : String → Nat → Prop} (cs : List String)
    (h : ∀ ch ∈ cs, ∃ f0, ∀ f, f0 ≤ f → P ch f) :
    ∃ F, ∀ ch ∈ cs, ∀ f, F ≤ f → P ch f := by
  induction cs with
  | nil => exact ⟨0, fun ch hch => by simp at hch⟩
  | cons x xs ih =>
    obtain ⟨F, hF⟩ := ih (fun ch hch => h ch (List.mem_cons_of_mem _ hch))
    obtain ⟨f0, hf0⟩ := h x (List.mem_cons_self _ _)
    refine ⟨max f0 F, fun ch hch f hf => ?_⟩
    rcases List.mem_cons.mp hch with rfl | hch
    · exact hf0 f (le_trans (le_max_left _ _) hf)
    · exact hF ch hch f (le_trans (le_max_right _ _) hf)

/-- On an acyclic placement graph in which every reachable note has a row, the recursion
completes once the fuel is large enough. -/
theorem protectNoteRecursively_completes (t : List TreeRow) (ids : List String)
    (hac : Acyclic t) (n : String) (hrows : ∀ m, Reach t n m → m ∈ ids) :
    ∃ fuel0, ∀ fuel, fuel0 ≤ fuel → ∀ s : Store, s.tree = t →
      s.notes.map (fun r => r.note_id) = ids →
      ∃ s', protectNoteRecursively c dataKey protect sourceId fuel s n = some (.ok s') := by
  induction n using (edge_wellFounded t hac).induction with
  | _ n ih =>
    have hch : ∀ ch ∈ selectChildNoteIds t n, ∃ f0, ∀ f, f0 ≤ f → ∀ s : Store, s.tree = t →
        s.notes.map (fun r => r.note_id) = ids →
        ∃ s', protectNoteRecursively c dataKey protect sourceId f s ch = some (.ok s') := by
      intro ch hch
      exact ih ch (mem_selectChildNoteIds.mp hch) (fun m hm =>
        hrows m (Relation.ReflTransGen.head (mem_selectChildNoteIds.mp hch) hm))
    obtain ⟨F, hF⟩ := exists_fuel_bound (selectChildNoteIds t n) hch
    refine ⟨F + 1, fun fuel hfuel s hst hsi => ?_⟩
    obtain ⟨f, rfl⟩ : ∃ f, fuel = f + 1 := ⟨fuel - 1, by omega⟩
    have hf : F ≤ f := by omega
    have hn : n ∈ s.notes.map (fun r => r.note_id) := by
      rw [hsi]; exact hrows n Relation.ReflTransGen.refl
    obtain ⟨note, hnote⟩ := (selectNote_isSome_iff s.notes n).mpr hn
    simp only [protectNoteRecursively, hnote, protectNote_tree, hst]
    have inner : ∀ (cs : List String), (∀ ch ∈ cs, ch ∈ selectChildNoteIds t n) →
        ∀ s1 : Store, s1.tree = t → s1.notes.map (fun r => r.note_id) = ids →
        ∃ s', forEachNote (protectNoteRecursively c dataKey protect sourceId f) cs s1
          = some (.ok s') := by
      intro cs
      induction cs with
      | nil => intro _ s1 _ _; exact ⟨s1, rfl⟩
      | cons ch cs ihcs =>
        intro hsub s1 h1 h2
        obtain ⟨s2, hs2⟩ := hF ch (hsub ch (List.mem_cons_self _ _)) f hf s1 h1 h2
        obtain ⟨p1, p2, _⟩ := protectNoteRecursively_preserves c dataKey protect sourceId
          f s1 ch s2 hs2
        obtain ⟨s3, hs3⟩ := ihcs (fun x hx => hsub x (List.mem_cons_of_mem _ hx)) s2
          (by rw [p1, h1]) (by rw [p2, h2])
        exact ⟨s3, by simp only [forEachNote, hs2]; exact hs3⟩
    exact inner _ (fun _ h => h) _ (by rw [protectNote_tree]; exact hst)
      (by rw [protectNote_note_ids]; exact hsi)

end Rec

section RecProps
variable (c : Crypto) (dataKey : String) (protect : Bool) (sourceId : Option String)

theorem protectNote_history_eq (s : Store) (note : NoteRow) :
    (protectNote c s note dataKey protect sourceId).history
      = (protectNoteHistory c s note.note_id dataKey protect sourceId).history := by
  rw [protectNote_history, protectNoteHistory_history]

/-- The `protectNote` of note `n` leaves the row fetched for `n` and all snapshots of `n` with
the target flag. -/
theorem protectNote_establishes (s : Store) (n : String) (note : NoteRow)
    (hnote : selectNote s.notes n = some note) :
    (∀ row, selectNote (protectNote c s note dataKey protect sourceId).notes n = some row →
      row.is_protected = protect) ∧
    (∀ h ∈ (protectNote c s note dataKey protect sourceId).history,
      h.note_id = n → h.is_protected = protect) := by
  have hid := selectNote_note_id hnote
  constructor
  · intro row hrow
    rw [protectNote_notes] at hrow
    split at hrow
    · rw [hnote] at hrow
      simp only [Option.some.injEq] at hrow
      subst hrow; assumption
    · rw [selectNote_map _ _ _ (noteRowUpd_note_id c dataKey protect note), hnote] at hrow
      simp only [Option.map_some', Option.some.injEq] at hrow
      subst hrow
      exact noteRowUpd_protected_of_eq c dataKey protect rfl
  · intro h hh hn
    rw [protectNote_history_eq] at hh
    exact protectNoteHistory_aligned c dataKey protect sourceId s note.note_id h hh
      (by rw [hn, hid])

/-- The `protectNote` of any note keeps the target flag where it already is. -/
theorem protectNote_keeps (s : Store) (note : NoteRow) (m : String)
    (hg : (∀ row, selectNote s.notes m = some row → row.is_protected = protect) ∧
      (∀ h ∈ s.history, h.note_id = m → h.is_protected = protect)) :
    (∀ row, selectNote (protectNote c s note dataKey protect sourceId).notes m = some row →
      row.is_protected = protect) ∧
    (∀ h ∈ (protectNote c s note dataKey protect sourceId).history,
      h.note_id = m → h.is_protected = protect) := by
  constructor
  · intro row hrow
    rw [protectNote_notes] at hrow
    split at hrow
    · exact hg.1 row hrow
    · rw [selectNote_map _ _ _ (noteRowUpd_note_id c dataKey protect note)] at hrow
      cases hs : selectNote s.notes m with
      | none => rw [hs] at hrow; simp at hrow
      | some row0 =>
        rw [hs] at hrow
        simp only [Option.map_some', Option.some.injEq] at hrow
        subst hrow
        exact noteRowUpd_protected_stable c dataKey protect (hg.1 row0 hs)
  · intro h hh hn
    rw [protectNote_history_eq] at hh
    exact protectNoteHistory_keeps_flag c dataKey protect sourceId s note.note_id m hg.2 h hh hn

/-- After a completed run, the row fetched for every reachable note and all snapshots of
every reachable note carry the target flag. -/
theorem protectNoteRecursively_flags (fuel : Nat) (s : Store) (n : String) (s' : Store)
    (h : protectNoteRecursively c dataKey protect sourceId fuel s n = some (.ok s')) :
    ∀ m, Reach s.tree n m →
      (∀ row, selectNote s'.notes m = some row → row.is_protected = protect) ∧
      (∀ h ∈ s'.history, h.note_id = m → h.is_protected = protect) := by
  have := protectNoteRecursively_induct c dataKey protect sourceId s.tree n
    (fun x => x.tree = s.tree)
    (fun m x => (∀ row, selectNote x.notes m = some row → row.is_protected = protect) ∧
      (∀ h ∈ x.history, h.note_id = m → h.is_protected = protect))
    (fun _ hx => hx)
    (fun x m note hx _ hnote => ⟨(protectNote_tree c dataKey protect sourceId x note).trans hx,
      protectNote_establishes c dataKey protect sourceId x m note hnote,
      fun m' hg => protectNote_keeps c dataKey protect sourceId x note m' hg⟩)
    fuel s n s' Relation.ReflTransGen.refl rfl h
  exact this.2.1

theorem forall₂_map_right_of_mem {α β : Type} {R : α → β → Prop} {f : β → β}
    {l0 : List α} {l : List β} (h : List.Forall₂ R l0 l)
    (hf : ∀ a b, b ∈ l → R a b → R a (f b)) : List.Forall₂ R l0 (l.map f) := by
  induction h with
  | nil => exact List.Forall₂.nil
  | cons hab _ ih =>
    exact List.Forall₂.cons (hf _ _ (List.mem_cons_self _ _) hab)
      (ih (fun a b hb => hf a b (List.mem_cons_of_mem _ hb)))

theorem forall₂_getElem? {α β : Type} {R : α → β → Prop} {l0 : List α} {l : List β}
    (h : List.Forall₂ R l0 l) (i : Nat) (a : α) (ha : l0[i]? = some a) :
    ∃ b, l[i]? = some b ∧ R a b := by
  induction h generalizing i with
  | nil => simp at ha
  | cons hab _ ih =>
    cases i with
    | zero =>
      simp only [List.getElem?_cons_zero, Option.some.injEq] at ha
      subst ha
      exact ⟨_, by simp, hab⟩
    | succ j =>
      simp only [List.getElem?_cons_succ] at ha ⊢
      exact ih j ha

theorem forall₂_refl' {α : Type} {R : α → α → Prop} (hR : ∀ a, R a a) (l : List α) :
    List.Forall₂ R l l := by
  induction l with
  | nil => exact List.Forall₂.nil
  | cons a l ih => exact List.Forall₂.cons (hR a) ih

/-- A completed run leaves every note row in place with its identifier, and leaves the rows
of the notes that are not reachable from the start as they were. -/
theorem protectNoteRecursively_frame (fuel : Nat) (s : Store) (n : String) (s' : Store)
    (h : protectNoteRecursively c dataKey protect sourceId fuel s n = some (.ok s')) :
    List.Forall₂ (fun r0 r => r.note_id = r0.note_id ∧ (¬ Reach s.tree n r0.note_id → r = r0))
      s.notes s'.notes := by
  have := protectNoteRecursively_induct c dataKey protect sourceId s.tree n
    (fun x => x.tree = s.tree ∧
      List.Forall₂ (fun r0 r => r.note_id = r0.note_id ∧
        (¬ Reach s.tree n r0.note_id → r = r0)) s.notes x.notes)
    (fun _ _ => True) (fun _ hx => hx.1)
    (fun x m note hx hreach hnote => ⟨⟨by rw [protectNote_tree]; exact hx.1, by
      rw [protectNote_notes]
      split
      · exact hx.2
      · apply forall₂_map_right_of_mem hx.2
        intro r0 r _ hr
        refine ⟨by rw [noteRowUpd_note_id]; exact hr.1, fun hnr => ?_⟩
        have hrr := hr.2 hnr
        subst hrr
        apply noteRowUpd_of_ne
        intro e
        rw [selectNote_note_id hnote] at e
        exact hnr (e ▸ hreach)⟩, trivial, fun _ _ => trivial⟩)
    fuel s n s' Relation.ReflTransGen.refl
    ⟨rfl, forall₂_refl' (fun a => ⟨rfl, fun _ => rfl⟩) _⟩ h
  exact this.1.2

/-- When every reachable note and its snapshots already carry the target flag, a completed
run returns the store it started from. -/
theorem protectNoteRecursively_noop (fuel : Nat) (s : Store) (n : String) (s' : Store)
    (hg : ∀ m, Reach s.tree n m →
      (∀ row, selectNote s.notes m = some row → row.is_protected = protect) ∧
      (∀ h ∈ s.history, h.note_id = m → h.is_protected = protect))
    (h : protectNoteRecursively c dataKey protect sourceId fuel s n = some (.ok s')) :
    s' = s := by
  induction fuel generalizing n s' with
  | zero => simp [protectNoteRecursively] at h
  | succ fuel ih =>
    obtain ⟨note, hnote, hloop⟩ := protectNoteRecursively_succ_ok c dataKey protect sourceId h
    have hgn := hg n Relation.ReflTransGen.refl
    have hnoop : protectNote c s note dataKey protect sourceId = s :=
      protectNote_noop c dataKey protect sourceId s note (hgn.1 note hnote)
        (by rw [selectNote_note_id hnote]; exact hgn.2)
    rw [hnoop] at hloop
    have inner : ∀ (cs : List String), (∀ ch ∈ cs, ch ∈ selectChildNoteIds s.tree n) →
        forEachNote (protectNoteRecursively c dataKey protect sourceId fuel) cs s
          = some (.ok s') → s' = s := by
      intro cs
      induction cs with
      | nil =>
        intro _ hf
        simp only [forEachNote, Option.some.injEq, Except.ok.injEq] at hf
        exact hf.symm
      | cons ch cs ihcs =>
        intro hsub hf
        obtain ⟨s2, hb, hrest⟩ := forEachNote_cons_ok hf
        have hs2 : s2 = s := ih ch s2 (fun m hm => hg m (Relation.ReflTransGen.head
          (mem_selectChildNoteIds.mp (hsub ch (List.mem_cons_self _ _))) hm)) hb
        rw [hs2] at hrest
        exact ihcs (fun x hx => hsub x (List.mem_cons_of_mem _ hx)) hrest
    exact inner _ (fun _ hx => hx) hloop

end RecProps

/-! ## Protection toggle: alignment, reach, idempotence -/

theorem exStoreTree_acyclic : Acyclic exStoreTree.tree :=
  acyclic_of_rank exStoreTree.tree exRank (by decide)

theorem exStoreTree_reach (m : String) (h : Reach exStoreTree.tree "A" m) :
    m = "A" ∨ m = "B" := by
  rcases (reach_iff _ _ _).mp h with rfl | ⟨ch, hch, hr⟩
  · exact Or.inl rfl
  · have hc : selectChildNoteIds exStoreTree.tree "A" = ["B"] := by decide
    rw [hc] at hch
    simp only [List.mem_singleton] at hch
    subst hch
    rcases (reach_iff _ _ _).mp hr with rfl | ⟨ch, hch, _⟩
    · exact Or.inr rfl
    · have hc' : selectChildNoteIds exStoreTree.tree "B" = [] := by decide
      rw [hc'] at hch
      simp at hch

theorem exStoreTree_rows (m : String) (h : Reach exStoreTree.tree "A" m) :
    ∃ r ∈ exStoreTree.notes, r.note_id = m := by
  rcases exStoreTree_reach m h with rfl | rfl
  · exact ⟨⟨"A", "title a", "text a", 0, 100, false, false⟩, by decide, rfl⟩
  · exact ⟨⟨"B", "title b", "text b", 0, 100, false, false⟩, by decide, rfl⟩

section Claims
variable (c : Crypto) (dataKey : String) (protect : Bool) (sourceId : Option String)

/-- The recursion completes on an acyclic store in which every reachable note has a row. -/
theorem protectNoteRecursively_terminates (s : Store) (noteId : String)
    (hac : Acyclic s.tree)
    (hrows : ∀ m, Reach s.tree noteId m → ∃ r ∈ s.notes, r.note_id = m) :
    ∃ fuel0, ∀ fuel, fuel0 ≤ fuel → ∀ s1 : Store, s1.tree = s.tree →
      s1.notes.map (fun r => r.note_id) = s.notes.map (fun r => r.note_id) →
      ∃ s', protectNoteRecursively c dataKey protect sourceId fuel s1 noteId = some (.ok s') :=
  protectNoteRecursively_completes c dataKey protect sourceId s.tree
    (s.notes.map (fun r => r.note_id)) hac noteId
    (fun m hm => by
      obtain ⟨r, hr, hid⟩ := hrows m hm
      exact List.mem_map.mpr ⟨r, hr, hid⟩)

/-- C4: (1) after a completed `updateNote`, every snapshot of the note has the `is_protected`
of every row of the note, which is the incoming flag; (2) after any completed
`protectNoteRecursively`, for every note reachable from the start (these are the visited
notes) every snapshot has the `is_protected` of the row fetched for that note; (3) on an
acyclic store in which the reachable notes have rows, the recursion does complete for all
large enough fuel. -/
theorem history_aligned_after_update_and_protect :
    (∀ (c : Crypto) (newNoteHistoryId : String) (now interval : Int) (noteId : String)
        (newNote : NoteDetail) (dataKey : String) (sourceId : Option String) (s : Store),
      (updateNote c newNoteHistoryId now interval noteId newNote dataKey sourceId s).2 = .ok () →
      ∀ n ∈ (updateNote c newNoteHistoryId now interval noteId newNote dataKey sourceId
          s).1.notes,
        n.note_id = noteId →
        ∀ h ∈ (updateNote c newNoteHistoryId now interval noteId newNote dataKey sourceId
            s).1.history,
          h.note_id = noteId → h.is_protected = n.is_protected) ∧
    (∀ (c : Crypto) (dataKey : String) (protect : Bool) (sourceId : Option String)
        (fuel : Nat) (s : Store) (noteId : String) (s' : Store),
      protectNoteRecursively c dataKey protect sourceId fuel s noteId = some (.ok s') →
      ∀ m, Reach s.tree noteId m →
        ∃ row, selectNote s'.notes m = some row ∧
          ∀ h ∈ s'.history, h.note_id = m → h.is_protected = row.is_protected) ∧
    (∀ (c : Crypto) (dataKey : String) (protect : Bool) (sourceId : Option String)
        (s : Store) (noteId : String),
      Acyclic s.tree → (∀ m, Reach s.tree noteId m → ∃ r ∈ s.notes, r.note_id = m) →
      ∃ fuel0, ∀ fuel, fuel0 ≤ fuel →
        ∃ s', protectNoteRecursively c dataKey protect sourceId fuel s noteId
          = some (.ok s')) := by
  refine ⟨?_, ?_, ?_⟩
  · intro c newNoteHistoryId now interval noteId newNote dataKey sourceId s hok n hn hid h hh hhid
    exact (updateNote_history_aligned c newNoteHistoryId now interval noteId newNote dataKey
      sourceId s hok n hn hid).2 h hh hhid
  · intro c dataKey protect sourceId fuel s noteId s' hrun m hm
    have hflags := protectNoteRecursively_flags c dataKey protect sourceId fuel s noteId s'
      hrun m hm
    -- the note was visited, so it has a row
    have hrow : ∃ row, selectNote s'.notes m = some row := by
      have hvis := protectNoteRecursively_induct c dataKey protect sourceId s.tree noteId
        (fun x => x.tree = s.tree ∧
          x.notes.map (fun r => r.note_id) = s.notes.map (fun r => r.note_id))
        (fun (m : String) (_ : Store) => m ∈ s.notes.map (fun r : NoteRow => r.note_id))
        (fun _ hx => hx.1)
        (fun x m note hx _ hnote => ⟨⟨(protectNote_tree c dataKey protect sourceId x note).trans
            hx.1, (protectNote_note_ids c dataKey protect sourceId x note).trans hx.2⟩,
          by
            show m ∈ s.notes.map (fun r => r.note_id)
            rw [← hx.2]
            exact (selectNote_isSome_iff x.notes m).mp ⟨note, hnote⟩,
          fun _ hm' => hm'⟩)
        fuel s noteId s' Relation.ReflTransGen.refl ⟨rfl, rfl⟩ hrun
      have hmem : m ∈ s.notes.map (fun r => r.note_id) := hvis.2.1 m hm
      rw [← hvis.1.2] at hmem
      exact (selectNote_isSome_iff s'.notes m).mpr hmem
    obtain ⟨row, hrow⟩ := hrow
    refine ⟨row, hrow, fun h hh hhid => ?_⟩
    rw [hflags.1 row hrow]
    exact hflags.2 h hh hhid
  · intro c dataKey protect sourceId s noteId hac hrows
    obtain ⟨fuel0, hf⟩ := protectNoteRecursively_terminates c dataKey protect sourceId s noteId
      hac hrows
    exact ⟨fuel0, fun fuel hfuel => hf fuel hfuel s rfl rfl⟩

end Claims

/-- Witness for C4: the protected update of note A, and the protection of the subtree of A. -/
theorem history_aligned_after_update_and_protect_witness :
    (exUpdateProtected.2 = .ok () ∧
      ∀ n ∈ exUpdateProtected.1.notes, n.note_id = "A" →
        ∀ h ∈ exUpdateProtected.1.history, h.note_id = "A" →
          h.is_protected = n.is_protected) ∧
    (exProtectRun = some (.ok (resultStore exProtectRun exStoreTree)) ∧
      ∀ m, Reach exStoreTree.tree "A" m →
        ∃ row, selectNote (resultStore exProtectRun exStoreTree).notes m = some row ∧
          ∀ h ∈ (resultStore exProtectRun exStoreTree).history,
            h.note_id = m → h.is_protected = row.is_protected) ∧
    (Acyclic exStoreTree.tree ∧
      (∀ m, Reach exStoreTree.tree "A" m → ∃ r ∈ exStoreTree.notes, r.note_id = m) ∧
      ∃ fuel0, ∀ fuel, fuel0 ≤ fuel →
        ∃ s', protectNoteRecursively exCrypto "k" true (some "src") fuel exStoreTree "A"
          = some (.ok s')) :=
  ⟨⟨rfl, history_aligned_after_update_and_protect.1 exCrypto "h1" 10000 5 "A"
      ⟨"A", "t2", "x2", true, 0⟩ "k" (some "src") exStoreAH rfl⟩,
    ⟨rfl, history_aligned_after_update_and_protect.2.1 exCrypto "k" true (some "src") 3
      exStoreTree "A" (resultStore exProtectRun exStoreTree) rfl⟩,
    ⟨exStoreTree_acyclic, exStoreTree_rows,
      history_aligned_after_update_and_protect.2.2 exCrypto "k" true (some "src") exStoreTree "A"
        exStoreTree_acyclic exStoreTree_rows⟩⟩

section Claims2
variable (c : Crypto) (dataKey : String) (protect : Bool) (sourceId : Option String)

/-- C5: on a store whose placement graph is acyclic and in which every note reachable from
`noteId` has a row, `protectNoteRecursively` completes for every large enough fuel; afterwards
the row fetched for every reachable note (and, when note identifiers are unique, every row of
a reachable note) has `is_protected = protect`, the placements are unchanged, and every note
row whose identifier is not reachable is unchanged and in its place. -/
theorem protectNoteRecursively_protects_reachable (s : Store) (noteId : String)
    (hac : Acyclic s.tree)
    (hrows : ∀ m, Reach s.tree noteId m → ∃ r ∈ s.notes, r.note_id = m) :
    ∃ fuel0, ∀ fuel, fuel0 ≤ fuel →
      ∃ s', protectNoteRecursively c dataKey protect sourceId fuel s noteId = some (.ok s') ∧
        s'.tree = s.tree ∧
        (∀ m, Reach s.tree noteId m →
          ∃ row, selectNote s'.notes m = some row ∧ row.is_protected = protect) ∧
        ((s.notes.map (fun r => r.note_id)).Nodup →
          ∀ row ∈ s'.notes, Reach s.tree noteId row.note_id → row.is_protected = protect) ∧
        s'.notes.length = s.notes.length ∧
        (∀ (i : Nat) (r0 : NoteRow), s.notes[i]? = some r0 →
          ¬ Reach s.tree noteId r0.note_id → s'.notes[i]? = some r0) := by
  obtain ⟨fuel0, hf⟩ := protectNoteRecursively_terminates c dataKey protect sourceId s noteId
    hac hrows
  refine ⟨fuel0, fun fuel hfuel => ?_⟩
  obtain ⟨s', hrun⟩ := hf fuel hfuel s rfl rfl
  obtain ⟨htree, hids, _⟩ := protectNoteRecursively_preserves c dataKey protect sourceId
    fuel s noteId s' hrun
  have hflags := protectNoteRecursively_flags c dataKey protect sourceId fuel s noteId s' hrun
  have hframe := protectNoteRecursively_frame c dataKey protect sourceId fuel s noteId s' hrun
  refine ⟨s', hrun, htree, ?_, ?_, ?_, ?_⟩
  · intro m hm
    obtain ⟨r, hr, hid⟩ := hrows m hm
    have hmem : m ∈ s'.notes.map (fun r => r.note_id) := by
      rw [hids]; exact List.mem_map.mpr ⟨r, hr, hid⟩
    obtain ⟨row, hrow⟩ := (selectNote_isSome_iff s'.notes m).mpr hmem
    exact ⟨row, hrow, (hflags m hm).1 row hrow⟩
  · intro hnd row hrow hreach
    rw [← hids] at hnd
    exact (hflags row.note_id hreach).1 row (selectNote_of_nodup s'.notes hnd row hrow)
  · exact hframe.length_eq.symm
  · intro i r0 hi hnr
    obtain ⟨r, hr, hrel⟩ := forall₂_getElem? hframe i r0 hi
    rw [hr, hrel.2 hnr]

/-- C6: on an acyclic store in which every reachable note has a row, protecting the subtree
of `noteId` twice in a row completes both times, and the second call returns the very store
the first one produced: same notes, same history, no row written and no change-log entry
recorded. -/
theorem protectNoteRecursively_twice (s : Store) (noteId : String)
    (source1 source2 : Option String)
    (hac : Acyclic s.tree)
    (hrows : ∀ m, Reach s.tree noteId m → ∃ r ∈ s.notes, r.note_id = m) :
    ∃ fuel0, ∀ fuel, fuel0 ≤ fuel →
      ∃ s1 s2,
        protectNoteRecursively c dataKey true source1 fuel s noteId = some (.ok s1) ∧
        protectNoteRecursively c dataKey true source2 fuel s1 noteId = some (.ok s2) ∧
        s2.notes = s1.notes ∧ s2.history = s1.history ∧ s2.tree = s1.tree ∧
        s2.writes = s1.writes ∧ s2.sync = s1.sync := by
  obtain ⟨f1, hf1⟩ := protectNoteRecursively_terminates c dataKey true source1 s noteId
    hac hrows
  obtain ⟨f2, hf2⟩ := protectNoteRecursively_terminates c dataKey true source2 s noteId
    hac hrows
  refine ⟨max f1 f2, fun fuel hfuel => ?_⟩
  obtain ⟨s1, hrun1⟩ := hf1 fuel (le_trans (le_max_left _ _) hfuel) s rfl rfl
  obtain ⟨htree, hids, _⟩ := protectNoteRecursively_preserves c dataKey true source1
    fuel s noteId s1 hrun1
  obtain ⟨s2, hrun2⟩ := hf2 fuel (le_trans (le_max_right _ _) hfuel) s1 htree hids
  have hflags := protectNoteRecursively_flags c dataKey true source1 fuel s noteId s1 hrun1
  have hs2 : s2 = s1 := protectNoteRecursively_noop c dataKey true source2 fuel s1 noteId s2
    (fun m hm => hflags m (htree ▸ hm)) hrun2
  subst hs2
  exact ⟨s2, s2, hrun1, hrun2, rfl, rfl, rfl, rfl, rfl⟩

/-- Witness for C5 -/
theorem protectNoteRecursively_protects_reachable_witness :
    (Acyclic exStoreTree.tree ∧
      ∀ m, Reach exStoreTree.tree "A" m → ∃ r ∈ exStoreTree.notes, r.note_id = m) ∧
    ∃ fuel0, ∀ fuel, fuel0 ≤ fuel →
      ∃ s', protectNoteRecursively exCrypto "k" true (some "src") fuel exStoreTree "A"
          = some (.ok s') ∧
        s'.tree = exStoreTree.tree ∧
        (∀ m, Reach exStoreTree.tree "A" m →
          ∃ row, selectNote s'.notes m = some row ∧ row.is_protected = true) ∧
        ((exStoreTree.notes.map (fun r => r.note_id)).Nodup →
          ∀ row ∈ s'.notes, Reach exStoreTree.tree "A" row.note_id →
            row.is_protected = true) ∧
        s'.notes.length = exStoreTree.notes.length ∧
        (∀ (i : Nat) (r0 : NoteRow), exStoreTree.notes[i]? = some r0 →
          ¬ Reach exStoreTree.tree "A" r0.note_id → s'.notes[i]? = some r0) :=
  ⟨⟨exStoreTree_acyclic, exStoreTree_rows⟩,
    protectNoteRecursively_protects_reachable exCrypto "k" true (some "src") exStoreTree "A"
      exStoreTree_acyclic exStoreTree_rows⟩

/-- Witness for C6 -/
theorem protectNoteRecursively_twice_witness :
    (Acyclic exStoreTree.tree ∧
      ∀ m, Reach exStoreTree.tree "A" m → ∃ r ∈ exStoreTree.notes, r.note_id = m) ∧
    ∃ fuel0, ∀ fuel, fuel0 ≤ fuel →
      ∃ s1 s2,
        protectNoteRecursively exCrypto "k" true (some "src") fuel exStoreTree "A"
          = some (.ok s1) ∧
        protectNoteRecursively exCrypto "k" true (some "src") fuel s1 "A" = some (.ok s2) ∧
        s2.notes = s1.notes ∧ s2.history = s1.history ∧ s2.tree = s1.tree ∧
        s2.writes = s1.writes ∧ s2.sync = s1.sync :=
  ⟨⟨exStoreTree_acyclic, exStoreTree_rows⟩,
    protectNoteRecursively_twice exCrypto "k" exStoreTree "A" (some "src") (some "src")
      exStoreTree_acyclic exStoreTree_rows⟩

end Claims2

/-! ## Protection toggle: exact effect with unique identifiers, round trip -/

section Exact
variable (c : Crypto) (dataKey : String) (protect : Bool) (sourceId : Option String)

theorem eq_of_nodup_map {α β : Type} {f : α → β} {l : List α} (hnd : (l.map f).Nodup)
    {a b : α} (ha : a ∈ l) (hb : b ∈ l) (hf : f a = f b) : a = b :=
  List.inj_on_of_nodup_map hnd ha hb hf

/-- With unique note and history identifiers, a completed run leaves each note row and each
snapshot either as it was or, when its flag differed from the target, encrypted / decrypted
in place; snapshots of notes that are not reachable are left as they were. -/
theorem protectNoteRecursively_exact (fuel : Nat) (s : Store) (n : String) (s' : Store)
    (hndn : (s.notes.map (fun r => r.note_id)).Nodup)
    (hndh : (s.history.map (fun r => r.note_history_id)).Nodup)
    (h : protectNoteRecursively c dataKey protect sourceId fuel s n = some (.ok s')) :
    List.Forall₂ (fun r0 r => r = r0 ∨
        (r0.is_protected ≠ protect ∧ r = (protectNoteRow c r0 dataKey protect).1))
      s.notes s'.notes ∧
    List.Forall₂ (fun h0 h => (h = h0 ∨
        (h0.is_protected ≠ protect ∧ h = protectHistoryRow c dataKey protect h0)) ∧
        (¬ Reach s.tree n h0.note_id → h = h0))
      s.history s'.history := by
  have := protectNoteRecursively_induct c dataKey protect sourceId s.tree n
    (fun (x : Store) => x.tree = s.tree ∧
      x.notes.map (fun r : NoteRow => r.note_id) = s.notes.map (fun r : NoteRow => r.note_id) ∧
      x.history.map (fun r : HistoryRow => r.note_history_id)
        = s.history.map (fun r : HistoryRow => r.note_history_id) ∧
      List.Forall₂ (fun (r0 r : NoteRow) => r = r0 ∨
          (r0.is_protected ≠ protect ∧ r = (protectNoteRow c r0 dataKey protect).1))
        s.notes x.notes ∧
      List.Forall₂ (fun (h0 h : HistoryRow) => (h = h0 ∨
          (h0.is_protected ≠ protect ∧ h = protectHistoryRow c dataKey protect h0)) ∧
          (¬ Reach s.tree n h0.note_id → h = h0))
        s.history x.history)
    (fun _ _ => True) (fun _ hx => hx.1)
    (fun x m note hx hreach hnote => ⟨⟨(protectNote_tree c dataKey protect sourceId x note).trans
        hx.1, (protectNote_note_ids c dataKey protect sourceId x note).trans hx.2.1,
        (protectNote_history_ids c dataKey protect sourceId x note).trans hx.2.2.1, by
      -- notes
      rw [protectNote_notes]
      split
      · exact hx.2.2.2.1
      · rename_i hne
        apply forall₂_map_right_of_mem hx.2.2.2.1
        intro r0 r hr hrel
        by_cases hid : r.note_id = note.note_id
        · have hrn : r = note := by
            have h1 := selectNote_of_nodup x.notes (by rw [hx.2.1]; exact hndn) r hr
            rw [hid, selectNote_note_id hnote, hnote] at h1
            exact (Option.some.inj h1).symm
          subst hrn
          rw [noteRowUpd_self]
          rcases hrel with rfl | ⟨_, hr2⟩
          · exact Or.inr ⟨hne, rfl⟩
          · exfalso
            apply hne
            rw [hr2]
            exact protectNoteRow_is_protected c dataKey protect r0
        · rw [noteRowUpd_of_ne c dataKey protect hid]
          exact hrel, by
      -- history
      rw [protectNote_history]
      apply forall₂_map_right_of_mem hx.2.2.2.2
      intro h0 hr hmem hrel
      have hndx : (x.history.map (fun r => r.note_history_id)).Nodup := by
        rw [hx.2.2.1]; exact hndh
      by_cases hin : hr ∈ selectHistoryToChange x.history note.note_id protect
      · obtain ⟨_, hnid, hflag⟩ := mem_selectHistoryToChange.mp hin
        have huniq : ∀ y ∈ selectHistoryToChange x.history note.note_id protect,
            y.note_history_id = hr.note_history_id → y = hr := fun y hy he =>
          eq_of_nodup_map hndx (mem_selectHistoryToChange.mp hy).1 hmem he
        rw [(rowFold_of_unique c dataKey protect _ hr huniq).1 hin]
        have h0eq : hr = h0 := by
          rcases hrel.1 with e | ⟨_, e⟩
          · exact e
          · exfalso
            apply hflag
            rw [e]
            exact protectHistoryRow_is_protected c dataKey protect h0
        subst h0eq
        refine ⟨Or.inr ⟨hflag, rfl⟩, fun hnr => ?_⟩
        exfalso
        apply hnr
        rw [hnid, selectNote_note_id hnote]
        exact hreach
      · have hno : ∀ y ∈ selectHistoryToChange x.history note.note_id protect,
            hr.note_history_id ≠ y.note_history_id := by
          intro y hy he
          have : y = hr := eq_of_nodup_map hndx (mem_selectHistoryToChange.mp hy).1 hmem
            he.symm
          exact hin (this ▸ hy)
        rw [rowFold_of_no_match c dataKey protect _ hr hno]
        exact hrel⟩, trivial, fun _ _ => trivial⟩)
    fuel s n s' Relation.ReflTransGen.refl
    ⟨rfl, rfl, rfl, by apply forall₂_refl'; intro a; exact Or.inl rfl,
      by apply forall₂_refl'; intro a; exact ⟨Or.inl rfl, fun _ => rfl⟩⟩ h
  exact ⟨this.1.2.2.2.1, this.1.2.2.2.2⟩

theorem protectNoteRow_roundtrip (r0 : NoteRow)
    (hround : ∀ k iv x, c.decryptString k iv (c.encrypt k iv x) = x)
    (h0 : r0.is_protected = false) :
    (protectNoteRow c (protectNoteRow c r0 dataKey true).1 dataKey false).1 = r0 := by
  obtain ⟨i, ti, tx, dc, dm, ip, dl⟩ := r0
  simp only at h0
  subst h0
  simp [protectNoteRow, encryptNoteRow, decryptNote, hround]

theorem protectHistoryRow_roundtrip (h0 : HistoryRow)
    (hround : ∀ k iv x, c.decryptString k iv (c.encrypt k iv x) = x)
    (hp : h0.is_protected = false) :
    protectHistoryRow c dataKey false (protectHistoryRow c dataKey true h0) = h0 := by
  obtain ⟨i, n, ti, tx, ip, df, dt⟩ := h0
  simp only at hp
  subst hp
  simp [protectHistoryRow, hround]

end Exact

section RoundTrip
variable (c : Crypto) (dataKey : String)

/-- C7: assume decrypt (encrypt x) = x, an acyclic store with unique note and history
identifiers in which every note reachable from `noteId` has a row, and in which the reachable
notes and all their snapshots are unprotected.  Then protecting the subtree of `noteId` and
unprotecting it again completes both times and restores the notes table and the history
table exactly (every column of every row), the placements being untouched. -/
theorem protect_then_unprotect_restores (s : Store) (noteId : String)
    (source1 source2 : Option String)
    (hround : ∀ k iv x, c.decryptString k iv (c.encrypt k iv x) = x)
    (hac : Acyclic s.tree)
    (hrows : ∀ m, Reach s.tree noteId m → ∃ r ∈ s.notes, r.note_id = m)
    (hndn : (s.notes.map (fun r => r.note_id)).Nodup)
    (hndh : (s.history.map (fun r => r.note_history_id)).Nodup)
    (hnotes : ∀ r ∈ s.notes, Reach s.tree noteId r.note_id → r.is_protected = false)
    (hhist : ∀ h ∈ s.history, Reach s.tree noteId h.note_id → h.is_protected = false) :
    ∃ fuel0, ∀ fuel, fuel0 ≤ fuel →
      ∃ s1 s2,
        protectNoteRecursively c dataKey true source1 fuel s noteId = some (.ok s1) ∧
        protectNoteRecursively c dataKey false source2 fuel s1 noteId = some (.ok s2) ∧
        s2.notes = s.notes ∧ s2.history = s.history ∧ s2.tree = s.tree := by
  obtain ⟨f1, hf1⟩ := protectNoteRecursively_terminates c dataKey true source1 s noteId
    hac hrows
  obtain ⟨f2, hf2⟩ := protectNoteRecursively_terminates c dataKey false source2 s noteId
    hac hrows
  refine ⟨max f1 f2, fun fuel hfuel => ?_⟩
  obtain ⟨s1, hrun1⟩ := hf1 fuel (le_trans (le_max_left _ _) hfuel) s rfl rfl
  obtain ⟨htree1, hids1, hhids1⟩ := protectNoteRecursively_preserves c dataKey true source1
    fuel s noteId s1 hrun1
  obtain ⟨s2, hrun2⟩ := hf2 fuel (le_trans (le_max_right _ _) hfuel) s1 htree1 hids1
  obtain ⟨htree2, hids2, hhids2⟩ := protectNoteRecursively_preserves c dataKey false source2
    fuel s1 noteId s2 hrun2
  have hndn1 : (s1.notes.map (fun r => r.note_id)).Nodup := by rw [hids1]; exact hndn
  have hndh1 : (s1.history.map (fun r => r.note_history_id)).Nodup := by
    rw [hhids1]; exact hndh
  have hndn2 : (s2.notes.map (fun r => r.note_id)).Nodup := by rw [hids2]; exact hndn1
  have hflags1 := protectNoteRecursively_flags c dataKey true source1 fuel s noteId s1 hrun1
  have hflags2 := protectNoteRecursively_flags c dataKey false source2 fuel s1 noteId s2 hrun2
  have hframe1 := protectNoteRecursively_frame c dataKey true source1 fuel s noteId s1 hrun1
  have hframe2 := protectNoteRecursively_frame c dataKey false source2 fuel s1 noteId s2 hrun2
  obtain ⟨hex1n, hex1h⟩ := protectNoteRecursively_exact c dataKey true source1 fuel s noteId s1
    hndn hndh hrun1
  obtain ⟨hex2n, hex2h⟩ := protectNoteRecursively_exact c dataKey false source2 fuel s1 noteId
    s2 hndn1 hndh1 hrun2
  rw [htree1] at hflags2 hframe2 hex2h
  refine ⟨s1, s2, hrun1, hrun2, ?_, ?_, by rw [htree2, htree1]⟩
  · -- notes
    apply List.ext_getElem?
    intro i
    cases hi : s.notes[i]? with
    | none =>
      have hlen : s2.notes.length = s.notes.length := by
        rw [← hframe2.length_eq, ← hframe1.length_eq]
      rw [List.getElem?_eq_none_iff] at hi ⊢
      omega
    | some r0 =>
      have hr0 : r0 ∈ s.notes := List.getElem?_mem hi
      obtain ⟨r1, hi1, hfr1⟩ := forall₂_getElem? hframe1 i r0 hi
      obtain ⟨r2, hi2, hfr2⟩ := forall₂_getElem? hframe2 i r1 hi1
      obtain ⟨r1', hi1', hx1⟩ := forall₂_getElem? hex1n i r0 hi
      obtain ⟨r2', hi2', hx2⟩ := forall₂_getElem? hex2n i r1 hi1
      rw [hi1] at hi1'
      rw [hi2] at hi2'
      obtain rfl := Option.some.inj hi1'
      obtain rfl := Option.some.inj hi2'
      have hr1 : r1 ∈ s1.notes := List.getElem?_mem hi1
      have hr2 : r2 ∈ s2.notes := List.getElem?_mem hi2
      rw [hi2]
      congr 1
      by_cases hreach : Reach s.tree noteId r0.note_id
      · have hp0 : r0.is_protected = false := hnotes r0 hr0 hreach
        have hp1 : r1.is_protected = true :=
          (hflags1 r1.note_id (hfr1.1 ▸ hreach)).1 r1 (selectNote_of_nodup s1.notes hndn1 r1 hr1)
        have hp2 : r2.is_protected = false :=
          (hflags2 r2.note_id (hfr2.1 ▸ hfr1.1 ▸ hreach)).1 r2
            (selectNote_of_nodup s2.notes hndn2 r2 hr2)
        have e1 : r1 = (protectNoteRow c r0 dataKey true).1 := by
          rcases hx1 with e | ⟨_, e⟩
          · rw [e, hp0] at hp1; simp at hp1
          · exact e
        have e2 : r2 = (protectNoteRow c r1 dataKey false).1 := by
          rcases hx2 with e | ⟨_, e⟩
          · rw [e, hp1] at hp2; simp at hp2
          · exact e
        rw [e2, e1]
        exact protectNoteRow_roundtrip c dataKey r0 hround hp0
      · have e1 : r1 = r0 := hfr1.2 hreach
        have e2 : r2 = r1 := hfr2.2 (by rw [e1]; exact hreach)
        rw [e2, e1]
  · -- history
    apply List.ext_getElem?
    intro i
    cases hi : s.history[i]? with
    | none =>
      have hlen : s2.history.length = s.history.length := by
        rw [← hex2h.length_eq, ← hex1h.length_eq]
      rw [List.getElem?_eq_none_iff] at hi ⊢
      omega
    | some h0 =>
      have hh0 : h0 ∈ s.history := List.getElem?_mem hi
      obtain ⟨h1, hi1, hx1⟩ := forall₂_getElem? hex1h i h0 hi
      obtain ⟨h2, hi2, hx2⟩ := forall₂_getElem? hex2h i h1 hi1
      have hh1 : h1 ∈ s1.history := List.getElem?_mem hi1
      have hh2 : h2 ∈ s2.history := List.getElem?_mem hi2
      rw [hi2]
      congr 1
      by_cases hreach : Reach s.tree noteId h0.note_id
      · have hp0 : h0.is_protected = false := hhist h0 hh0 hreach
        have hn1 : h1.note_id = h0.note_id := by
          rcases hx1.1 with e | ⟨_, e⟩
          · rw [e]
          · rw [e]; exact protectHistoryRow_note_id c dataKey true h0
        have hn2 : h2.note_id = h1.note_id := by
          rcases hx2.1 with e | ⟨_, e⟩
          · rw [e]
          · rw [e]; exact protectHistoryRow_note_id c dataKey false h1
        have hp1 : h1.is_protected = true :=
          (hflags1 h0.note_id hreach).2 h1 hh1 hn1
        have hp2 : h2.is_protected = false :=
          (hflags2 h0.note_id hreach).2 h2 hh2 (hn2.trans hn1)
        have e1 : h1 = protectHistoryRow c dataKey true h0 := by
          rcases hx1.1 with e | ⟨_, e⟩
          · rw [e, hp0] at hp1; simp at hp1
          · exact e
        have e2 : h2 = protectHistoryRow c dataKey false h1 := by
          rcases hx2.1 with e | ⟨_, e⟩
          · rw [e, hp1] at hp2; simp at hp2
          · exact e
        rw [e2, e1]
        exact protectHistoryRow_roundtrip c dataKey h0 hround hp0
      · have e1 : h1 = h0 := hx1.2 hreach
        have e2 : h2 = h1 := hx2.2 (by rw [e1]; exact hreach)
        rw [e2, e1]

end RoundTrip

/-- Witness for C7 -/
theorem protect_then_unprotect_restores_witness :
    ((∀ k iv x, exCrypto.decryptString k iv (exCrypto.encrypt k iv x) = x) ∧
      Acyclic exStorePlain.tree ∧
      (∀ m, Reach exStorePlain.tree "A" m → ∃ r ∈ exStorePlain.notes, r.note_id = m) ∧
      (exStorePlain.notes.map (fun r => r.note_id)).Nodup ∧
      (exStorePlain.history.map (fun r => r.note_history_id)).Nodup ∧
      (∀ r ∈ exStorePlain.notes, Reach exStorePlain.tree "A" r.note_id →
        r.is_protected = false) ∧
      (∀ h ∈ exStorePlain.history, Reach exStorePlain.tree "A" h.note_id →
        h.is_protected = false)) ∧
    ∃ fuel0, ∀ fuel, fuel0 ≤ fuel →
      ∃ s1 s2,
        protectNoteRecursively exCrypto "k" true (some "src") fuel exStorePlain "A"
          = some (.ok s1) ∧
        protectNoteRecursively exCrypto "k" false (some "src") fuel s1 "A" = some (.ok s2) ∧
        s2.notes = exStorePlain.notes ∧ s2.history = exStorePlain.history ∧
        s2.tree = exStorePlain.tree :=
  ⟨⟨exCrypto_roundtrip, exStoreTree_acyclic, exStoreTree_rows, by decide, by decide,
      fun r hr _ => (by decide : ∀ r ∈ exStorePlain.notes, r.is_protected = false) r hr,
      fun h hh _ => (by decide : ∀ h ∈ exStorePlain.history, h.is_protected = false) h hh⟩,
    protect_then_unprotect_restores exCrypto "k" exStorePlain "A" (some "src") (some "src")
      exCrypto_roundtrip exStoreTree_acyclic exStoreTree_rows (by decide) (by decide)
      (fun r hr _ => (by decide : ∀ r ∈ exStorePlain.notes, r.is_protected = false) r hr)
      (fun h hh _ => (by decide : ∀ h ∈ exStorePlain.history, h.is_protected = false) h hh)⟩

/-! ## `deleteNote` -/

section Delete
variable (clock : Nat → Int) (sourceId : Option String)

theorem deleteNote_succ (fuel : Nat) (s : Store) (p : String) :
    deleteNote clock sourceId (fuel + 1) s p
      = forEachNote (deleteNote clock sourceId fuel) (deleteNoteNext clock sourceId s p)
          (deleteNoteHead clock sourceId s p) := by
  simp only [deleteNote, deleteNoteNext, deleteNoteHead]
  split <;> rfl

@[simp] theorem treeRowDeleted_id (now : Int) (p : String) (r : TreeRow) :
    (treeRowDeleted now p r).note_tree_id = r.note_tree_id := by
  unfold treeRowDeleted; split <;> rfl

@[simp] theorem treeRowDeleted_note_id (now : Int) (p : String) (r : TreeRow) :
    (treeRowDeleted now p r).note_id = r.note_id := by
  unfold treeRowDeleted; split <;> rfl

@[simp] theorem treeRowDeleted_parent (now : Int) (p : String) (r : TreeRow) :
    (treeRowDeleted now p r).parent_note_id = r.parent_note_id := by
  unfold treeRowDeleted; split <;> rfl

@[simp] theorem treeRowDeleted_position (now : Int) (p : String) (r : TreeRow) :
    (treeRowDeleted now p r).note_position = r.note_position := by
  unfold treeRowDeleted; split <;> rfl

theorem treeRowDeleted_of_ne {now : Int} {p : String} {r : TreeRow} (h : r.note_tree_id ≠ p) :
    treeRowDeleted now p r = r := by
  simp [treeRowDeleted, h]

theorem treeRowDeleted_of_eq {now : Int} {p : String} {r : TreeRow} (h : r.note_tree_id = p) :
    treeRowDeleted now p r = { r with is_deleted := true, date_modified := now } := by
  simp [treeRowDeleted, h]

theorem treeRowDeleted_deleted_of_eq {now : Int} {p : String} {r : TreeRow}
    (h : r.note_tree_id = p) : (treeRowDeleted now p r).is_deleted = true := by
  simp [treeRowDeleted, h]

theorem treeRowDeleted_mono {now : Int} {p : String} {r : TreeRow} (h : r.is_deleted = true) :
    (treeRowDeleted now p r).is_deleted = true := by
  unfold treeRowDeleted; split
  · rfl
  · exact h

theorem treeRowDeleted_live {now : Int} {p : String} {r : TreeRow}
    (h : (treeRowDeleted now p r).is_deleted = false) :
    r.is_deleted = false ∧ r.note_tree_id ≠ p ∧ treeRowDeleted now p r = r := by
  unfold treeRowDeleted at h ⊢
  split at h
  · simp at h
  · rename_i hne
    refine ⟨h, by simpa using hne, ?_⟩
    simp [hne]

@[simp] theorem markPlacementDeleted_tree (now : Int) (s : Store) (p : String) :
    (markPlacementDeleted now sourceId s p).tree = s.tree.map (treeRowDeleted now p) := rfl

@[simp] theorem markPlacementDeleted_notes (now : Int) (s : Store) (p : String) :
    (markPlacementDeleted now sourceId s p).notes = s.notes := rfl

@[simp] theorem markPlacementDeleted_history (now : Int) (s : Store) (p : String) :
    (markPlacementDeleted now sourceId s p).history = s.history := rfl

@[simp] theorem markPlacementDeleted_sync (now : Int) (s : Store) (p : String) :
    (markPlacementDeleted now sourceId s p).sync
      = s.sync ++ [⟨SyncKind.noteTree, some p, sourceId⟩] := rfl

@[simp] theorem markNoteDeleted_tree (now : Int) (s : Store) (n : Option String) :
    (markNoteDeleted now sourceId s n).tree = s.tree := by
  cases n <;> rfl

@[simp] theorem markNoteDeleted_history (now : Int) (s : Store) (n : Option String) :
    (markNoteDeleted now sourceId s n).history = s.history := by
  cases n <;> rfl

@[simp] theorem markNoteDeleted_sync (now : Int) (s : Store) (n : Option String) :
    (markNoteDeleted now sourceId s n).sync = s.sync ++ [⟨SyncKind.note, n, sourceId⟩] := by
  cases n <;> rfl

theorem markNoteDeleted_notes_none (now : Int) (s : Store) :
    (markNoteDeleted now sourceId s none).notes = s.notes := rfl

theorem markNoteDeleted_notes_some (now : Int) (s : Store) (n : String) :
    (markNoteDeleted now sourceId s (some n)).notes = s.notes.map (noteRowDeleted now n) := rfl

theorem deleteNoteHead_tree (s : Store) (p : String) :
    (deleteNoteHead clock sourceId s p).tree
      = s.tree.map (treeRowDeleted (clock s.sync.length) p) := by
  unfold deleteNoteHead
  simp only
  split <;> simp

theorem deleteNoteHead_history (s : Store) (p : String) :
    (deleteNoteHead clock sourceId s p).history = s.history := by
  unfold deleteNoteHead
  simp only
  split <;> simp

/-- The children an invocation goes on to delete are identifiers of placements that are not
deleted in the store it has reached. -/
theorem deleteNoteNext_hits (s : Store) (p : String) :
    ∀ ch ∈ deleteNoteNext clock sourceId s p,
      hitsLive (deleteNoteHead clock sourceId s p).tree ch = true := by
  intro ch hch
  unfold deleteNoteNext at hch
  unfold deleteNoteHead
  simp only at hch ⊢
  split at hch
  · rename_i hc
    rw [if_pos hc]
    cases hn : selectNoteIdOfTree (markPlacementDeleted (clock s.sync.length) sourceId s p).tree p
      with
    | none => rw [hn] at hch; simp [selectLiveChildTreeIds] at hch
    | some n =>
      rw [hn] at hch
      simp only [selectLiveChildTreeIds, List.mem_map] at hch
      obtain ⟨r, hr, rfl⟩ := hch
      have hr' := List.mem_filter.mp hr
      simp only [hitsLive, List.any_eq_true]
      refine ⟨r, hr'.1, ?_⟩
      have := hr'.2
      simp only [Bool.and_eq_true, beq_iff_eq, Bool.not_eq_true'] at this ⊢
      exact ⟨trivial, this.2⟩
  · simp at hch

/-! ### The number of non-deleted placements -/

theorem liveCount_map_le (t : List TreeRow) (f : TreeRow → TreeRow)
    (hf : ∀ r, r.is_deleted = true → (f r).is_deleted = true) :
    liveCount (t.map f) ≤ liveCount t := by
  induction t with
  | nil => simp [liveCount]
  | cons r rs ih =>
    simp only [liveCount, List.map_cons, List.filter_cons] at ih ⊢
    cases hr : r.is_deleted with
    | true =>
      simp only [hf r hr, Bool.not_true, Bool.false_eq_true, if_false]
      exact ih
    | false =>
      simp only [Bool.not_false, if_true, List.length_cons]
      split
      · simp only [List.length_cons]; omega
      · omega

theorem liveCount_map_lt (t : List TreeRow) (f : TreeRow → TreeRow)
    (hf : ∀ r, r.is_deleted = true → (f r).is_deleted = true)
    (hex : ∃ r ∈ t, r.is_deleted = false ∧ (f r).is_deleted = true) :
    liveCount (t.map f) < liveCount t := by
  induction t with
  | nil => simp at hex
  | cons r rs ih =>
    have hle := liveCount_map_le rs f hf
    simp only [liveCount, List.map_cons, List.filter_cons] at ih hle ⊢
    obtain ⟨x, hx, hx1, hx2⟩ := hex
    rcases List.mem_cons.mp hx with rfl | hin
    · simp only [hx1, hx2, Bool.not_false, Bool.not_true, if_true, Bool.false_eq_true, if_false,
        List.length_cons]
      omega
    · have ih' := ih ⟨x, hin, hx1, hx2⟩
      cases hr : r.is_deleted with
      | true =>
        simp only [hf r hr, Bool.not_true, Bool.false_eq_true, if_false]
        exact ih'
      | false =>
        simp only [Bool.not_false, if_true, List.length_cons]
        split
        · simp only [List.length_cons]; omega
        · omega

theorem deleteNoteHead_liveCount_le (s : Store) (p : String) :
    liveCount (deleteNoteHead clock sourceId s p).tree ≤ liveCount s.tree := by
  rw [deleteNoteHead_tree]
  exact liveCount_map_le _ _ (fun r hr => treeRowDeleted_mono hr)

theorem deleteNoteHead_liveCount_lt (s : Store) (p : String) (h : hitsLive s.tree p = true) :
    liveCount (deleteNoteHead clock sourceId s p).tree < liveCount s.tree := by
  rw [deleteNoteHead_tree]
  apply liveCount_map_lt _ _ (fun r hr => treeRowDeleted_mono hr)
  simp only [hitsLive, List.any_eq_true, Bool.and_eq_true, beq_iff_eq, Bool.not_eq_true'] at h
  obtain ⟨r, hr, hid, hd⟩ := h
  exact ⟨r, hr, hd, treeRowDeleted_deleted_of_eq hid⟩

theorem liveCount_pos_of_hits (t : List TreeRow) (p : String) (h : hitsLive t p = true) :
    0 < liveCount t := by
  simp only [hitsLive, List.any_eq_true, Bool.and_eq_true, beq_iff_eq, Bool.not_eq_true'] at h
  obtain ⟨r, hr, _, hd⟩ := h
  apply List.length_pos_of_mem (a := r)
  exact List.mem_filter.mpr ⟨hr, by simp [hd]⟩

end Delete

section Delete2
variable (clock : Nat → Int) (sourceId : Option String)

/-- Termination of `deleteNote`, by induction on twice the number of non-deleted placements,
plus one when the placement to delete is not among them. -/
theorem deleteNote_fuel_bound (k : Nat) :
    ∀ (s : Store) (p : String),
      2 * liveCount s.tree + (if hitsLive s.tree p = true then 0 else 1) ≤ k →
      ∀ fuel, k < fuel →
        ∃ s', deleteNote clock sourceId fuel s p = some (.ok s') ∧
          liveCount s'.tree ≤ liveCount (deleteNoteHead clock sourceId s p).tree := by
  induction k with
  | zero =>
    intro s p hk
    exfalso
    by_cases hh : hitsLive s.tree p = true
    · have := liveCount_pos_of_hits s.tree p hh
      rw [if_pos hh] at hk
      omega
    · rw [if_neg hh] at hk
      omega
  | succ k ih =>
    intro s p hk fuel hfuel
    obtain ⟨f, rfl⟩ : ∃ f, fuel = f + 1 := ⟨fuel - 1, by omega⟩
    have hf : k < f := by omega
    rw [deleteNote_succ]
    have hx0 : 2 * liveCount (deleteNoteHead clock sourceId s p).tree ≤ k := by
      by_cases hh : hitsLive s.tree p = true
      · have := deleteNoteHead_liveCount_lt clock sourceId s p hh
        rw [if_pos hh] at hk
        omega
      · have := deleteNoteHead_liveCount_le clock sourceId s p
        rw [if_neg hh] at hk
        omega
    have loopA : ∀ (L : List String) (x : Store), 2 * liveCount x.tree + 1 ≤ k →
        ∃ x', forEachNote (deleteNote clock sourceId f) L x = some (.ok x') ∧
          liveCount x'.tree ≤ liveCount x.tree := by
      intro L
      induction L with
      | nil => intro x _; exact ⟨x, rfl, le_refl _⟩
      | cons ch rest ihL =>
        intro x hx
        obtain ⟨x1, hrun, hle⟩ := ih x ch (by split <;> omega) f hf
        have hle' := deleteNoteHead_liveCount_le clock sourceId x ch
        obtain ⟨x', hrest, hle2⟩ := ihL x1 (by omega)
        exact ⟨x', by simp only [forEachNote, hrun]; exact hrest, by omega⟩
    have hhits := deleteNoteNext_hits clock sourceId s p
    cases hL : deleteNoteNext clock sourceId s p with
    | nil => exact ⟨_, rfl, le_refl _⟩
    | cons c1 rest =>
      rw [hL] at hhits
      have hc1 := hhits c1 (List.mem_cons_self _ _)
      obtain ⟨x1, hrun, hle⟩ := ih (deleteNoteHead clock sourceId s p) c1
        (by rw [if_pos hc1]; omega) f hf
      have hlt := deleteNoteHead_liveCount_lt clock sourceId
        (deleteNoteHead clock sourceId s p) c1 hc1
      obtain ⟨x', hrest, hle2⟩ := loopA rest x1 (by omega)
      exact ⟨x', by simp only [forEachNote, hrun]; exact hrest, by omega⟩

/-- With more fuel than twice the number of non-deleted placements plus one, `deleteNote`
completes. -/
theorem deleteNote_completes (s : Store) (p : String) (fuel : Nat)
    (hfuel : 2 * liveCount s.tree + 1 < fuel) :
    ∃ s', deleteNote clock sourceId fuel s p = some (.ok s') ∧
      liveCount s'.tree ≤ liveCount s.tree := by
  obtain ⟨s', hrun, hle⟩ := deleteNote_fuel_bound clock sourceId (2 * liveCount s.tree + 1)
    s p (by split <;> omega) fuel hfuel
  exact ⟨s', hrun, le_trans hle (deleteNoteHead_liveCount_le clock sourceId s p)⟩

/-- Induction over a completed run of `deleteNote`: an invariant `Inv` kept by the head of
every invocation holds at the end, and a property `G q` established by the invocation for
`q` and kept by the other ones holds at the end for the placement the run started from and
for the children it went on to delete. -/
theorem deleteNote_induct (Inv : Store → Prop) (G : String → Store → Prop)
    (hstep : ∀ s p, Inv s →
      Inv (deleteNoteHead clock sourceId s p) ∧
      G p (deleteNoteHead clock sourceId s p) ∧
      ∀ q, G q s → G q (deleteNoteHead clock sourceId s p)) :
    ∀ (fuel : Nat) (s : Store) (p : String) (s' : Store), Inv s →
      deleteNote clock sourceId fuel s p = some (.ok s') →
      Inv s' ∧ G p s' ∧ (∀ q ∈ deleteNoteNext clock sourceId s p, G q s') ∧
        (∀ q, G q s → G q s') := by
  intro fuel
  induction fuel with
  | zero =>
    intro s p s' _ h
    simp [deleteNote] at h
  | succ fuel ih =>
    intro s p s' hinv h
    rw [deleteNote_succ] at h
    obtain ⟨hinv1, hg1, hst1⟩ := hstep s p hinv
    have inner : ∀ (cs : List String) (x x' : Store), Inv x →
        forEachNote (deleteNote clock sourceId fuel) cs x = some (.ok x') →
        Inv x' ∧ (∀ q ∈ cs, G q x') ∧ (∀ q, G q x → G q x') := by
      intro cs
      induction cs with
      | nil =>
        intro x x' hi hf
        simp only [forEachNote, Option.some.injEq, Except.ok.injEq] at hf
        subst hf
        exact ⟨hi, fun q hq => by simp at hq, fun _ hq => hq⟩
      | cons ch cs ihcs =>
        intro x x' hi hf
        obtain ⟨x2, hb, hrest⟩ := forEachNote_cons_ok hf
        obtain ⟨hi2, hg2, _, hst2⟩ := ih x ch x2 hi hb
        obtain ⟨hi3, hg3, hst3⟩ := ihcs x2 x' hi2 hrest
        refine ⟨hi3, ?_, fun q hq => hst3 q (hst2 q hq)⟩
        intro q hq
        rcases List.mem_cons.mp hq with rfl | hq
        · exact hst3 _ hg2
        · exact hg3 q hq
    obtain ⟨hi', hg', hst'⟩ := inner _ _ s' hinv1 h
    exact ⟨hi', hst' _ hg1, hg', fun q hq => hst' q (hst1 q hq)⟩

end Delete2

section Delete3
variable (clock : Nat → Int) (sourceId : Option String)

theorem selectNoteTree_map (t : List TreeRow) (p : String) (f : TreeRow → TreeRow)
    (hf : ∀ r, (f r).note_tree_id = r.note_tree_id) :
    selectNoteTree (t.map f) p = (selectNoteTree t p).map f := by
  induction t with
  | nil => rfl
  | cons r rs ih =>
    simp only [selectNoteTree, List.map_cons, List.find?_cons] at ih ⊢
    rw [hf r]
    cases r.note_tree_id == p
    · simpa using ih
    · simp

theorem selectNoteTree_mem {t : List TreeRow} {p : String} {row : TreeRow}
    (h : selectNoteTree t p = some row) : row ∈ t ∧ row.note_tree_id = p := by
  refine ⟨List.mem_of_find?_eq_some h, ?_⟩
  have := List.find?_some h
  simpa using this

theorem selectNoteTree_none {t : List TreeRow} {p : String} (h : selectNoteTree t p = none) :
    ∀ r ∈ t, r.note_tree_id ≠ p := by
  intro r hr
  have := List.find?_eq_none.mp h r hr
  simpa using this

theorem map_treeRowDeleted_of_none (t : List TreeRow) (now : Int) (p : String)
    (h : selectNoteTree t p = none) : t.map (treeRowDeleted now p) = t := by
  have hne := selectNoteTree_none h
  calc t.map (treeRowDeleted now p) = t.map id :=
        List.map_congr_left (fun r hr => treeRowDeleted_of_ne (hne r hr))
    _ = t := List.map_id t

theorem selectNoteIdOfTree_marked (now : Int) (s : Store) (p : String) :
    selectNoteIdOfTree (markPlacementDeleted now sourceId s p).tree p
      = selectNoteIdOfTree s.tree p := by
  simp only [selectNoteIdOfTree, markPlacementDeleted_tree]
  rw [selectNoteTree_map _ _ _ (treeRowDeleted_id now p)]
  cases selectNoteTree s.tree p <;> simp

theorem countLivePlacements_eq_zero {t : List TreeRow} {n : String} :
    countLivePlacements t (some n) = 0 ↔ ∀ r ∈ t, r.note_id = n → r.is_deleted = true := by
  simp only [countLivePlacements, List.length_eq_zero, List.filter_eq_nil_iff, Bool.and_eq_true,
    beq_iff_eq, Bool.not_eq_true', not_and, Bool.not_eq_false]

/-- C11: when placement `p` exists, belongs to note N, and N has another non-deleted
placement, `deleteNote(p)` returns at once; it sets `is_deleted` (and `date_modified`) on the
rows carrying the identifier `p` and leaves every other placement row, every note row and
every snapshot as they were (so N keeps its flag, and the placements under N are untouched),
and the change log grows by exactly one entry, for `p`. -/
theorem deleteNote_shared_note (s : Store) (p : String) (fuel : Nat) (row q : TreeRow)
    (hrow : selectNoteTree s.tree p = some row) (hlive : row.is_deleted = false)
    (hq : q ∈ s.tree) (hqn : q.note_id = row.note_id) (hqd : q.is_deleted = false)
    (hqp : q.note_tree_id ≠ p) :
    ∃ s', deleteNote clock sourceId (fuel + 1) s p = some (.ok s') ∧
      s'.notes = s.notes ∧ s'.history = s.history ∧
      s'.tree.length = s.tree.length ∧
      (∀ (i : Nat) (r : TreeRow), s.tree[i]? = some r →
        s'.tree[i]? = some (if r.note_tree_id = p
          then { r with is_deleted := true, date_modified := clock s.sync.length } else r)) ∧
      s'.sync = s.sync ++ [⟨SyncKind.noteTree, some p, sourceId⟩] := by
  have _ := hlive
  have hid : selectNoteIdOfTree (markPlacementDeleted (clock s.sync.length) sourceId s p).tree p
      = some row.note_id := by
    rw [selectNoteIdOfTree_marked, selectNoteIdOfTree, hrow]; rfl
  have hcount : countLivePlacements
      (markPlacementDeleted (clock s.sync.length) sourceId s p).tree (some row.note_id) ≠ 0 := by
    intro h0
    have := countLivePlacements_eq_zero.mp h0 (treeRowDeleted (clock s.sync.length) p q)
      (by rw [markPlacementDeleted_tree]; exact List.mem_map.mpr ⟨q, hq, rfl⟩)
      (by rw [treeRowDeleted_note_id]; exact hqn)
    rw [treeRowDeleted_of_ne hqp, hqd] at this
    simp at this
  have hrun : deleteNote clock sourceId (fuel + 1) s p
      = some (.ok (markPlacementDeleted (clock s.sync.length) sourceId s p)) := by
    simp only [deleteNote, hid]
    rw [if_neg (by simpa using hcount)]
  refine ⟨_, hrun, rfl, rfl, by simp, ?_, rfl⟩
  intro i r hi
  rw [markPlacementDeleted_tree, List.getElem?_map, hi]
  simp only [Option.map_some', Option.some.injEq]
  by_cases hp : r.note_tree_id = p
  · rw [if_pos hp, treeRowDeleted_of_eq hp]
  · rw [if_neg hp, treeRowDeleted_of_ne hp]

/-- C18 (amended): when no placement row carries the identifier, `deleteNote` raises nothing:
it returns at once, the notes, placements and snapshots (and the count of written rows) are
unchanged, and the change log has grown by two entries, one for the placement identifier and
one note entry with a `null` identifier. -/
theorem deleteNote_missing_placement (s : Store) (p : String) (fuel : Nat)
    (hnone : selectNoteTree s.tree p = none) :
    deleteNote clock sourceId (fuel + 1) s p
      = some (.ok { s with
          sync := s.sync ++ [⟨SyncKind.noteTree, some p, sourceId⟩,
                             ⟨SyncKind.note, none, sourceId⟩] }) := by
  have hid : selectNoteIdOfTree (markPlacementDeleted (clock s.sync.length) sourceId s p).tree p
      = none := by
    rw [selectNoteIdOfTree_marked, selectNoteIdOfTree, hnone]; rfl
  have hfil : (s.tree.filter (fun r => r.note_tree_id == p)).length = 0 := by
    rw [List.length_eq_zero, List.filter_eq_nil_iff]
    intro r hr
    simpa using selectNoteTree_none hnone r hr
  simp only [deleteNote, hid, countLivePlacements, selectLiveChildTreeIds, forEachNote]
  simp [markNoteDeleted, execDeleteNoteRow, addNoteSync, markPlacementDeleted,
    addNoteTreeSync, execDeleteNoteTree, map_treeRowDeleted_of_none _ _ _ hnone, hfil]

/-- C20: `deleteNote` terminates on every store, whatever the shape of the placement graph:
it completes for every fuel above twice the number of non-deleted placements plus one; each
invocation only goes on to placements that are non-deleted in the store it queried, and the
number of non-deleted placements does not grow, neither in an invocation's own writes nor
over the whole call. -/
theorem deleteNote_terminates (s : Store) (p : String) :
    (∃ fuel0, ∀ fuel, fuel0 ≤ fuel →
      ∃ s', deleteNote clock sourceId fuel s p = some (.ok s') ∧
        liveCount s'.tree ≤ liveCount s.tree) ∧
    (∀ ch ∈ deleteNoteNext clock sourceId s p,
      hitsLive (deleteNoteHead clock sourceId s p).tree ch = true) ∧
    liveCount (deleteNoteHead clock sourceId s p).tree ≤ liveCount s.tree :=
  ⟨⟨2 * liveCount s.tree + 2, fun fuel hfuel =>
      deleteNote_completes clock sourceId s p fuel (by omega)⟩,
    deleteNoteNext_hits clock sourceId s p,
    deleteNoteHead_liveCount_le clock sourceId s p⟩

end Delete3

section Positions

theorem liveChildren_map_of_preserve (t : List TreeRow) (P : String) (f : TreeRow → TreeRow)
    (hp : ∀ r, (f r).parent_note_id = r.parent_note_id)
    (hd : ∀ r, (f r).is_deleted = r.is_deleted) :
    liveChildren (t.map f) P = (liveChildren t P).map f := by
  induction t with
  | nil => rfl
  | cons r rs ih =>
    simp only [liveChildren, List.map_cons, List.filter_cons] at ih ⊢
    rw [hp r, hd r]
    split
    · rw [List.map_cons, ih]
    · exact ih

/-- The row-wise effect of the sibling shift of the `after` branch. -/
theorem shift_parent (P : String) (pos : Int) (r : TreeRow) :
    (if shiftCond P pos r then { r with note_position := r.note_position + 1 } else r).parent_note_id
      = r.parent_note_id := by
  split <;> rfl

theorem shift_deleted (P : String) (pos : Int) (r : TreeRow) :
    (if shiftCond P pos r then { r with note_position := r.note_position + 1 } else r).is_deleted
      = r.is_deleted := by
  split <;> rfl

theorem shift_position_live (P Q : String) (pos : Int) (r : TreeRow)
    (hr : r ∈ liveChildren (t : List TreeRow) Q) :
    (if shiftCond P pos r then { r with note_position := r.note_position + 1 } else r).note_position
      = if Q = P ∧ pos < r.note_position then r.note_position + 1 else r.note_position := by
  obtain ⟨_, hp, hd⟩ := mem_liveChildren.mp hr
  by_cases hc : shiftCond P pos r = true
  · have hc' : r.parent_note_id = P ∧ pos < r.note_position ∧ r.is_deleted = false := by
      simpa [shiftCond, and_assoc] using hc
    rw [if_pos hc, if_pos ⟨hp ▸ hc'.1, hc'.2.1⟩]
  · have hc' : ¬ (r.parent_note_id = P ∧ pos < r.note_position ∧ r.is_deleted = false) := by
      simpa [shiftCond, and_assoc] using hc
    rw [if_neg hc, if_neg]
    rintro ⟨hq, hlt⟩
    exact hc' ⟨hp.trans hq, hlt, hd⟩

theorem nodup_shift (l : List Int) (pos : Int) (c : Prop) [Decidable c] (h : l.Nodup) :
    (l.map (fun x => if c ∧ pos < x then x + 1 else x)).Nodup := by
  apply List.Nodup.map _ h
  intro x y hxy
  simp only at hxy
  by_cases hc : c
  · simp only [hc, true_and] at hxy
    split at hxy <;> split at hxy <;> omega
  · simpa [hc] using hxy

theorem createNewNote_tree_cases (noteId noteTreeId : String) (now : Int)
    (parentNoteId : String) (note : NewNote) (sourceId : Option String) (s : Store)
    (hsafeInto : note.target = "into" →
      ∀ m, selectMaxNotePos s.tree parentNoteId = some m → SafeInteger m)
    (hsafeAfter : note.target = "after" →
      ∀ ref, selectNoteTree s.tree note.target_note_tree_id = some ref →
        SafeInteger ref.note_position) :
    (createNewNote noteId noteTreeId now parentNoteId note sourceId s).1 = s ∨
    (∃ pos : Int,
      (createNewNote noteId noteTreeId now parentNoteId note sourceId s).1.tree
        = s.tree ++ [⟨noteTreeId, noteId, parentNoteId, pos, false, now, false⟩] ∧
      ∀ q ∈ liveChildren s.tree parentNoteId, q.note_position < pos) ∨
    (∃ ref : Int,
      (createNewNote noteId noteTreeId now parentNoteId note sourceId s).1.tree
        = s.tree.map (fun r =>
            if shiftCond parentNoteId ref r then { r with note_position := r.note_position + 1 }
            else r)
          ++ [⟨noteTreeId, noteId, parentNoteId, ref + 1, false, now, false⟩]) := by
  by_cases hinto : note.target = "into"
  · right; left
    cases hmax : selectMaxNotePos s.tree parentNoteId with
    | none =>
      refine ⟨0, ?_, ?_⟩
      · simp [createNewNote, doInTransaction, createNewNoteBody, createNewNotePos, hinto, hmax,
          addNoteTreeSync, insertNoteTree, addNoteSync, insertNote]
      · have hl : liveChildren s.tree parentNoteId = [] := by
          simpa using sqlMax_eq_none.mp hmax
        rw [hl]
        simp
    | some m =>
      refine ⟨m + 1, ?_, ?_⟩
      · simp [createNewNote, doInTransaction, createNewNoteBody, createNewNotePos, hinto, hmax,
          addNoteTreeSync, insertNoteTree, addNoteSync, insertNote,
          toDouble_next_of_safe m (hsafeInto hinto m hmax)]
      · intro q hq
        have := (sqlMax_spec hmax).2 q.note_position (List.mem_map.mpr ⟨q, hq, rfl⟩)
        omega
  · by_cases hafter : note.target = "after"
    · cases href : selectNoteTree s.tree note.target_note_tree_id with
      | none =>
        left
        simp [createNewNote, doInTransaction, createNewNoteBody, createNewNotePos, hinto,
          hafter, href]
      | some ref =>
        right; right
        refine ⟨ref.note_position, ?_⟩
        have hsafe := hsafeAfter hafter ref href
        simp [createNewNote, doInTransaction, createNewNoteBody, createNewNotePos, hinto, hafter,
          href, addNoteTreeSync, insertNoteTree, addNoteSync, insertNote, addNoteReorderingSync,
          execShiftPositions, toDouble_succ_of_safe _ hsafe, toDouble_of_safe _ hsafe]
    · left
      simp [createNewNote, doInTransaction, createNewNoteBody, createNewNotePos, hinto, hafter]


theorem createNewNote_distinct (noteId noteTreeId : String) (now : Int)
    (parentNoteId : String) (note : NewNote) (sourceId : Option String) (s : Store)
    (hsafeInto : note.target = "into" →
      ∀ m, selectMaxNotePos s.tree parentNoteId = some m → SafeInteger m)
    (hsafeAfter : note.target = "after" →
      ∀ ref, selectNoteTree s.tree note.target_note_tree_id = some ref →
        SafeInteger ref.note_position)
    (h : DistinctPositions s.tree) :
    DistinctPositions (createNewNote noteId noteTreeId now parentNoteId note sourceId s).1.tree := by
  rcases createNewNote_tree_cases noteId noteTreeId now parentNoteId note sourceId s
    hsafeInto hsafeAfter with he | ⟨pos, he, hpos⟩ | ⟨ref, he⟩
  · rw [he]; exact h
  · rw [he]
    intro Q
    rw [liveChildren_append, List.map_append]
    by_cases hQ : parentNoteId = Q
    · subst hQ
      have hnew : liveChildren [(⟨noteTreeId, noteId, parentNoteId, pos, false, now, false⟩ :
          TreeRow)] parentNoteId
          = [⟨noteTreeId, noteId, parentNoteId, pos, false, now, false⟩] := by
        simp [liveChildren]
      rw [hnew]
      apply List.Nodup.append (h parentNoteId) (by simp)
      intro x hx1 hx2
      simp only [List.map_cons, List.map_nil, List.mem_singleton] at hx2
      obtain ⟨q, hq, hqx⟩ := List.mem_map.mp hx1
      have := hpos q hq
      omega
    · have hnew : liveChildren [(⟨noteTreeId, noteId, parentNoteId, pos, false, now, false⟩ :
          TreeRow)] Q = [] := by
        simp [liveChildren, hQ]
      rw [hnew]
      simpa using h Q
  · rw [he]
    intro Q
    rw [liveChildren_append, List.map_append,
      liveChildren_map_of_preserve _ _ _ (shift_parent parentNoteId ref)
        (shift_deleted parentNoteId ref), List.map_map]
    have hpos : (liveChildren s.tree Q).map ((fun r : TreeRow => r.note_position) ∘ fun r =>
          if shiftCond parentNoteId ref r then { r with note_position := r.note_position + 1 }
          else r)
        = ((liveChildren s.tree Q).map (fun r => r.note_position)).map
            (fun x => if Q = parentNoteId ∧ ref < x then x + 1 else x) := by
      rw [List.map_map]
      apply List.map_congr_left
      intro r hr
      exact shift_position_live parentNoteId Q ref r hr
    rw [hpos]
    have hnd := nodup_shift ((liveChildren s.tree Q).map (fun r => r.note_position)) ref
      (Q = parentNoteId) (h Q)
    by_cases hQ : parentNoteId = Q
    · subst hQ
      have hnew : liveChildren [(⟨noteTreeId, noteId, parentNoteId, ref + 1, false, now, false⟩ :
          TreeRow)] parentNoteId
          = [⟨noteTreeId, noteId, parentNoteId, ref + 1, false, now, false⟩] := by
        simp [liveChildren]
      rw [hnew]
      apply List.Nodup.append hnd (by simp)
      intro x hx1 hx2
      simp only [List.map_cons, List.map_nil, List.mem_singleton] at hx2
      obtain ⟨y, _, hyx⟩ := List.mem_map.mp hx1
      simp only [true_and] at hyx
      split at hyx <;> omega
    · have hnew : liveChildren [(⟨noteTreeId, noteId, parentNoteId, ref + 1, false, now, false⟩ :
          TreeRow)] Q = [] := by
        simp [liveChildren, hQ]
      rw [hnew]
      simpa using hnd

theorem liveChildren_deleted_sublist (t : List TreeRow) (now : Int) (p Q : String) :
    ((liveChildren (t.map (treeRowDeleted now p)) Q).map (fun r => r.note_position)).Sublist
      ((liveChildren t Q).map (fun r => r.note_position)) := by
  induction t with
  | nil => simp [liveChildren]
  | cons r rs ih =>
    simp only [liveChildren, List.map_cons, List.filter_cons] at ih ⊢
    rw [treeRowDeleted_parent]
    by_cases hp : r.note_tree_id = p
    · rw [treeRowDeleted_deleted_of_eq hp]
      simp only [Bool.not_true, Bool.and_false, Bool.false_eq_true, if_false]
      split
      · exact List.Sublist.cons _ ih
      · exact ih
    · rw [treeRowDeleted_of_ne hp]
      split
      · simp only [List.map_cons]
        exact List.Sublist.cons₂ _ ih
      · exact ih

theorem deleteNote_distinct (clock : Nat → Int) (sourceId : Option String) (fuel : Nat)
    (s : Store) (p : String) (s' : Store) (h : DistinctPositions s.tree)
    (hrun : deleteNote clock sourceId fuel s p = some (.ok s')) :
    DistinctPositions s'.tree := by
  have := deleteNote_induct clock sourceId (fun x => DistinctPositions x.tree)
    (fun _ _ => True)
    (fun x q hx => ⟨by
      show DistinctPositions (deleteNoteHead clock sourceId x q).tree
      rw [deleteNoteHead_tree]
      intro Q
      exact List.Nodup.sublist (liveChildren_deleted_sublist x.tree _ q Q) (hx Q),
      trivial, fun _ _ => trivial⟩)
    fuel s p s' h hrun
  exact this.1

/-- C14 (amended): distinct sibling positions are preserved: if, under every parent, the non-deleted
placements of a store have pairwise distinct positions, they still do in the store after
any `createNewNote` whose base position is a JavaScript safe integer (magnitude below
2 ^ 53): with target 'into' the maximum position among the parent's non-deleted placements,
with target 'after' the position of the reference placement (a failed call leaves the store
as it was); and they still do in the store any `deleteNote` returns, which it does for every
fuel above twice the number of non-deleted placements plus one. -/
theorem distinct_positions_preserved :
    (∀ (noteId noteTreeId : String) (now : Int) (parentNoteId : String) (note : NewNote)
        (sourceId : Option String) (s : Store),
      (note.target = "into" →
        ∀ m, selectMaxNotePos s.tree parentNoteId = some m → SafeInteger m) →
      (note.target = "after" →
        ∀ ref, selectNoteTree s.tree note.target_note_tree_id = some ref →
          SafeInteger ref.note_position) →
      DistinctPositions s.tree →
      DistinctPositions
        (createNewNote noteId noteTreeId now parentNoteId note sourceId s).1.tree) ∧
    (∀ (clock : Nat → Int) (sourceId : Option String) (s : Store) (p : String),
      DistinctPositions s.tree →
      ∀ fuel, 2 * liveCount s.tree + 1 < fuel →
        ∃ s', deleteNote clock sourceId fuel s p = some (.ok s') ∧
          DistinctPositions s'.tree) := by
  refine ⟨createNewNote_distinct, ?_⟩
  intro clock sourceId s p h fuel hfuel
  obtain ⟨s', hrun, _⟩ := deleteNote_completes clock sourceId s p fuel hfuel
  exact ⟨s', hrun, deleteNote_distinct clock sourceId fuel s p s' h hrun⟩

end Positions

/-! ## A note is deleted exactly when it has no non-deleted placement -/

section Orphan

theorem forall₂_mem_right {α β : Type} {R : α → β → Prop} {l0 : List α} {l : List β}
    (h : List.Forall₂ R l0 l) {b : β} (hb : b ∈ l) : ∃ a ∈ l0, R a b := by
  induction h with
  | nil => simp at hb
  | cons hab _ ih =>
    rcases List.mem_cons.mp hb with rfl | hin
    · exact ⟨_, List.mem_cons_self _ _, hab⟩
    · obtain ⟨a, ha, hr⟩ := ih hin
      exact ⟨a, List.mem_cons_of_mem _ ha, hr⟩

/-- The invariant only reads the identifier and the `is_deleted` flag of the note rows. -/
theorem deletedIffOrphan_of_rel (s s' : Store) (htree : s'.tree = s.tree)
    (hnotes : List.Forall₂ (fun (n0 n : NoteRow) =>
      n.note_id = n0.note_id ∧ n.is_deleted = n0.is_deleted) s.notes s'.notes)
    (h : DeletedIffOrphan s) : DeletedIffOrphan s' := by
  intro n hn
  obtain ⟨n0, hn0, hid, hdel⟩ := forall₂_mem_right hnotes hn
  rw [htree, hid, hdel]
  exact h n0 hn0

theorem createNewNote_cases (noteId noteTreeId : String) (now : Int)
    (parentNoteId : String) (note : NewNote) (sourceId : Option String) (s : Store) :
    (createNewNote noteId noteTreeId now parentNoteId note sourceId s).1 = s ∨
    (∃ (f : TreeRow → TreeRow) (pos : Int),
      (∀ r, (f r).note_id = r.note_id ∧ (f r).is_deleted = r.is_deleted) ∧
      (createNewNote noteId noteTreeId now parentNoteId note sourceId s).1.tree
        = s.tree.map f ++ [⟨noteTreeId, noteId, parentNoteId, pos, false, now, false⟩] ∧
      (createNewNote noteId noteTreeId now parentNoteId note sourceId s).1.notes
        = s.notes ++ [⟨noteId, note.note_title, "", now, now, note.is_protected, false⟩]) := by
  by_cases hinto : note.target = "into"
  · right
    cases hmax : selectMaxNotePos s.tree parentNoteId with
    | none =>
      refine ⟨id, 0, fun r => ⟨rfl, rfl⟩, ?_, ?_⟩ <;>
      simp [createNewNote, doInTransaction, createNewNoteBody, createNewNotePos, hinto, hmax,
        addNoteTreeSync, insertNoteTree, addNoteSync, insertNote]
    | some m =>
      refine ⟨id, toDouble (toDouble m + 1), fun r => ⟨rfl, rfl⟩, ?_, ?_⟩ <;>
      simp [createNewNote, doInTransaction, createNewNoteBody, createNewNotePos, hinto, hmax,
        addNoteTreeSync, insertNoteTree, addNoteSync, insertNote]
  · by_cases hafter : note.target = "after"
    · cases href : selectNoteTree s.tree note.target_note_tree_id with
      | none =>
        left
        simp [createNewNote, doInTransaction, createNewNoteBody, createNewNotePos, hinto,
          hafter, href]
      | some ref =>
        right
        refine ⟨fun r => if shiftCond parentNoteId (toDouble ref.note_position) r
            then { r with note_position := r.note_position + 1 } else r,
          toDouble (toDouble ref.note_position + 1), fun r => ?_, ?_, ?_⟩
        · constructor <;> (simp only; split <;> rfl)
        · simp [createNewNote, doInTransaction, createNewNoteBody, createNewNotePos, hinto,
            hafter, href, addNoteTreeSync, insertNoteTree, addNoteSync, insertNote,
            addNoteReorderingSync, execShiftPositions]
        · simp [createNewNote, doInTransaction, createNewNoteBody, createNewNotePos, hinto,
            hafter, href, addNoteTreeSync, insertNoteTree, addNoteSync, insertNote,
            addNoteReorderingSync, execShiftPositions]
    · left
      simp [createNewNote, doInTransaction, createNewNoteBody, createNewNotePos, hinto, hafter]

theorem createNewNote_deletedIffOrphan (noteId noteTreeId : String) (now : Int)
    (parentNoteId : String) (note : NewNote) (sourceId : Option String) (s : Store)
    (hfresh : ∀ n ∈ s.notes, n.note_id ≠ noteId) (h : DeletedIffOrphan s) :
    DeletedIffOrphan (createNewNote noteId noteTreeId now parentNoteId note sourceId s).1 := by
  rcases createNewNote_cases noteId noteTreeId now parentNoteId note sourceId s with
    he | ⟨f, pos, hf, htree, hnotes⟩
  · rw [he]; exact h
  · intro n hn
    rw [hnotes] at hn
    rw [htree]
    rcases List.mem_append.mp hn with hn | hn
    · have hne := hfresh n hn
      rw [h n hn]
      constructor
      · intro hall r hr hrn
        rcases List.mem_append.mp hr with hr | hr
        · obtain ⟨r0, hr0, rfl⟩ := List.mem_map.mp hr
          rw [(hf r0).2]
          exact hall r0 hr0 (by rw [← (hf r0).1]; exact hrn)
        · simp only [List.mem_singleton] at hr
          subst hr
          exact absurd hrn.symm hne
      · intro hall r hr hrn
        have := hall (f r) (List.mem_append.mpr (Or.inl (List.mem_map.mpr ⟨r, hr, rfl⟩)))
          (by rw [(hf r).1]; exact hrn)
        rw [(hf r).2] at this
        exact this
    · simp only [List.mem_singleton] at hn
      subst hn
      constructor
      · intro hd; simp at hd
      · intro hall
        have := hall ⟨noteTreeId, noteId, parentNoteId, pos, false, now, false⟩
          (List.mem_append.mpr (Or.inr (List.mem_singleton.mpr rfl))) rfl
        simp at this

theorem updateNoteWrite_tree (c : Crypto) (now : Int) (noteId : String) (detail : NoteDetail)
    (dataKey : String) (sourceId : Option String) (s1 : Store) :
    (updateNoteWrite c now noteId detail dataKey sourceId s1).tree = s1.tree := by
  simp [updateNoteWrite, addNoteSync, execUpdateNote]

theorem updateNote_tree (c : Crypto) (newNoteHistoryId : String) (now interval : Int)
    (noteId : String) (newNote : NoteDetail) (dataKey : String) (sourceId : Option String)
    (s : Store) :
    (updateNote c newNoteHistoryId now interval noteId newNote dataKey sourceId s).1.tree
      = s.tree := by
  rcases updateNote_cases c newNoteHistoryId now interval noteId newNote dataKey sourceId s with
    ⟨_, he⟩ | ⟨_, _, he⟩ | ⟨_, old, _, he⟩
  · rw [he, updateNoteWrite_tree]
  · rw [he]
  · rw [he, updateNoteWrite_tree]; rfl

theorem updateNote_notes_rel (c : Crypto) (newNoteHistoryId : String) (now interval : Int)
    (noteId : String) (newNote : NoteDetail) (dataKey : String) (sourceId : Option String)
    (s : Store) :
    List.Forall₂ (fun (n0 n : NoteRow) => n.note_id = n0.note_id ∧ n.is_deleted = n0.is_deleted)
      s.notes
      (updateNote c newNoteHistoryId now interval noteId newNote dataKey sourceId s).1.notes := by
  have hmap : ∀ d : NoteDetail, List.Forall₂ (fun (n0 n : NoteRow) =>
      n.note_id = n0.note_id ∧ n.is_deleted = n0.is_deleted) s.notes
      (s.notes.map (fun r =>
        if r.note_id == noteId then
          { r with note_title := d.note_title, note_text := d.note_text,
                   is_protected := d.is_protected, date_modified := now }
        else r)) := by
    intro d
    apply forall₂_map_right_of_mem (forall₂_refl' (fun a => ⟨rfl, rfl⟩) _)
    intro a b _ hab
    constructor
    · rw [← hab.1]; split <;> rfl
    · rw [← hab.2]; split <;> rfl
  rcases updateNote_cases c newNoteHistoryId now interval noteId newNote dataKey sourceId s with
    ⟨_, he⟩ | ⟨_, _, he⟩ | ⟨_, old, _, he⟩
  · rw [he, updateNoteWrite_notes]; exact hmap _
  · rw [he]; exact forall₂_refl' (fun a => ⟨rfl, rfl⟩) _
  · rw [he, updateNoteWrite_notes]; exact hmap _

theorem noteRowUpd_is_deleted (c : Crypto) (dataKey : String) (protect : Bool)
    (note r : NoteRow) : (noteRowUpd c dataKey protect note r).is_deleted = r.is_deleted := by
  unfold noteRowUpd; split <;> rfl

theorem protectNoteRecursively_notes_rel (c : Crypto) (dataKey : String) (protect : Bool)
    (sourceId : Option String) (fuel : Nat) (s : Store) (n : String) (s' : Store)
    (h : protectNoteRecursively c dataKey protect sourceId fuel s n = some (.ok s')) :
    List.Forall₂ (fun (n0 n : NoteRow) => n.note_id = n0.note_id ∧ n.is_deleted = n0.is_deleted)
      s.notes s'.notes := by
  have := protectNoteRecursively_induct c dataKey protect sourceId s.tree n
    (fun (x : Store) => x.tree = s.tree ∧
      List.Forall₂ (fun (n0 n : NoteRow) =>
        n.note_id = n0.note_id ∧ n.is_deleted = n0.is_deleted) s.notes x.notes)
    (fun _ _ => True) (fun _ hx => hx.1)
    (fun x m note hx _ _ => ⟨⟨(protectNote_tree c dataKey protect sourceId x note).trans hx.1, by
      rw [protectNote_notes]
      split
      · exact hx.2
      · apply forall₂_map_right_of_mem hx.2
        intro a b _ hab
        exact ⟨by rw [noteRowUpd_note_id]; exact hab.1,
          by rw [noteRowUpd_is_deleted]; exact hab.2⟩⟩, trivial, fun _ _ => trivial⟩)
    fuel s n s' Relation.ReflTransGen.refl
    ⟨rfl, by apply forall₂_refl'; intro a; exact ⟨rfl, rfl⟩⟩ h
  exact this.1.2

end Orphan

section Orphan2
variable (clock : Nat → Int) (sourceId : Option String)

theorem noteRowDeleted_note_id (now : Int) (n : String) (r : NoteRow) :
    (noteRowDeleted now n r).note_id = r.note_id := by
  unfold noteRowDeleted; split <;> rfl

theorem noteRowDeleted_of_ne {now : Int} {n : String} {r : NoteRow} (h : r.note_id ≠ n) :
    noteRowDeleted now n r = r := by
  simp [noteRowDeleted, h]

theorem noteRowDeleted_of_eq {now : Int} {n : String} {r : NoteRow} (h : r.note_id = n) :
    (noteRowDeleted now n r).is_deleted = true := by
  simp [noteRowDeleted, h]

theorem noteRowDeleted_mono {now : Int} {n : String} {r : NoteRow} (h : r.is_deleted = true) :
    (noteRowDeleted now n r).is_deleted = true := by
  unfold noteRowDeleted; split
  · rfl
  · exact h

/-- The three shapes of the store an invocation of `deleteNote` reaches before it goes on
to the children. -/
theorem deleteNoteHead_cases (s : Store) (p : String) :
    (selectNoteTree s.tree p = none ∧
      (deleteNoteHead clock sourceId s p).notes = s.notes ∧
      (deleteNoteHead clock sourceId s p).tree = s.tree ∧
      deleteNoteNext clock sourceId s p = []) ∨
    (∃ row, selectNoteTree s.tree p = some row ∧
      (∀ r ∈ (deleteNoteHead clock sourceId s p).tree,
        r.note_id = row.note_id → r.is_deleted = true) ∧
      (deleteNoteHead clock sourceId s p).notes
        = s.notes.map (noteRowDeleted (clock s.sync.length) row.note_id) ∧
      deleteNoteNext clock sourceId s p
        = (liveChildren (deleteNoteHead clock sourceId s p).tree row.note_id).map
            (fun r => r.note_tree_id)) ∨
    (∃ row, selectNoteTree s.tree p = some row ∧
      (¬ ∀ r ∈ (deleteNoteHead clock sourceId s p).tree,
        r.note_id = row.note_id → r.is_deleted = true) ∧
      (deleteNoteHead clock sourceId s p).notes = s.notes ∧
      deleteNoteNext clock sourceId s p = []) := by
  cases hrow : selectNoteTree s.tree p with
  | none =>
    left
    have hid : selectNoteIdOfTree (s.tree.map (treeRowDeleted (clock s.sync.length) p)) p
        = none := by
      have := selectNoteIdOfTree_marked sourceId (clock s.sync.length) s p
      rw [markPlacementDeleted_tree] at this
      rw [this, selectNoteIdOfTree, hrow]; rfl
    refine ⟨rfl, ?_, ?_, ?_⟩
    · simp [deleteNoteHead, hid, countLivePlacements, markNoteDeleted_notes_none]
    · rw [deleteNoteHead_tree, map_treeRowDeleted_of_none _ _ _ hrow]
    · simp [deleteNoteNext, hid, countLivePlacements, selectLiveChildTreeIds]
  | some row =>
    right
    have hid : selectNoteIdOfTree (s.tree.map (treeRowDeleted (clock s.sync.length) p)) p
        = some row.note_id := by
      have := selectNoteIdOfTree_marked sourceId (clock s.sync.length) s p
      rw [markPlacementDeleted_tree] at this
      rw [this, selectNoteIdOfTree, hrow]; rfl
    have htree := deleteNoteHead_tree clock sourceId s p
    by_cases hc : countLivePlacements
        (s.tree.map (treeRowDeleted (clock s.sync.length) p)) (some row.note_id) = 0
    · left
      refine ⟨row, rfl, ?_, ?_, ?_⟩
      · rw [htree]
        exact countLivePlacements_eq_zero.mp hc
      · simp [deleteNoteHead, hid, hc, markNoteDeleted_notes_some]
      · simp [deleteNoteNext, deleteNoteHead, hid, hc, selectLiveChildTreeIds]
    · right
      refine ⟨row, rfl, ?_, ?_, ?_⟩
      · rw [htree]
        exact fun h => hc (countLivePlacements_eq_zero.mpr h)
      · simp [deleteNoteHead, hid, hc]
      · simp [deleteNoteNext, hid, hc]

theorem deleteNoteHead_tree_ids (s : Store) (p : String) :
    (deleteNoteHead clock sourceId s p).tree.map (fun r => r.note_tree_id)
      = s.tree.map (fun r => r.note_tree_id) := by
  rw [deleteNoteHead_tree, List.map_map]
  apply List.map_congr_left
  intro r _
  exact treeRowDeleted_id _ _ r

theorem selectNoteTree_of_nodup (t : List TreeRow)
    (hnd : (t.map (fun r => r.note_tree_id)).Nodup) (row : TreeRow) (h : row ∈ t) :
    selectNoteTree t row.note_tree_id = some row := by
  cases hs : selectNoteTree t row.note_tree_id with
  | none => exact absurd rfl (selectNoteTree_none hs row h)
  | some r =>
    obtain ⟨hr, hid⟩ := selectNoteTree_mem hs
    rw [eq_of_nodup_map hnd hr h hid]

/-- With unique placement identifiers, the head of an invocation of `deleteNote` keeps the
invariant that a note is deleted exactly when no non-deleted placement references it. -/
theorem deleteNoteHead_deletedIffOrphan (s : Store) (p : String)
    (hnd : (s.tree.map (fun r => r.note_tree_id)).Nodup) (h : DeletedIffOrphan s) :
    DeletedIffOrphan (deleteNoteHead clock sourceId s p) := by
  have htree := deleteNoteHead_tree clock sourceId s p
  -- placements of notes other than the note of `p` keep their flags
  have hother : ∀ row, selectNoteTree s.tree p = some row → ∀ M, M ≠ row.note_id →
      ((∀ r ∈ (deleteNoteHead clock sourceId s p).tree, r.note_id = M → r.is_deleted = true) ↔
        (∀ r ∈ s.tree, r.note_id = M → r.is_deleted = true)) := by
    intro row hrow M hM
    rw [htree]
    constructor
    · intro hall r hr hrM
      have hne : r.note_tree_id ≠ p := by
        intro e
        have := selectNoteTree_of_nodup s.tree hnd r hr
        rw [e, hrow] at this
        exact hM (by rw [← hrM, ← Option.some.inj this])
      have := hall (treeRowDeleted (clock s.sync.length) p r) (List.mem_map.mpr ⟨r, hr, rfl⟩)
        (by rw [treeRowDeleted_note_id]; exact hrM)
      rwa [treeRowDeleted_of_ne hne] at this
    · intro hall r' hr' hrM
      obtain ⟨r, hr, rfl⟩ := List.mem_map.mp hr'
      rw [treeRowDeleted_note_id] at hrM
      exact treeRowDeleted_mono (hall r hr hrM)
  have hmono : ∀ M, (∀ r ∈ s.tree, r.note_id = M → r.is_deleted = true) →
      (∀ r ∈ (deleteNoteHead clock sourceId s p).tree, r.note_id = M → r.is_deleted = true) := by
    intro M hall r' hr' hrM
    rw [htree] at hr'
    obtain ⟨r, hr, rfl⟩ := List.mem_map.mp hr'
    rw [treeRowDeleted_note_id] at hrM
    exact treeRowDeleted_mono (hall r hr hrM)
  rcases deleteNoteHead_cases clock sourceId s p with
    ⟨_, hnotes, ht, _⟩ | ⟨row, hrow, hall, hnotes, _⟩ | ⟨row, hrow, hnall, hnotes, _⟩
  · intro n hn
    rw [hnotes] at hn
    rw [ht]
    exact h n hn
  · intro n' hn'
    rw [hnotes] at hn'
    obtain ⟨n, hn, rfl⟩ := List.mem_map.mp hn'
    by_cases hid : n.note_id = row.note_id
    · rw [noteRowDeleted_of_eq hid, noteRowDeleted_note_id, hid]
      exact ⟨fun _ => hall, fun _ => rfl⟩
    · rw [noteRowDeleted_of_ne hid, hother row hrow n.note_id hid]
      exact h n hn
  · intro n hn
    rw [hnotes] at hn
    by_cases hid : n.note_id = row.note_id
    · rw [hid]
      constructor
      · intro hd
        exact hmono _ (hid ▸ (h n hn).mp hd)
      · intro hall
        exact absurd hall hnall
    · rw [hother row hrow n.note_id hid]
      exact h n hn

theorem deleteNote_deletedIffOrphan (fuel : Nat) (s : Store) (p : String) (s' : Store)
    (hnd : (s.tree.map (fun r => r.note_tree_id)).Nodup) (h : DeletedIffOrphan s)
    (hrun : deleteNote clock sourceId fuel s p = some (.ok s')) :
    DeletedIffOrphan s' := by
  have := deleteNote_induct clock sourceId
    (fun (x : Store) => (x.tree.map (fun r => r.note_tree_id)).Nodup ∧ DeletedIffOrphan x)
    (fun _ _ => True)
    (fun x q hx => ⟨⟨by rw [deleteNoteHead_tree_ids]; exact hx.1,
      deleteNoteHead_deletedIffOrphan clock sourceId x q hx.1 hx.2⟩, trivial,
      fun _ _ => trivial⟩)
    fuel s p s' ⟨hnd, h⟩ hrun
  exact this.1.2

/-- C13: the invariant "a note row is marked deleted if and only if no non-deleted placement
references its note" is preserved by `createNewNote` (the generated note identifier being
fresh), by `updateNote`, by every completed `protectNoteRecursively` (which completes on
acyclic stores whose reachable notes have rows), and by `deleteNote` (placement identifiers
being unique), which completes for every fuel above twice the number of non-deleted
placements plus one. -/
theorem deleted_iff_orphan_preserved :
    (∀ (noteId noteTreeId : String) (now : Int) (parentNoteId : String) (note : NewNote)
        (sourceId : Option String) (s : Store),
      (∀ n ∈ s.notes, n.note_id ≠ noteId) → DeletedIffOrphan s →
      DeletedIffOrphan (createNewNote noteId noteTreeId now parentNoteId note sourceId s).1) ∧
    (∀ (c : Crypto) (newNoteHistoryId : String) (now interval : Int) (noteId : String)
        (newNote : NoteDetail) (dataKey : String) (sourceId : Option String) (s : Store),
      DeletedIffOrphan s →
      DeletedIffOrphan
        (updateNote c newNoteHistoryId now interval noteId newNote dataKey sourceId s).1) ∧
    (∀ (c : Crypto) (dataKey : String) (protect : Bool) (sourceId : Option String)
        (fuel : Nat) (s : Store) (noteId : String) (s' : Store),
      DeletedIffOrphan s →
      protectNoteRecursively c dataKey protect sourceId fuel s noteId = some (.ok s') →
      DeletedIffOrphan s') ∧
    (∀ (c : Crypto) (dataKey : String) (protect : Bool) (sourceId : Option String)
        (s : Store) (noteId : String),
      DeletedIffOrphan s → Acyclic s.tree →
      (∀ m, Reach s.tree noteId m → ∃ r ∈ s.notes, r.note_id = m) →
      ∃ fuel0, ∀ fuel, fuel0 ≤ fuel →
        ∃ s', protectNoteRecursively c dataKey protect sourceId fuel s noteId = some (.ok s') ∧
          DeletedIffOrphan s') ∧
    (∀ (clock : Nat → Int) (sourceId : Option String) (s : Store) (p : String),
      (s.tree.map (fun r => r.note_tree_id)).Nodup → DeletedIffOrphan s →
      ∀ fuel, 2 * liveCount s.tree + 1 < fuel →
        ∃ s', deleteNote clock sourceId fuel s p = some (.ok s') ∧ DeletedIffOrphan s') := by
  refine ⟨createNewNote_deletedIffOrphan, ?_, ?_, ?_, ?_⟩
  · intro c newNoteHistoryId now interval noteId newNote dataKey sourceId s h
    exact deletedIffOrphan_of_rel s _
      (updateNote_tree c newNoteHistoryId now interval noteId newNote dataKey sourceId s)
      (updateNote_notes_rel c newNoteHistoryId now interval noteId newNote dataKey sourceId s) h
  · intro c dataKey protect sourceId fuel s noteId s' h hrun
    exact deletedIffOrphan_of_rel s s'
      (protectNoteRecursively_preserves c dataKey protect sourceId fuel s noteId s' hrun).1
      (protectNoteRecursively_notes_rel c dataKey protect sourceId fuel s noteId s' hrun) h
  · intro c dataKey protect sourceId s noteId h hac hrows
    obtain ⟨fuel0, hf⟩ := protectNoteRecursively_terminates c dataKey protect sourceId s noteId
      hac hrows
    refine ⟨fuel0, fun fuel hfuel => ?_⟩
    obtain ⟨s', hrun⟩ := hf fuel hfuel s rfl rfl
    exact ⟨s', hrun, deletedIffOrphan_of_rel s s'
      (protectNoteRecursively_preserves c dataKey protect sourceId fuel s noteId s' hrun).1
      (protectNoteRecursively_notes_rel c dataKey protect sourceId fuel s noteId s' hrun) h⟩
  · intro clock sourceId s p hnd h fuel hfuel
    obtain ⟨s', hrun, _⟩ := deleteNote_completes clock sourceId s p fuel hfuel
    exact ⟨s', hrun, deleteNote_deletedIffOrphan clock sourceId fuel s p s' hnd h hrun⟩

end Orphan2

/-! ## Cascade of `deleteNote` -/

section Cascade
variable (clock : Nat → Int) (sourceId : Option String)

/-- The induction of `deleteNote_induct`, for the loop over the children. -/
theorem deleteNote_loop_induct (Inv : Store → Prop) (G : String → Store → Prop)
    (hstep : ∀ s p, Inv s →
      Inv (deleteNoteHead clock sourceId s p) ∧
      G p (deleteNoteHead clock sourceId s p) ∧
      ∀ q, G q s → G q (deleteNoteHead clock sourceId s p))
    (fuel : Nat) :
    ∀ (cs : List String) (x x' : Store), Inv x →
      forEachNote (deleteNote clock sourceId fuel) cs x = some (.ok x') →
      Inv x' ∧ (∀ q ∈ cs, G q x') ∧ (∀ q, G q x → G q x') := by
  intro cs
  induction cs with
  | nil =>
    intro x x' hi hf
    simp only [forEachNote, Option.some.injEq, Except.ok.injEq] at hf
    subst hf
    exact ⟨hi, fun q hq => by simp at hq, fun _ hq => hq⟩
  | cons ch cs ihcs =>
    intro x x' hi hf
    obtain ⟨x2, hb, hrest⟩ := forEachNote_cons_ok hf
    obtain ⟨hi2, hg2, _, hst2⟩ := deleteNote_induct clock sourceId Inv G hstep fuel x ch x2 hi hb
    obtain ⟨hi3, hg3, hst3⟩ := ihcs x2 x' hi2 hrest
    refine ⟨hi3, ?_, fun q hq => hst3 q (hst2 q hq)⟩
    intro q hq
    rcases List.mem_cons.mp hq with rfl | hq
    · exact hst3 _ hg2
    · exact hg3 q hq

theorem treeRowMono_deleted (now : Int) (p : String) (r0 r : TreeRow) (h : TreeRowMono r0 r) :
    TreeRowMono r0 (treeRowDeleted now p r) :=
  ⟨by rw [treeRowDeleted_id]; exact h.1, by rw [treeRowDeleted_note_id]; exact h.2.1,
    by rw [treeRowDeleted_parent]; exact h.2.2.1, fun hd => treeRowDeleted_mono (h.2.2.2 hd)⟩

/-- The head of an invocation keeps the two monotonicity relations to a base store, and
leaves the rows carrying the identifier it was called for deleted. -/
theorem deleteNoteHead_mono (b x : Store) (q : String)
    (ht : List.Forall₂ TreeRowMono b.tree x.tree)
    (hn : List.Forall₂ (NoteRowMono x.tree) b.notes x.notes) :
    List.Forall₂ TreeRowMono b.tree (deleteNoteHead clock sourceId x q).tree ∧
    List.Forall₂ (NoteRowMono (deleteNoteHead clock sourceId x q).tree) b.notes
      (deleteNoteHead clock sourceId x q).notes := by
  have htree := deleteNoteHead_tree clock sourceId x q
  have hmono : ∀ M, (∀ r ∈ x.tree, r.note_id = M → r.is_deleted = true) →
      (∀ r ∈ (deleteNoteHead clock sourceId x q).tree, r.note_id = M → r.is_deleted = true) := by
    intro M hall r' hr' hrM
    rw [htree] at hr'
    obtain ⟨r, hr, rfl⟩ := List.mem_map.mp hr'
    rw [treeRowDeleted_note_id] at hrM
    exact treeRowDeleted_mono (hall r hr hrM)
  have hn' : List.Forall₂ (NoteRowMono (deleteNoteHead clock sourceId x q).tree) b.notes
      x.notes := by
    apply List.Forall₂.imp _ hn
    intro a c hac
    refine ⟨hac.1, hac.2.1, ?_⟩
    rcases hac.2.2 with e | ⟨hd, hall⟩
    · exact Or.inl e
    · exact Or.inr ⟨hd, hmono _ hall⟩
  constructor
  · rw [htree]
    exact forall₂_map_right_of_mem ht (fun a c _ hac => treeRowMono_deleted _ _ a c hac)
  · rcases deleteNoteHead_cases clock sourceId x q with
      ⟨_, hnotes, _, _⟩ | ⟨row, _, hall, hnotes, _⟩ | ⟨row, _, _, hnotes, _⟩
    · rw [hnotes]; exact hn'
    · rw [hnotes]
      apply forall₂_map_right_of_mem hn'
      intro a c _ hac
      by_cases hid : c.note_id = row.note_id
      · refine ⟨by rw [noteRowDeleted_note_id]; exact hac.1,
          fun _ => noteRowDeleted_of_eq hid, Or.inr ⟨noteRowDeleted_of_eq hid, ?_⟩⟩
        rw [noteRowDeleted_note_id, hid]
        exact hall
      · rw [noteRowDeleted_of_ne hid]
        exact hac
    · rw [hnotes]; exact hn'

theorem deleteNoteHead_marks (x : Store) (q : String) :
    ∀ r ∈ (deleteNoteHead clock sourceId x q).tree, r.note_tree_id = q → r.is_deleted = true := by
  intro r' hr' hid
  rw [deleteNoteHead_tree] at hr'
  obtain ⟨r, hr, rfl⟩ := List.mem_map.mp hr'
  rw [treeRowDeleted_id] at hid
  exact treeRowDeleted_deleted_of_eq hid

theorem deleteNoteHead_marks_stable (x : Store) (q q' : String)
    (h : ∀ r ∈ x.tree, r.note_tree_id = q' → r.is_deleted = true) :
    ∀ r ∈ (deleteNoteHead clock sourceId x q).tree, r.note_tree_id = q' →
      r.is_deleted = true := by
  intro r' hr' hid
  rw [deleteNoteHead_tree] at hr'
  obtain ⟨r, hr, rfl⟩ := List.mem_map.mp hr'
  rw [treeRowDeleted_id] at hid
  exact treeRowDeleted_mono (h r hr hid)

/-- The loop over the children keeps the monotonicity relations to the store it started
from and leaves every row carrying the identifier of a child deleted. -/
theorem deleteNote_loop_mono (fuel : Nat) (cs : List String) (x0 x' : Store)
    (hrun : forEachNote (deleteNote clock sourceId fuel) cs x0 = some (.ok x')) :
    List.Forall₂ TreeRowMono x0.tree x'.tree ∧
    List.Forall₂ (NoteRowMono x'.tree) x0.notes x'.notes ∧
    ∀ q ∈ cs, ∀ r ∈ x'.tree, r.note_tree_id = q → r.is_deleted = true := by
  have := deleteNote_loop_induct clock sourceId
    (fun (x : Store) => List.Forall₂ TreeRowMono x0.tree x.tree ∧
      List.Forall₂ (NoteRowMono x.tree) x0.notes x.notes)
    (fun (q : String) (x : Store) => ∀ r ∈ x.tree, r.note_tree_id = q → r.is_deleted = true)
    (fun x q hx => ⟨deleteNoteHead_mono clock sourceId x0 x q hx.1 hx.2,
      deleteNoteHead_marks clock sourceId x q,
      fun q' hq' => deleteNoteHead_marks_stable clock sourceId x q q' hq'⟩)
    fuel cs x0 x'
    ⟨by apply forall₂_refl'; intro a; exact ⟨rfl, rfl, rfl, fun h => h⟩,
      by apply forall₂_refl'; intro a; exact ⟨rfl, fun h => h, Or.inl rfl⟩⟩ hrun
  exact ⟨this.1.1, this.1.2, this.2.1⟩

end Cascade

section Cascade2
variable (clock : Nat → Int) (sourceId : Option String)

/-- C12: when `p` is the last non-deleted placement of its note N, `deleteNote(p)` completes
(for every fuel above twice the number of non-deleted placements plus one) and afterwards
every row of note N is marked deleted, every placement whose parent is N is marked deleted,
and a note row that went from not deleted to deleted has no non-deleted placement left. -/
theorem deleteNote_last_placement (s : Store) (p : String) (row : TreeRow)
    (hrow : selectNoteTree s.tree p = some row) (hlive : row.is_deleted = false)
    (hlast : ∀ r ∈ s.tree, r.note_id = row.note_id → r.is_deleted = false →
      r.note_tree_id = p) :
    ∀ fuel, 2 * liveCount s.tree + 1 < fuel →
      ∃ s', deleteNote clock sourceId fuel s p = some (.ok s') ∧
        (∀ n ∈ s'.notes, n.note_id = row.note_id → n.is_deleted = true) ∧
        (∀ r ∈ s'.tree, r.parent_note_id = row.note_id → r.is_deleted = true) ∧
        s'.notes.length = s.notes.length ∧
        (∀ (i : Nat) (n0 n : NoteRow), s.notes[i]? = some n0 → s'.notes[i]? = some n →
          n.note_id = n0.note_id ∧
          (n0.is_deleted = false → n.is_deleted = true →
            ∀ r ∈ s'.tree, r.note_id = n.note_id → r.is_deleted = true)) := by
  have _ := hlive
  intro fuel hfuel
  obtain ⟨s', hrun, _⟩ := deleteNote_completes clock sourceId s p fuel hfuel
  refine ⟨s', hrun, ?_⟩
  obtain ⟨f, rfl⟩ : ∃ f, fuel = f + 1 := ⟨fuel - 1, by omega⟩
  rw [deleteNote_succ] at hrun
  obtain ⟨hTM, hNM, hmarks⟩ := deleteNote_loop_mono clock sourceId f _ _ s' hrun
  have htree := deleteNoteHead_tree clock sourceId s p
  have hall0 : ∀ r ∈ (deleteNoteHead clock sourceId s p).tree,
      r.note_id = row.note_id → r.is_deleted = true := by
    intro r' hr' hn
    rw [htree] at hr'
    obtain ⟨r, hr, rfl⟩ := List.mem_map.mp hr'
    rw [treeRowDeleted_note_id] at hn
    by_cases hid : r.note_tree_id = p
    · exact treeRowDeleted_deleted_of_eq hid
    · apply treeRowDeleted_mono
      by_contra hd
      exact hid (hlast r hr hn (by simpa using hd))
  rcases deleteNoteHead_cases clock sourceId s p with
    ⟨hnone, _, _, _⟩ | ⟨row', hrow', _, hnotes, hnext⟩ | ⟨row', hrow', hnall, _, _⟩
  · rw [hrow] at hnone; simp at hnone
  · rw [hrow] at hrow'
    obtain rfl := Option.some.inj hrow'
    have hallS : ∀ r ∈ s'.tree, r.note_id = row.note_id → r.is_deleted = true := by
      intro r' hr' hn
      obtain ⟨r0, hr0, hm⟩ := forall₂_mem_right hTM hr'
      exact hm.2.2.2 (hall0 r0 hr0 (by rw [← hm.2.1]; exact hn))
    refine ⟨?_, ?_, ?_, ?_⟩
    · intro n hn hid
      obtain ⟨nx, hnx, hm⟩ := forall₂_mem_right hNM hn
      rw [hnotes] at hnx
      obtain ⟨n0, _, rfl⟩ := List.mem_map.mp hnx
      apply hm.2.1
      apply noteRowDeleted_of_eq
      rw [← noteRowDeleted_note_id (clock s.sync.length) row.note_id n0, ← hm.1]
      exact hid
    · intro r' hr' hpar
      obtain ⟨r0, hr0, hm⟩ := forall₂_mem_right hTM hr'
      cases hd : r0.is_deleted with
      | true => exact hm.2.2.2 hd
      | false =>
        have hlc : r0 ∈ liveChildren (deleteNoteHead clock sourceId s p).tree row.note_id :=
          mem_liveChildren.mpr ⟨hr0, by rw [← hm.2.2.1]; exact hpar, hd⟩
        have hin : r0.note_tree_id ∈ deleteNoteNext clock sourceId s p := by
          rw [hnext]; exact List.mem_map.mpr ⟨r0, hlc, rfl⟩
        exact hmarks _ hin r' hr' hm.1
    · rw [← hNM.length_eq, hnotes, List.length_map]
    · intro i n0 n hi0 hi
      have hix : (deleteNoteHead clock sourceId s p).notes[i]?
          = some (noteRowDeleted (clock s.sync.length) row.note_id n0) := by
        rw [hnotes, List.getElem?_map, hi0]; rfl
      obtain ⟨n', hi', hm⟩ := forall₂_getElem? hNM i _ hix
      rw [hi] at hi'
      obtain rfl := Option.some.inj hi'
      refine ⟨by rw [hm.1, noteRowDeleted_note_id], fun h0 hd => ?_⟩
      rcases hm.2.2 with e | ⟨_, hall⟩
      · by_cases hid : n0.note_id = row.note_id
        · rw [hm.1, noteRowDeleted_note_id, hid]
          exact hallS
        · rw [e, noteRowDeleted_of_ne hid, h0] at hd
          simp at hd
      · exact hall
  · rw [hrow] at hrow'
    obtain rfl := Option.some.inj hrow'
    exact absurd hall0 hnall

end Cascade2

/-! ## History intervals -/

section Intervals
variable (c : Crypto)

theorem snapshotRow_from (newNoteHistoryId : String) (now : Int) (noteId dataKey : String)
    (old : NoteRow) :
    (snapshotRow c newNoteHistoryId now noteId dataKey old).date_modified_from
      = old.date_modified := by
  unfold snapshotRow decryptNote
  cases old.is_protected <;> rfl

theorem filter_map_rowFold (dataKey : String) (protect : Bool) (L l : List HistoryRow)
    (noteId : String) :
    (l.map (fun r => L.foldl (histRowUpd c dataKey protect) r)).filter
        (fun h => h.note_id == noteId)
      = (l.filter (fun h => h.note_id == noteId)).map
          (fun r => L.foldl (histRowUpd c dataKey protect) r) := by
  induction l with
  | nil => rfl
  | cons r rs ih =>
    simp only [List.map_cons, List.filter_cons, rowFold_note_id]
    split
    · rw [List.map_cons, ih]
    · exact ih

theorem pairwise_map_rowFold (dataKey : String) (protect : Bool) (L l : List HistoryRow)
    (h : l.Pairwise IntervalsDisjoint) :
    (l.map (fun r => L.foldl (histRowUpd c dataKey protect) r)).Pairwise IntervalsDisjoint := by
  rw [List.pairwise_map]
  apply List.Pairwise.imp _ h
  intro a b hab
  unfold IntervalsDisjoint at hab ⊢
  simp only [rowFold_from, rowFold_to]
  exact hab

/-- The write phase of `updateNote` keeps the snapshots of the note ordered when they end
at or before `now`. -/
theorem updateNoteWrite_ordered (now : Int) (noteId : String) (detail : NoteDetail)
    (dataKey : String) (sourceId : Option String) (s1 : Store)
    (hp : (s1.history.filter (fun h => h.note_id == noteId)).Pairwise IntervalsDisjoint)
    (hto : ∀ h ∈ s1.history, h.note_id = noteId →
      (∃ n ∈ s1.notes, n.note_id = noteId) → h.date_modified_to ≤ now) :
    HistoryOrdered (updateNoteWrite c now noteId detail dataKey sourceId s1) noteId := by
  constructor
  · rw [updateNoteWrite_history, protectNoteHistory_history, filter_map_rowFold]
    exact pairwise_map_rowFold c dataKey _ _ _ hp
  · intro h' hh' hid n' hn' hnid
    rw [updateNoteWrite_history, protectNoteHistory_history] at hh'
    obtain ⟨h, hh, rfl⟩ := List.mem_map.mp hh'
    rw [rowFold_note_id] at hid
    rw [rowFold_to]
    rw [updateNoteWrite_notes] at hn'
    obtain ⟨n, hn, rfl⟩ := List.mem_map.mp hn'
    by_cases hn0 : n.note_id = noteId
    · simp only [hn0, beq_self_eq_true, if_true]
      exact hto h hh hid ⟨n, hn, hn0⟩
    · simp [hn0] at hnid

/-- C15: if the snapshots of the note have pairwise non-overlapping half-open intervals, all
ending at or before the `date_modified` of the note, and the clock reading `now` is not
before that `date_modified`, then the same holds in the store `updateNote` leaves, and a
snapshot appended by the call starts at or after the end of every snapshot the note had. -/
theorem updateNote_history_ordered (newNoteHistoryId : String) (now interval : Int)
    (noteId : String) (newNote : NoteDetail) (dataKey : String) (sourceId : Option String)
    (s : Store) (hord : HistoryOrdered s noteId)
    (hclock : ∀ n ∈ s.notes, n.note_id = noteId → n.date_modified ≤ now) :
    HistoryOrdered
      (updateNote c newNoteHistoryId now interval noteId newNote dataKey sourceId s).1 noteId ∧
    (∀ (i : Nat) (h' : HistoryRow), s.history.length ≤ i →
      (updateNote c newNoteHistoryId now interval noteId newNote dataKey sourceId
        s).1.history[i]? = some h' →
      ∀ h ∈ s.history, h.note_id = noteId → h.date_modified_to ≤ h'.date_modified_from) := by
  have hto : ∀ h ∈ s.history, h.note_id = noteId →
      (∃ n ∈ s.notes, n.note_id = noteId) → h.date_modified_to ≤ now := by
    rintro h hh hid ⟨n, hn, hnid⟩
    exact le_trans (hord.2 h hh hid n hn hnid) (hclock n hn hnid)
  rcases updateNote_cases c newNoteHistoryId now interval noteId newNote dataKey sourceId s with
    ⟨_, he⟩ | ⟨_, _, he⟩ | ⟨_, old, hold, he⟩
  · rw [he]
    refine ⟨updateNoteWrite_ordered c now noteId _ dataKey sourceId s hord.1 hto, ?_⟩
    intro i h' hi hget
    rw [updateNoteWrite_history] at hget
    have := (List.getElem?_eq_some.mp hget).1
    rw [protectNoteHistory_length] at this
    omega
  · rw [he]
    refine ⟨hord, ?_⟩
    intro i h' hi hget
    have hlt : i < s.history.length := (List.getElem?_eq_some.mp hget).1
    omega
  · rw [he]
    have holdm := selectNote_mem hold
    have holdi := selectNote_note_id hold
    set snap := snapshotRow c newNoteHistoryId now noteId dataKey old with hsnap
    set s0 := addNoteHistorySync (insertNoteHistory s snap) newNoteHistoryId sourceId with hs0
    have hs0h : s0.history = s.history ++ [snap] := rfl
    have hs0n : s0.notes = s.notes := rfl
    have hsnapid : snap.note_id = noteId := rfl
    have hsnapto : snap.date_modified_to = now := rfl
    have hsnapfrom : snap.date_modified_from = old.date_modified :=
      snapshotRow_from c newNoteHistoryId now noteId dataKey old
    refine ⟨updateNoteWrite_ordered c now noteId _ dataKey sourceId s0 ?_ ?_, ?_⟩
    · rw [hs0h, List.filter_append]
      have hf : [snap].filter (fun h => h.note_id == noteId) = [snap] := by
        simp [hsnapid]
      rw [hf, List.pairwise_append]
      refine ⟨hord.1, List.pairwise_singleton _ _, ?_⟩
      intro a ha b hb
      simp only [List.mem_singleton] at hb
      subst hb
      obtain ⟨ha1, ha2⟩ := List.mem_filter.mp ha
      left
      rw [hsnapfrom]
      exact hord.2 a ha1 (by simpa using ha2) old holdm holdi
    · intro h hh hid hex
      rw [hs0h] at hh
      rcases List.mem_append.mp hh with hh | hh
      · exact hto h hh hid hex
      · simp only [List.mem_singleton] at hh
        subst hh
        rw [hsnapto]
    · intro i h' hi hget
      rw [updateNoteWrite_history, protectNoteHistory_history, hs0h, List.getElem?_map] at hget
      have hlt : i < (s.history ++ [snap]).length := by
        by_contra hge
        rw [List.getElem?_eq_none (by omega)] at hget
        simp at hget
      have hi' : i = s.history.length := by
        simp only [List.length_append, List.length_singleton] at hlt
        omega
      subst hi'
      rw [List.getElem?_append_right (le_refl _)] at hget
      simp only [Nat.sub_self, List.getElem?_cons_zero, Option.map_some',
        Option.some.injEq] at hget
      subst hget
      intro h hh hid
      rw [rowFold_from, hsnapfrom]
      exact hord.2 h hh hid old holdm holdi

end Intervals

/-! ## Exact effect of `protectNoteHistory` -/

section HistoryExact
variable (c : Crypto) (dataKey : String) (protect : Bool) (sourceId : Option String)

theorem filter_length_eq_one_of_nodup {α β : Type} [DecidableEq β] (f : α → β) (l : List α)
    (hnd : (l.map f).Nodup) (x : β) (hx : x ∈ l.map f) :
    (l.filter (fun y => f y == x)).length = 1 := by
  induction l with
  | nil => simp at hx
  | cons a as ih =>
    simp only [List.map_cons, List.nodup_cons] at hnd
    simp only [List.filter_cons]
    by_cases ha : f a = x
    · have hnot : as.filter (fun y => f y == x) = [] := by
        rw [List.filter_eq_nil_iff]
        intro y hy
        simp only [beq_iff_eq]
        intro hyx
        exact hnd.1 (List.mem_map.mpr ⟨y, hy, hyx.trans ha.symm⟩)
      simp [ha, hnot]
    · have hx' : x ∈ as.map f := by
        simp only [List.map_cons, List.mem_cons] at hx
        rcases hx with e | e
        · exact absurd e.symm ha
        · exact e
      simp only [beq_iff_eq, ha, if_false, Bool.false_eq_true]
      exact ih hnd.2 hx'

theorem protectHistoryStep_ids (s : Store) (h : HistoryRow) :
    (protectHistoryStep c dataKey protect sourceId s h).history.map (fun r => r.note_history_id)
      = s.history.map (fun r => r.note_history_id) := by
  rw [protectHistoryStep_history, List.map_map]
  apply List.map_congr_left
  intro r _
  exact histRowUpd_id c dataKey protect r h

theorem protectHistoryStep_writes (s : Store) (h : HistoryRow) :
    (protectHistoryStep c dataKey protect sourceId s h).writes
      = s.writes + (s.history.filter (fun r => r.note_history_id == h.note_history_id)).length := by
  simp [protectHistoryStep, addNoteHistorySync, execUpdateHistory]

theorem foldl_step_writes (L : List HistoryRow) (s : Store)
    (hnd : (s.history.map (fun r => r.note_history_id)).Nodup)
    (hin : ∀ h ∈ L, h.note_history_id ∈ s.history.map (fun r => r.note_history_id)) :
    (L.foldl (protectHistoryStep c dataKey protect sourceId) s).writes = s.writes + L.length := by
  induction L generalizing s with
  | nil => rfl
  | cons h hs ih =>
    rw [List.foldl_cons, ih]
    · rw [protectHistoryStep_writes,
        filter_length_eq_one_of_nodup (fun r : HistoryRow => r.note_history_id) s.history hnd
          h.note_history_id (hin h (List.mem_cons_self _ _))]
      simp only [List.length_cons]
      omega
    · rw [protectHistoryStep_ids]; exact hnd
    · intro h' hh'
      rw [protectHistoryStep_ids]
      exact hin h' (List.mem_cons_of_mem _ hh')

/-- C16: with unique history identifiers, `protectNoteHistory(noteId, key, protect, source)`
rewrites exactly the snapshots of `noteId` whose `is_protected` differs from `protect` (each
becomes its encryption or decryption with the flag flipped) and leaves every other snapshot
as it was; it appends to the change log exactly one entry for each rewritten snapshot, in
table order; it writes one row per rewritten snapshot and touches no note and no
placement. -/
theorem protectNoteHistory_exact (s : Store) (noteId : String)
    (hnd : (s.history.map (fun r => r.note_history_id)).Nodup) :
    (protectNoteHistory c s noteId dataKey protect sourceId).history
      = s.history.map (fun r =>
          if r.note_id = noteId ∧ r.is_protected ≠ protect
          then protectHistoryRow c dataKey protect r else r) ∧
    (protectNoteHistory c s noteId dataKey protect sourceId).sync
      = s.sync ++ (s.history.filter (fun r => r.note_id == noteId &&
            (r.is_protected != protect))).map
          (fun h => ⟨SyncKind.noteHistory, some h.note_history_id, sourceId⟩) ∧
    (protectNoteHistory c s noteId dataKey protect sourceId).writes
      = s.writes + (s.history.filter (fun r => r.note_id == noteId &&
            (r.is_protected != protect))).length ∧
    (protectNoteHistory c s noteId dataKey protect sourceId).notes = s.notes ∧
    (protectNoteHistory c s noteId dataKey protect sourceId).tree = s.tree := by
  refine ⟨?_, protectNoteHistory_sync c dataKey protect sourceId s noteId, ?_,
    protectNoteHistory_notes c dataKey protect sourceId s noteId,
    protectNoteHistory_tree c dataKey protect sourceId s noteId⟩
  · rw [protectNoteHistory_history]
    apply List.map_congr_left
    intro r hr
    by_cases hc : r.note_id = noteId ∧ r.is_protected ≠ protect
    · rw [if_pos hc]
      have hin : r ∈ selectHistoryToChange s.history noteId protect :=
        mem_selectHistoryToChange.mpr ⟨hr, hc.1, hc.2⟩
      exact (rowFold_of_unique c dataKey protect _ r (fun y hy he =>
        eq_of_nodup_map hnd (mem_selectHistoryToChange.mp hy).1 hr he)).1 hin
    · rw [if_neg hc]
      apply rowFold_of_no_match
      intro y hy he
      have hyr : y = r := eq_of_nodup_map hnd (mem_selectHistoryToChange.mp hy).1 hr he.symm
      subst hyr
      obtain ⟨_, h1, h2⟩ := mem_selectHistoryToChange.mp hy
      exact hc ⟨h1, h2⟩
  · unfold protectNoteHistory
    rw [foldl_step_writes c dataKey protect sourceId _ s hnd]
    · rfl
    · intro h hh
      exact List.mem_map.mpr ⟨h, (mem_selectHistoryToChange.mp hh).1, rfl⟩

end HistoryExact

/-! ## `protectNoteRecursively` on a cyclic placement graph -/

section Cycle
variable (c : Crypto) (dataKey : String) (protect : Bool) (sourceId : Option String)

/-- In a completed loop every child was run from a store with the same placements, and its
run completed. -/
theorem forEachNote_protect_runs (fuel : Nat) (t : List TreeRow) :
    ∀ (cs : List String) (x x' : Store), x.tree = t →
      forEachNote (protectNoteRecursively c dataKey protect sourceId fuel) cs x
        = some (.ok x') →
      ∀ ch ∈ cs, ∃ y y', y.tree = t ∧
        protectNoteRecursively c dataKey protect sourceId fuel y ch = some (.ok y') := by
  intro cs
  induction cs with
  | nil => intro _ _ _ _ ch hch; simp at hch
  | cons a as ih =>
    intro x x' hx hf ch hch
    obtain ⟨x2, hb, hrest⟩ := forEachNote_cons_ok hf
    rcases List.mem_cons.mp hch with rfl | hin
    · exact ⟨x, x2, hx, hb⟩
    · have ht2 := (protectNoteRecursively_preserves c dataKey protect sourceId fuel x a x2 hb).1
      exact ih x2 x' (ht2.trans hx) hrest ch hin

/-- A run that completes has met no cycle. -/
theorem protectNoteRecursively_ok_no_cycle (fuel : Nat) :
    ∀ (s : Store) (n : String) (s' : Store),
      protectNoteRecursively c dataKey protect sourceId fuel s n = some (.ok s') →
      ∀ m, Reach s.tree n m → ¬ Relation.TransGen (Edge s.tree) m m := by
  induction fuel with
  | zero =>
    intro s n s' h
    simp [protectNoteRecursively] at h
  | succ fuel ih =>
    intro s n s' h m hm hcyc
    obtain ⟨note, _, hloop⟩ := protectNoteRecursively_succ_ok c dataKey protect sourceId h
    have hruns := forEachNote_protect_runs c dataKey protect sourceId fuel s.tree _ _ s'
      (protectNote_tree c dataKey protect sourceId s note) hloop
    rcases (reach_iff s.tree n m).mp hm with rfl | ⟨ch, hch, hchm⟩
    · obtain ⟨b, hmb, hbm⟩ := Relation.TransGen.head'_iff.mp hcyc
      obtain ⟨y, y', hy, hrun⟩ := hruns b (mem_selectChildNoteIds.mpr hmb)
      exact ih y b y' hrun m (hy ▸ hbm) (hy ▸ hcyc)
    · obtain ⟨y, y', hy, hrun⟩ := hruns ch hch
      exact ih y ch y' hrun m (hy ▸ hchm) (hy ▸ hcyc)

/-- When every reachable note has a row, `protectNoteRecursively` raises nothing. -/
theorem protectNoteRecursively_no_error (t : List TreeRow) (ids : List String) (fuel : Nat) :
    ∀ (s : Store) (n : String) (e : Err), s.tree = t →
      s.notes.map (fun r => r.note_id) = ids → (∀ m, Reach t n m → m ∈ ids) →
      protectNoteRecursively c dataKey protect sourceId fuel s n ≠ some (.error e) := by
  induction fuel with
  | zero =>
    intro s n e _ _ _ h
    simp [protectNoteRecursively] at h
  | succ fuel ih =>
    intro s n e hst hsi hrows h
    have hn : n ∈ s.notes.map (fun r => r.note_id) := by
      rw [hsi]; exact hrows n Relation.ReflTransGen.refl
    obtain ⟨note, hnote⟩ := (selectNote_isSome_iff s.notes n).mpr hn
    simp only [protectNoteRecursively, hnote, protectNote_tree, hst] at h
    have inner : ∀ (cs : List String), (∀ ch ∈ cs, ch ∈ selectChildNoteIds t n) →
        ∀ x : Store, x.tree = t → x.notes.map (fun r => r.note_id) = ids →
        forEachNote (protectNoteRecursively c dataKey protect sourceId fuel) cs x
          ≠ some (.error e) := by
      intro cs
      induction cs with
      | nil => intro _ x _ _ hf; simp [forEachNote] at hf
      | cons a as ihcs =>
        intro hsub x hx1 hx2 hf
        simp only [forEachNote] at hf
        cases hb : protectNoteRecursively c dataKey protect sourceId fuel x a with
        | none => rw [hb] at hf; simp at hf
        | some r =>
          rw [hb] at hf
          cases r with
          | error e' =>
            exact ih x a e' hx1 hx2 (fun m hm => hrows m (Relation.ReflTransGen.head
              (mem_selectChildNoteIds.mp (hsub a (List.mem_cons_self _ _))) hm)) hb
          | ok x2 =>
            obtain ⟨p1, p2, _⟩ := protectNoteRecursively_preserves c dataKey protect sourceId
              fuel x a x2 hb
            exact ihcs (fun y hy => hsub y (List.mem_cons_of_mem _ hy)) x2
              (p1.trans hx1) (p2.trans hx2) hf
    exact inner _ (fun _ hx => hx) _ (by rw [protectNote_tree]; exact hst)
      (by rw [protectNote_note_ids]; exact hsi) h

/-- C17 (amended): the code has no cycle guard.  When a cycle is reachable from `noteId`,
`protectNoteRecursively` does not detect it and never completes: whatever the fuel, the run
returns no store. -/
theorem protectNoteRecursively_cycle (s : Store) (noteId m : String)
    (hreach : Reach s.tree noteId m) (hcyc : Relation.TransGen (Edge s.tree) m m) :
    ∀ fuel s', protectNoteRecursively c dataKey protect sourceId fuel s noteId ≠ some (.ok s') :=
  fun fuel s' h =>
    protectNoteRecursively_ok_no_cycle c dataKey protect sourceId fuel s noteId s' h m hreach hcyc

end Cycle

/-! ## Examples for deletion, positions, intervals and cycles -/

/-- Witness for C11: deleting placement `t1` of note N, which is also placed under A. -/
theorem deleteNote_shared_note_witness :
    (selectNoteTree exStoreShared.tree "t1" = some ⟨"t1", "N", "root", 0, false, 0, false⟩ ∧
      (⟨"t2", "N", "A", 0, false, 0, false⟩ : TreeRow) ∈ exStoreShared.tree) ∧
    ∃ s', deleteNote exClock (some "src") (0 + 1) exStoreShared "t1" = some (.ok s') ∧
      s'.notes = exStoreShared.notes ∧ s'.history = exStoreShared.history ∧
      s'.tree.length = exStoreShared.tree.length ∧
      (∀ (i : Nat) (r : TreeRow), exStoreShared.tree[i]? = some r →
        s'.tree[i]? = some (if r.note_tree_id = "t1"
          then { r with is_deleted := true, date_modified := exClock exStoreShared.sync.length }
          else r)) ∧
      s'.sync = exStoreShared.sync ++ [⟨SyncKind.noteTree, some "t1", some "src"⟩] :=
  ⟨⟨by decide, by decide⟩,
    deleteNote_shared_note exClock (some "src") exStoreShared "t1" 0
      ⟨"t1", "N", "root", 0, false, 0, false⟩ ⟨"t2", "N", "A", 0, false, 0, false⟩
      (by decide) rfl (by decide) rfl rfl (by decide)⟩

/-- Witness for C12: deleting the only placement of note A in `exStoreTree`. -/
theorem deleteNote_last_placement_witness :
    (selectNoteTree exStoreTree.tree "tA" = some ⟨"tA", "A", "root", 0, false, 0, false⟩ ∧
      (∀ r ∈ exStoreTree.tree, r.note_id = "A" → r.is_deleted = false →
        r.note_tree_id = "tA")) ∧
    ∀ fuel, 2 * liveCount exStoreTree.tree + 1 < fuel →
      ∃ s', deleteNote exClock (some "src") fuel exStoreTree "tA" = some (.ok s') ∧
        (∀ n ∈ s'.notes, n.note_id = "A" → n.is_deleted = true) ∧
        (∀ r ∈ s'.tree, r.parent_note_id = "A" → r.is_deleted = true) ∧
        s'.notes.length = exStoreTree.notes.length ∧
        (∀ (i : Nat) (n0 n : NoteRow), exStoreTree.notes[i]? = some n0 →
          s'.notes[i]? = some n →
          n.note_id = n0.note_id ∧
          (n0.is_deleted = false → n.is_deleted = true →
            ∀ r ∈ s'.tree, r.note_id = n.note_id → r.is_deleted = true)) :=
  ⟨⟨by decide, by decide⟩,
    deleteNote_last_placement exClock (some "src") exStoreTree "tA"
      ⟨"tA", "A", "root", 0, false, 0, false⟩ (by decide) rfl (by decide)⟩

theorem exStoreTree_orphan : DeletedIffOrphan exStoreTree := by
  unfold DeletedIffOrphan
  decide

theorem exStoreTree_tree_nodup :
    (exStoreTree.tree.map (fun r => r.note_tree_id)).Nodup := by decide

/-- Witness for C13: the invariant holds in `exStoreTree` and after deleting placement `tA`
or protecting the subtree of A. -/
theorem deleted_iff_orphan_preserved_witness :
    ((exStoreTree.tree.map (fun r => r.note_tree_id)).Nodup ∧ DeletedIffOrphan exStoreTree ∧
      2 * liveCount exStoreTree.tree + 1 < 6 ∧
      ∃ s', deleteNote exClock (some "src") 6 exStoreTree "tA" = some (.ok s') ∧
        DeletedIffOrphan s') ∧
    (exProtectRun = some (.ok (resultStore exProtectRun exStoreTree)) ∧
      DeletedIffOrphan (resultStore exProtectRun exStoreTree)) :=
  ⟨⟨exStoreTree_tree_nodup, exStoreTree_orphan, by decide,
      deleted_iff_orphan_preserved.2.2.2.2 exClock (some "src") exStoreTree "tA"
        exStoreTree_tree_nodup exStoreTree_orphan 6 (by decide)⟩,
    ⟨rfl, deleted_iff_orphan_preserved.2.2.1 exCrypto "k" true (some "src") 3 exStoreTree "A"
      (resultStore exProtectRun exStoreTree) exStoreTree_orphan rfl⟩⟩

theorem exStoreAB_distinct : DistinctPositions exStoreAB.tree := by
  intro P
  by_cases h : P = "root"
  · subst h; decide
  · have : liveChildren exStoreAB.tree P = [] := by
      simp [liveChildren, exStoreAB, Ne.symm h]
    rw [this]
    simp

theorem exStoreAB_after_safe : ∀ ref : TreeRow,
    selectNoteTree exStoreAB.tree "tA" = some ref → SafeInteger ref.note_position := by
  intro ref href
  have h0 : selectNoteTree exStoreAB.tree "tA"
      = some ⟨"tA", "A", "root", 0, false, 0, false⟩ := by decide
  rw [h0] at href
  cases href
  show (0 : Int).natAbs < 2 ^ 53
  decide

theorem exStoreBig_distinct : DistinctPositions exStoreBig.tree := by
  intro P
  by_cases h : P = "root"
  · subst h; decide
  · have : liveChildren exStoreBig.tree P = [] := by
      simp [liveChildren, exStoreBig, Ne.symm h]
    rw [this]
    simp

/-- Witness for C14: creating C after A's placement in `exStoreAB`, and deleting `tA`. -/
theorem distinct_positions_preserved_witness :
    (DistinctPositions exStoreAB.tree ∧
      ((⟨"after", "tA", "c", false⟩ : NewNote).target = "into" →
        ∀ m, selectMaxNotePos exStoreAB.tree "root" = some m → SafeInteger m) ∧
      ((⟨"after", "tA", "c", false⟩ : NewNote).target = "after" →
        ∀ ref, selectNoteTree exStoreAB.tree "tA" = some ref →
          SafeInteger ref.note_position)) ∧
    DistinctPositions
      (createNewNote "C" "tC" 2 "root" ⟨"after", "tA", "c", false⟩ (some "src")
        exStoreAB).1.tree ∧
    (2 * liveCount exStoreAB.tree + 1 < 6 ∧
      ∃ s', deleteNote exClock (some "src") 6 exStoreAB "tA" = some (.ok s') ∧
        DistinctPositions s'.tree) :=
  ⟨⟨exStoreAB_distinct, fun h => absurd h (by decide), fun _ => exStoreAB_after_safe⟩,
    distinct_positions_preserved.1 "C" "tC" 2 "root" ⟨"after", "tA", "c", false⟩ (some "src")
      exStoreAB (fun h => absurd h (by decide)) (fun _ => exStoreAB_after_safe)
      exStoreAB_distinct,
    by decide,
    distinct_positions_preserved.2 exClock (some "src") exStoreAB "tA" exStoreAB_distinct 6
      (by decide)⟩

/-- Counterexample for C14 as stated without a bound: the placements of `exStoreBig` have
pairwise distinct positions, and after `createNewNote` with target 'into' the parent `root`
has two non-deleted placements at position 2 ^ 53. -/
theorem distinct_positions_unsafe_counterexample :
    DistinctPositions exStoreBig.tree ∧
    (liveChildren (createNewNote "C" "tC" 2 "root" ⟨"into", "", "c", false⟩ (some "src")
        exStoreBig).1.tree "root").map (fun r => r.note_position)
      = [9007199254740992, 9007199254740992] ∧
    ¬ DistinctPositions
      (createNewNote "C" "tC" 2 "root" ⟨"into", "", "c", false⟩ (some "src")
        exStoreBig).1.tree := by
  have hpos : (liveChildren (createNewNote "C" "tC" 2 "root" ⟨"into", "", "c", false⟩
      (some "src") exStoreBig).1.tree "root").map (fun r => r.note_position)
      = [9007199254740992, 9007199254740992] := by decide
  refine ⟨exStoreBig_distinct, hpos, ?_⟩
  intro h
  have hnd := h "root"
  rw [hpos] at hnd
  simp at hnd

theorem exStoreAH_ordered : HistoryOrdered exStoreAH "A" := by
  unfold HistoryOrdered
  refine ⟨?_, by decide⟩
  have : exStoreAH.history.filter (fun h => h.note_id == "A")
      = [⟨"h0", "A", "old title", "old text", false, 0, 100⟩] := by decide
  rw [this]
  exact List.pairwise_singleton _ _

/-- Witness for C15: the protected update of note A of `exStoreAH` at instant 10000. -/
theorem updateNote_history_ordered_witness :
    (HistoryOrdered exStoreAH "A" ∧
      ∀ n ∈ exStoreAH.notes, n.note_id = "A" → n.date_modified ≤ 10000) ∧
    HistoryOrdered exUpdateProtected.1 "A" ∧
    (∀ (i : Nat) (h' : HistoryRow), exStoreAH.history.length ≤ i →
      exUpdateProtected.1.history[i]? = some h' →
      ∀ h ∈ exStoreAH.history, h.note_id = "A" →
        h.date_modified_to ≤ h'.date_modified_from) :=
  ⟨⟨exStoreAH_ordered, by decide⟩,
    updateNote_history_ordered exCrypto "h1" 10000 5 "A" ⟨"A", "t2", "x2", true, 0⟩ "k"
      (some "src") exStoreAH exStoreAH_ordered (by decide)⟩

/-- Witness for C16: aligning the snapshots of note A of `exStorePlain` to protected. -/
theorem protectNoteHistory_exact_witness :
    (exStorePlain.history.map (fun r => r.note_history_id)).Nodup ∧
    (protectNoteHistory exCrypto exStorePlain "A" "k" true (some "src")).history
      = exStorePlain.history.map (fun r =>
          if r.note_id = "A" ∧ r.is_protected ≠ true
          then protectHistoryRow exCrypto "k" true r else r) ∧
    (protectNoteHistory exCrypto exStorePlain "A" "k" true (some "src")).sync
      = exStorePlain.sync ++ (exStorePlain.history.filter (fun r => r.note_id == "A" &&
            (r.is_protected != true))).map
          (fun h => ⟨SyncKind.noteHistory, some h.note_history_id, some "src"⟩) ∧
    (protectNoteHistory exCrypto exStorePlain "A" "k" true (some "src")).writes
      = exStorePlain.writes + (exStorePlain.history.filter (fun r => r.note_id == "A" &&
            (r.is_protected != true))).length ∧
    (protectNoteHistory exCrypto exStorePlain "A" "k" true (some "src")).notes
      = exStorePlain.notes ∧
    (protectNoteHistory exCrypto exStorePlain "A" "k" true (some "src")).tree
      = exStorePlain.tree :=
  ⟨by decide, protectNoteHistory_exact exCrypto "k" true (some "src") exStorePlain "A"
    (by decide)⟩

theorem exStoreCycle_cycle :
    Reach exStoreCycle.tree "A" "A" ∧ Relation.TransGen (Edge exStoreCycle.tree) "A" "A" := by
  have h1 : Edge exStoreCycle.tree "A" "B" :=
    ⟨⟨"tBA", "B", "A", 0, false, 0, false⟩, by decide, rfl, rfl⟩
  have h2 : Edge exStoreCycle.tree "B" "A" :=
    ⟨⟨"tAB", "A", "B", 0, false, 0, false⟩, by decide, rfl, rfl⟩
  exact ⟨Relation.ReflTransGen.refl, Relation.TransGen.tail (Relation.TransGen.single h1) h2⟩

theorem exStoreCycle_rows (m : String) (h : Reach exStoreCycle.tree "A" m) :
    ∃ r ∈ exStoreCycle.notes, r.note_id = m := by
  have hm : m = "A" ∨ m = "B" := by
    induction h with
    | refl => exact Or.inl rfl
    | tail _ he _ =>
      obtain ⟨r, hr, _, rfl⟩ := he
      simp only [exStoreCycle, List.mem_cons, List.mem_singleton, List.not_mem_nil,
        or_false] at hr
      rcases hr with rfl | rfl
      · exact Or.inl rfl
      · exact Or.inr rfl
  rcases hm with rfl | rfl
  · exact ⟨⟨"A", "a", "", 0, 0, false, false⟩, by decide, rfl⟩
  · exact ⟨⟨"B", "b", "", 0, 0, false, false⟩, by decide, rfl⟩

/-- C17 (as stated) fails: in `exStoreCycle` a cycle is reachable from note A, and with no
amount of fuel does `protectNoteRecursively` fail with an error. -/
theorem protectNoteRecursively_no_structural_error_counterexample :
    (Reach exStoreCycle.tree "A" "A" ∧ Relation.TransGen (Edge exStoreCycle.tree) "A" "A") ∧
    ¬ ∃ (fuel : Nat) (e : Err),
      protectNoteRecursively exCrypto "k" true (some "src") fuel exStoreCycle "A"
        = some (.error e) := by
  refine ⟨exStoreCycle_cycle, ?_⟩
  rintro ⟨fuel, e, h⟩
  exact protectNoteRecursively_no_error exCrypto "k" true (some "src") exStoreCycle.tree
    (exStoreCycle.notes.map (fun r => r.note_id)) fuel exStoreCycle "A" e rfl rfl
    (fun m hm => by
      obtain ⟨r, hr, hid⟩ := exStoreCycle_rows m hm
      exact List.mem_map.mpr ⟨r, hr, hid⟩) h

/-- Witness for C17 (amended): the two-note cycle of `exStoreCycle`. -/
theorem protectNoteRecursively_cycle_witness :
    (Reach exStoreCycle.tree "A" "A" ∧ Relation.TransGen (Edge exStoreCycle.tree) "A" "A") ∧
    ∀ fuel s', protectNoteRecursively exCrypto "k" true (some "src") fuel exStoreCycle "A"
      ≠ some (.ok s') :=
  ⟨exStoreCycle_cycle,
    protectNoteRecursively_cycle exCrypto "k" true (some "src") exStoreCycle "A" "A"
      exStoreCycle_cycle.1 exStoreCycle_cycle.2⟩

/-- C18 (as stated) fails: no placement of `exStoreAB` has the identifier `nope`, and
`deleteNote` returns normally with two more entries in the change log. -/
theorem deleteNote_no_not_found_counterexample :
    selectNoteTree exStoreAB.tree "nope" = none ∧
    deleteNote exClock (some "src") 1 exStoreAB "nope"
      = some (.ok { exStoreAB with
          sync := [⟨SyncKind.noteTree, some "nope", some "src"⟩,
                   ⟨SyncKind.note, none, some "src"⟩] }) ∧
    (¬ ∃ e, deleteNote exClock (some "src") 1 exStoreAB "nope" = some (.error e)) :=
  ⟨by decide, rfl, by
    rintro ⟨e, he⟩
    have h : deleteNote exClock (some "src") 1 exStoreAB "nope"
        = some (.ok { exStoreAB with
            sync := [⟨SyncKind.noteTree, some "nope", some "src"⟩,
                     ⟨SyncKind.note, none, some "src"⟩] }) := rfl
    rw [h] at he
    simp at he⟩

/-- Witness for C18 (amended) -/
theorem deleteNote_missing_placement_witness :
    selectNoteTree exStoreAB.tree "nope" = none ∧
    deleteNote exClock (some "src") (0 + 1) exStoreAB "nope"
      = some (.ok { exStoreAB with
          sync := exStoreAB.sync ++ [⟨SyncKind.noteTree, some "nope", some "src"⟩,
                                     ⟨SyncKind.note, none, some "src"⟩] }) :=
  ⟨by decide, deleteNote_missing_placement exClock (some "src") exStoreAB "nope" 0 (by decide)⟩

/-- C19: the call `exUpdateProtected` passes the source tag `src`; the two entries logged for
the snapshots that `protectNoteHistory` re-encrypts carry no source tag. -/
theorem updateNote_history_sync_untagged :
    exUpdateProtected.1.sync
      = [⟨SyncKind.noteHistory, some "h1", some "src"⟩,
         ⟨SyncKind.noteHistory, some "h0", none⟩,
         ⟨SyncKind.noteHistory, some "h1", none⟩,
         ⟨SyncKind.note, some "A", some "src"⟩] := by
  decide

/-- Witness for C20: deleting a placement on the cycle of `exStoreCycle`. -/
theorem deleteNote_terminates_witness :
    (∃ fuel0, ∀ fuel, fuel0 ≤ fuel →
      ∃ s', deleteNote exClock (some "src") fuel exStoreCycle "tAB" = some (.ok s') ∧
        liveCount s'.tree ≤ liveCount exStoreCycle.tree) ∧
    (∀ ch ∈ deleteNoteNext exClock (some "src") exStoreCycle "tAB",
      hitsLive (deleteNoteHead exClock (some "src") exStoreCycle "tAB").tree ch = true) ∧
    liveCount (deleteNoteHead exClock (some "src") exStoreCycle "tAB").tree
      ≤ liveCount exStoreCycle.tree :=
  deleteNote_terminates exClock (some "src") exStoreCycle "tAB"

end Notes
